import Mathlib

/-!
Verification of the `chain` package of goodengineer/thor (src/chain/chain.go):
a persistent block-chain indexer with an authoritative trunk, fork switching
(reorganisations) and transaction-location bookkeeping.

Modelling conventions.

* The key–value store is modelled per key family as an association list with
  map semantics (`kinsert` overwrites, `kerase` deletes), matching the store
  contract of spec §6 (`put` overwrites, `delete` removes, `get` returns the
  unique value).
* A 32-byte hash is a pair `(num, rest)`: the first four bytes of a block id
  encode its number (spec §3, invariant 5), the remaining bytes are abstract.
* A transaction is represented by its id alone: `chain.go` inspects nothing
  but `tx.ID()`.
* Read paths thread the `Chain` value because the Go caches are load-through:
  `GetOrLoad` inserts the loaded value into the cache on a miss, so reads
  mutate cache state.  LRU eviction (cache package, not under src/) is
  modelled from the spec §4.2 without the capacity bound: eviction only
  removes entries and none of the verified properties depend on it.
* Store failures: loads fail exactly when a key is absent (`notFound`);
  the single fallible mutation point is the batch commit / direct put,
  modelled by a boolean `commitOk` parameter (`false` = the store reports a
  write error, as `batch.Write()` / `SaveBlockReceipts` may in Go).
* `traceBackToCommonAncestor` is an unbounded Go loop; it is modelled with
  explicit fuel.  Any terminating execution of the Go loop visits, on each
  side, pairwise distinct stored blocks (a revisit would close a parent
  cycle and loop forever), so the fuel chosen at each call site dominates
  every terminating Go execution; fuel exhaustion (`outOfFuel`) models Go
  non-termination on malformed storage.
-/

namespace Thor

/-- A transaction; `chain.go` only ever inspects `tx.ID()`, so a transaction
is represented by its 32-byte id (abstracted as a `Nat`). -/
structure Tx where
  id : Nat
deriving DecidableEq

/-- A 32-byte hash.  For block ids, the first 4 bytes encode the block
number big-endian (spec §3 invariant 5); `num` is that prefix and `rest`
abstracts the remaining 28 bytes. -/
structure Hash where
  num : Nat
  rest : Nat
deriving DecidableEq

/-- block.Number(id): the number encoded in the first 4 bytes of a block id. -/
def blockNumber (h : Hash) : Nat := h.num

/-- A block header: `chain.go` uses `ID()`, `ParentID()` and `Number()`. -/
structure Header where
  id : Hash
  parentID : Hash
deriving DecidableEq

/-- Header.Number() is derived from the id. -/
def Header.number (h : Header) : Nat := blockNumber h.id

/-- A block: a header together with the body's ordered transactions. -/
structure Block where
  header : Header
  txs : List Tx
deriving DecidableEq

/-- Block number, derived from the header id. -/
def Block.number (b : Block) : Nat := b.header.number

/-- A transaction receipt (opaque to `chain.go`). -/
abbrev Receipt := Nat

/-- persist.TxLocation: where on the trunk a transaction lives. -/
structure TxLocation where
  blockID : Hash
  index : Nat
deriving DecidableEq

/-! ### Association lists with map semantics

The flat key–value store keeps one value per key; each key family of the
persistence codec (spec §4.1) is modelled as an association list where
insertion overwrites the key. -/

/-- Look up the value stored under a key. -/
def kfind {α β : Type} [DecidableEq α] : List (α × β) → α → Option β
  | [], _ => none
  | (k, v) :: rest, a => if k = a then some v else kfind rest a

/-- Delete a key. -/
def kerase {α β : Type} [DecidableEq α] : List (α × β) → α → List (α × β)
  | [], _ => []
  | (k, v) :: rest, a => if k = a then kerase rest a else (k, v) :: kerase rest a

/-- Insert a key, overwriting any previous binding. -/
def kinsert {α β : Type} [DecidableEq α] (m : List (α × β)) (a : α) (v : β) : List (α × β) :=
  (a, v) :: kerase m a

/-! ### Persistent storage

One field per key family of the persistence codec (spec §4.1); the families
live under distinct key prefixes in the flat store, so they never alias. -/

/-- The persisted state of the key–value store, split by key family. -/
structure Storage where
  headers : List (Hash × Header)
  bodies : List (Hash × List Tx)
  receipts : List (Hash × List Receipt)
  txLocs : List (Nat × TxLocation)
  trunk : List (Nat × Hash)
  best : Option Hash
deriving DecidableEq

/-- Modelled from the spec §4.1: `persist.SaveBlock` writes the encoded
header and body under `block-header(id)` / `block-body(id)` (the persist
package is not under src/). -/
def saveBlock (s : Storage) (b : Block) : Storage :=
  { s with headers := kinsert s.headers b.header.id b.header,
           bodies := kinsert s.bodies b.header.id b.txs }

/-- Modelled from the spec §4.1: `persist.SaveTxLocations` writes one
`TxLocation` row per transaction, keyed by tx id, pointing at the given
block with the transaction's position in the body. -/
def saveTxLocsList (m : List (Nat × TxLocation)) (txs : List Tx) (blockID : Hash) :
    List (Nat × TxLocation) :=
  (txs.enum).foldl (fun acc p => kinsert acc p.2.id ⟨blockID, p.1⟩) m

/-- Modelled from the spec §4.1: `persist.SaveTxLocations` applied to a batch. -/
def saveTxLocations (s : Storage) (txs : List Tx) (blockID : Hash) : Storage :=
  { s with txLocs := saveTxLocsList s.txLocs txs blockID }

/-- Modelled from the spec §4.1: `persist.EraseTxLocations` deletes the
`TxLocation` rows of the given transactions. -/
def eraseTxLocsList (m : List (Nat × TxLocation)) (txs : List Tx) :
    List (Nat × TxLocation) :=
  txs.foldl (fun acc t => kerase acc t.id) m

/-- Modelled from the spec §4.1: `persist.EraseTxLocations` applied to a batch. -/
def eraseTxLocations (s : Storage) (txs : List Tx) : Storage :=
  { s with txLocs := eraseTxLocsList s.txLocs txs }

/-- Modelled from the spec §4.1: `persist.SaveTrunkBlockID` writes
`trunk(number) := id`, deriving the number from the id. -/
def saveTrunkBlockID (s : Storage) (id : Hash) : Storage :=
  { s with trunk := kinsert s.trunk (blockNumber id) id }

/-- Modelled from the spec §4.1: `persist.EraseTrunkBlockID` deletes the
trunk entry at the number derived from the id. -/
def eraseTrunkBlockID (s : Storage) (id : Hash) : Storage :=
  { s with trunk := kerase s.trunk (blockNumber id) }

/-- Modelled from the spec §4.1: `persist.SaveBestBlockID`. -/
def saveBestBlockID (s : Storage) (id : Hash) : Storage :=
  { s with best := some id }

/-- Modelled from the spec §4.1: `persist.SaveBlockReceipts`. -/
def saveBlockReceipts (s : Storage) (id : Hash) (rs : List Receipt) : Storage :=
  { s with receipts := kinsert s.receipts id rs }

/-- Modelled from the spec §4.1: `persist.LoadTxLocation`. -/
def loadTxLocation (s : Storage) (txID : Nat) : Option TxLocation :=
  kfind s.txLocs txID

/-! ### Errors -/

/-- Errors surfaced by the chain (spec §6 error taxonomy).  `badIndex`
models the Go runtime panic of indexing `body.Txs[loc.Index]` out of range;
`outOfFuel` models non-termination of the common-ancestor loop on malformed
storage; `storeFailed` models an I/O error reported by the store on a
batch commit or direct put. -/
inductive ChainErr
  | notFound
  | parentMissing
  | genesisMismatch
  | storeFailed
  | badIndex
  | outOfFuel
deriving DecidableEq

/-- Chain.IsNotFound: the model's loads signal a missing key with
`ChainErr.notFound` (the store's native not-found and the indexer's
`errNotFound` coincide in the model). -/
def isNotFound (e : ChainErr) : Bool := e = ChainErr.notFound

instance {e a : Type} [DecidableEq e] [DecidableEq a] : DecidableEq (Except e a) :=
  fun x y =>
  match x, y with
  | .error e1, .error e2 =>
    if h : e1 = e2 then .isTrue (h ▸ rfl) else .isFalse (fun hh => by cases hh; exact h rfl)
  | .error _, .ok _ => .isFalse (fun hh => by cases hh)
  | .ok _, .error _ => .isFalse (fun hh => by cases hh)
  | .ok a1, .ok a2 =>
    if h : a1 = a2 then .isTrue (h ▸ rfl) else .isFalse (fun hh => by cases hh; exact h rfl)

/-! ### The chain: caches and in-memory state

The Go `cache.LRU` (not under src/) is modelled from the spec §4.2: a map
with `get_or_load` that returns a hit, or runs the loader, stores a
non-error result and returns it.  The capacity bound / eviction only remove
entries and are not modelled. -/

/-- The four read caches of `Chain.cached`. -/
structure Cached where
  header : List (Hash × Header)
  body : List (Hash × List Tx)
  blockTxIDs : List (Hash × List (Nat × Nat))
  receipts : List (Hash × List Receipt)
deriving DecidableEq

/-- The chain state: the borrowed store, the in-memory best block and the
caches.  The RW lock serialises operations; the model is the sequential
semantics under the lock. -/
structure Chain where
  store : Storage
  bestBlock : Option Block
  cached : Cached
deriving DecidableEq

/-- chain.New: fresh caches, no in-memory best block. -/
def Chain.new (s : Storage) : Chain :=
  { store := s, bestBlock := none,
    cached := { header := [], body := [], blockTxIDs := [], receipts := [] } }

/-- The empty store: the state before any write. -/
def emptyStorage : Storage := ⟨[], [], [], [], [], none⟩

/-- A chain over an empty store. -/
def initChain : Chain := Chain.new emptyStorage

/-- Modelled from the spec §4.2: `cache.GetOrLoad` — return a hit, or run
the loader, keep a non-error result and return it (loader errors are not
cached). -/
def getOrLoad {κ α : Type} [DecidableEq κ] (cache : List (κ × α)) (k : κ)
    (load : Except ChainErr α) : Except ChainErr α × List (κ × α) :=
  match kfind cache k with
  | some v => (.ok v, cache)
  | none =>
    match load with
    | .ok v => (.ok v, kinsert cache k v)
    | .error e => (.error e, cache)

/-- Option-to-Except view of a storage load: a missing key is `notFound`. -/
def o2e {α : Type} : Option α → Except ChainErr α
  | some v => .ok v
  | none => .error .notFound

/-- Chain.getBlockHeader: load-through the header cache against
`persist.LoadBlockHeader`. -/
def getBlockHeader (c : Chain) (id : Hash) : Except ChainErr Header × Chain :=
  let r := getOrLoad c.cached.header id (o2e (kfind c.store.headers id))
  (r.1, { c with cached := { c.cached with header := r.2 } })

/-- Chain.getBlockBody: load-through the body cache against
`persist.LoadBlockBody`. -/
def getBlockBody (c : Chain) (id : Hash) : Except ChainErr (List Tx) × Chain :=
  let r := getOrLoad c.cached.body id (o2e (kfind c.store.bodies id))
  (r.1, { c with cached := { c.cached with body := r.2 } })

/-- Chain.getBlock: fetch header and body and recompose
(`block.Compose(header, body.Txs)`). -/
def getBlock (c : Chain) (id : Hash) : Except ChainErr Block × Chain :=
  match getBlockHeader c id with
  | (.error e, c') => (.error e, c')
  | (.ok h, c') =>
    match getBlockBody c' id with
    | (.error e, c'') => (.error e, c'')
    | (.ok txs, c'') => (.ok ⟨h, txs⟩, c'')

/-- Chain.getBlockIDByNumber: `persist.LoadTrunkBlockID`. -/
def getBlockIDByNumber (c : Chain) (num : Nat) : Except ChainErr Hash :=
  o2e (kfind c.store.trunk num)

/-- Chain.getBlockByNumber: trunk-id lookup composed with getBlock. -/
def getBlockByNumber (c : Chain) (num : Nat) : Except ChainErr Block × Chain :=
  match getBlockIDByNumber c num with
  | .error e => (.error e, c)
  | .ok id => getBlock c id

/-- Chain.getBestBlock: return the in-memory pointer if set; otherwise load
the persisted best id, materialise the block and populate the pointer. -/
def getBestBlock (c : Chain) : Except ChainErr Block × Chain :=
  match c.bestBlock with
  | some b => (.ok b, c)
  | none =>
    match c.store.best with
    | none => (.error .notFound, c)
    | some id =>
      match getBlock c id with
      | (.error e, c') => (.error e, c')
      | (.ok b, c') => (.ok b, { c' with bestBlock := some b })

/-- Chain.getTransaction: load the `TxLocation`, fetch the body and index
into it (the Go code indexes `body.Txs[loc.Index]` unchecked; an
out-of-range index is the `badIndex` panic). -/
def getTransaction (c : Chain) (txID : Nat) :
    Except ChainErr (Tx × TxLocation) × Chain :=
  match loadTxLocation c.store txID with
  | none => (.error .notFound, c)
  | some loc =>
    match getBlockBody c loc.blockID with
    | (.error e, c') => (.error e, c')
    | (.ok txs, c') =>
      match txs.get? loc.index with
      | some t => (.ok (t, loc), c')
      | none => (.error .badIndex, c')

/-- The per-block tx-id index built by Chain.getTransactionIDs' loader:
`tx id ↦ position in body` (later positions overwrite earlier ones, as in
the Go map). -/
def buildTxIdMap (txs : List Tx) : List (Nat × Nat) :=
  (txs.enum).foldl (fun acc p => kinsert acc p.2.id p.1) []

/-- Chain.getTransactionIDs: load-through the blockTxIDs cache; the loader
fetches the body (through the body cache) and builds the id map. -/
def getTransactionIDs (c : Chain) (blockID : Hash) :
    Except ChainErr (List (Nat × Nat)) × Chain :=
  match kfind c.cached.blockTxIDs blockID with
  | some ids => (.ok ids, c)
  | none =>
    match getBlockBody c blockID with
    | (.error e, c') => (.error e, c')
    | (.ok txs, c') =>
      let ids := buildTxIdMap txs
      (.ok ids,
        { c' with cached := { c'.cached with blockTxIDs := kinsert c'.cached.blockTxIDs blockID ids } })

/-! ### Common-ancestor walk

Chain.traceBackToCommonAncestor is an unbounded loop; the model runs on
explicit fuel.  Each looping iteration moves at least one side to a parent
block freshly loaded from storage; a terminating Go execution therefore
visits at most `|headers|` stored blocks per side after the two starting
blocks, so the fuel supplied at the call sites below dominates every
terminating Go execution and `outOfFuel` arises exactly when the Go loop
would never return. -/

/-- The loop body of traceBackToCommonAncestor with the two accumulated
side lists (`c1`, `c2` in Go; appended head-first). -/
def traceAux (c : Chain) (b1 b2 : Block) (acc1 acc2 : List Block) :
    Nat → Except ChainErr (Block × List Block × List Block) × Chain
  | 0 => (.error .outOfFuel, c)
  | fuel + 1 =>
    if b1.number > b2.number then
      match getBlock c b1.header.parentID with
      | (.error e, c') => (.error e, c')
      | (.ok p1, c') => traceAux c' p1 b2 (acc1 ++ [b1]) acc2 fuel
    else if b1.number < b2.number then
      match getBlock c b2.header.parentID with
      | (.error e, c') => (.error e, c')
      | (.ok p2, c') => traceAux c' b1 p2 acc1 (acc2 ++ [b2]) fuel
    else if b1.header.id = b2.header.id then
      (.ok (b1, acc1, acc2), c)
    else
      match getBlock c b1.header.parentID with
      | (.error e, c') => (.error e, c')
      | (.ok p1, c') =>
        match getBlock c' b2.header.parentID with
        | (.error e, c'') => (.error e, c'')
        | (.ok p2, c'') => traceAux c'' p1 p2 (acc1 ++ [b1]) (acc2 ++ [b2]) fuel

/-- Fuel that dominates every terminating execution of the Go loop: the two
starting numbers bound the iterations on well-formed storage, and twice the
store size bounds the distinct parents either side can visit. -/
def traceFuel (c : Chain) (b1 b2 : Block) : Nat :=
  2 * c.store.headers.length + b1.number + b2.number + 2

/-- Chain.traceBackToCommonAncestor: walk the two branches back to the
deepest shared block; returns `(common, sideOf b1, sideOf b2)`, the side
lists head-first and exclusive of the common ancestor. -/
def traceBack (c : Chain) (b1 b2 : Block) :
    Except ChainErr (Block × List Block × List Block) × Chain :=
  traceAux c b1 b2 [] [] (traceFuel c b1 b2)

/-! ### Writes -/

/-- The per-old-block step of AddBlock's reorg loop: erase the trunk entry
and the tx locations, and record the block's transactions in the
provisional diff map (keyed by tx id, later writes overwrite). -/
def applyOldBlock (acc : Storage × List (Nat × Tx)) (ob : Block) :
    Storage × List (Nat × Tx) :=
  let st := eraseTxLocations (eraseTrunkBlockID acc.1 ob.header.id) ob.txs
  (st, ob.txs.foldl (fun m t => kinsert m t.id t) acc.2)

/-- The per-new-block step of AddBlock's reorg loop: write the trunk entry
and the tx locations, and drop the block's transactions from the diff map. -/
def applyNewBlock (acc : Storage × List (Nat × Tx)) (nb : Block) :
    Storage × List (Nat × Tx) :=
  let st := saveTxLocations (saveTrunkBlockID acc.1 nb.header.id) nb.txs nb.header.id
  (st, nb.txs.foldl (fun m t => kerase m t.id) acc.2)

/-- Chain.AddBlock: idempotent append with optional trunk switch.  The
batch is modelled by accumulating the written storage; `commitOk = false`
makes `batch.Write()` report a store error, in which case the batch is
discarded.  On a successful commit the new block's header and body are
inserted into their caches and, on the trunk path, the in-memory best block
is replaced.  The Go code returns a nil diff for a non-reorg append; the
model returns the empty list. -/
def AddBlock (c : Chain) (newBlock : Block) (isTrunk : Bool) (commitOk : Bool) :
    Except ChainErr (List Tx) × Chain :=
  match getBlock c newBlock.header.id with
  | (.ok _, c') => (.ok [], c')
  | (.error e, c') =>
    if ¬ isNotFound e then (.error e, c')
    else
      match getBlock c' newBlock.header.parentID with
      | (.error e, c'') =>
        if isNotFound e then (.error .parentMissing, c'') else (.error e, c'')
      | (.ok _, c'') =>
        let st0 := saveBlock c''.store newBlock
        if isTrunk then
          match getBestBlock c'' with
          | (.error e, c3) => (.error e, c3)
          | (.ok best, c3) =>
            match traceBack c3 best newBlock with
            | (.error e, c4) => (.error e, c4)
            | (.ok (_, oldBlocks, newBlocks), c4) =>
              let acc1 := oldBlocks.foldl applyOldBlock (st0, [])
              let acc2 := newBlocks.foldl applyNewBlock acc1
              let st := saveBestBlockID acc2.1 newBlock.header.id
              if commitOk then
                let cached := { c4.cached with
                  header := kinsert c4.cached.header newBlock.header.id newBlock.header,
                  body := kinsert c4.cached.body newBlock.header.id newBlock.txs }
                (.ok (acc2.2.map Prod.snd),
                  { store := st, bestBlock := some newBlock, cached := cached })
              else (.error .storeFailed, c4)
        else
          if commitOk then
            let cached := { c''.cached with
              header := kinsert c''.cached.header newBlock.header.id newBlock.header,
              body := kinsert c''.cached.body newBlock.header.id newBlock.txs }
            (.ok [], { c'' with store := st0, cached := cached })
          else (.error .storeFailed, c'')

/-- Chain.WriteGenesis: if no block is stored at number 0, persist the
genesis block, its tx locations, the trunk entry and the best pointer in
one batch and set the in-memory best; otherwise succeed exactly when the
stored block's id matches. -/
def WriteGenesis (c : Chain) (genesis : Block) (commitOk : Bool) :
    Except ChainErr Unit × Chain :=
  match getBlockByNumber c 0 with
  | (.error e, c') =>
    if ¬ isNotFound e then (.error e, c')
    else
      let st := saveBestBlockID
        (saveTrunkBlockID
          (saveTxLocations (saveBlock c'.store genesis) genesis.txs genesis.header.id)
          genesis.header.id)
        genesis.header.id
      if commitOk then (.ok (), { c' with store := st, bestBlock := some genesis })
      else (.error .storeFailed, c')
  | (.ok b, c') =>
    if b.header.id = genesis.header.id then (.ok (), c')
    else (.error .genesisMismatch, c')

/-- Chain.setBlockReceipts: insert into the receipts cache, then persist
directly (no batch); `storeOk = false` makes the put report a store error
after the cache was already updated, exactly as in the Go code. -/
def setBlockReceipts (c : Chain) (blockID : Hash) (rs : List Receipt) (storeOk : Bool) :
    Except ChainErr Unit × Chain :=
  let c' := { c with cached := { c.cached with receipts := kinsert c.cached.receipts blockID rs } }
  if storeOk then (.ok (), { c' with store := saveBlockReceipts c'.store blockID rs })
  else (.error .storeFailed, c')

/-- The loop of Chain.LookupTransaction over the head-side branch: return
the location of the transaction in the first branch block whose tx-id index
contains it. -/
def lookupInBranch (c : Chain) (txID : Nat) :
    List Block → Except ChainErr (Option TxLocation) × Chain
  | [] => (.ok none, c)
  | b :: rest =>
    match getTransactionIDs c b.header.id with
    | (.error e, c') => (.error e, c')
    | (.ok ids, c') =>
      match kfind ids txID with
      | some index => (.ok (some ⟨b.header.id, index⟩), c')
      | none => lookupInBranch c' txID rest

/-- Chain.LookupTransaction: find the location of a transaction on the
chain ending at `blockID`.  Walk the common-ancestor algorithm between that
head and the best block; search the head-side branch through the per-block
tx-id indexes; otherwise fall back to the persisted trunk location, which
is authoritative exactly when it lies at or below the common ancestor. -/
def LookupTransaction (c : Chain) (blockID : Hash) (txID : Nat) :
    Except ChainErr TxLocation × Chain :=
  match getBestBlock c with
  | (.error e, c1) => (.error e, c1)
  | (.ok best, c1) =>
    match getBlock c1 blockID with
    | (.error e, c2) => (.error e, c2)
    | (.ok hd, c2) =>
      match traceBack c2 hd best with
      | (.error e, c3) => (.error e, c3)
      | (.ok (ancestor, branch, _), c3) =>
        match lookupInBranch c3 txID branch with
        | (.error e, c4) => (.error e, c4)
        | (.ok (some loc), c4) => (.ok loc, c4)
        | (.ok none, c4) =>
          match loadTxLocation c4.store txID with
          | none => (.error .notFound, c4)
          | some loc =>
            if blockNumber loc.blockID ≤ ancestor.number then (.ok loc, c4)
            else (.error .notFound, c4)

/-! ### Cache coherence and the pure read layer

The caches are load-through, so in every state produced by the public
operations each cached entry was either loaded from storage or inserted
together with its storage write.  Coherence states this; under it the
threaded reads compute the same results as pure reads against storage. -/

/-- Every cached header is the stored header for its id. -/
def cohHeaders (c : Chain) : Prop :=
  ∀ p ∈ c.cached.header, kfind c.store.headers p.1 = some p.2

/-- Every cached body is the stored body for its id. -/
def cohBodies (c : Chain) : Prop :=
  ∀ p ∈ c.cached.body, kfind c.store.bodies p.1 = some p.2

/-- Every cached tx-id index is the one computed from the stored body. -/
def cohTxIds (c : Chain) : Prop :=
  ∀ p ∈ c.cached.blockTxIDs, (kfind c.store.bodies p.1).map buildTxIdMap = some p.2

/-- Coherence of the three caches consulted by the block read paths. -/
def cacheCoh (c : Chain) : Prop := cohHeaders c ∧ cohBodies c ∧ cohTxIds c

instance (c : Chain) : Decidable (cohHeaders c) := by unfold cohHeaders; infer_instance
instance (c : Chain) : Decidable (cohBodies c) := by unfold cohBodies; infer_instance
instance (c : Chain) : Decidable (cohTxIds c) := by unfold cohTxIds; infer_instance
instance (c : Chain) : Decidable (cacheCoh c) := by unfold cacheCoh; infer_instance

/-- Pure storage read of a block: header and body under the id. -/
def getBlockP (s : Storage) (id : Hash) : Option Block :=
  match kfind s.headers id, kfind s.bodies id with
  | some h, some txs => some (⟨h, txs⟩ : Block)
  | _, _ => none

/-- What a read-lock helper may do to the chain: storage, the best pointer
and the receipts cache are untouched, and cache coherence is preserved. -/
structure ReadStep (c c' : Chain) : Prop where
  store : c'.store = c.store
  best : c'.bestBlock = c.bestBlock
  rcache : c'.cached.receipts = c.cached.receipts
  coh : cacheCoh c → cacheCoh c'

/-- Pure-storage version of the common-ancestor loop body. -/
def traceAuxP (s : Storage) (b1 b2 : Block) (acc1 acc2 : List Block) :
    Nat → Except ChainErr (Block × List Block × List Block)
  | 0 => .error .outOfFuel
  | fuel + 1 =>
    if b1.number > b2.number then
      match getBlockP s b1.header.parentID with
      | none => .error .notFound
      | some p1 => traceAuxP s p1 b2 (acc1 ++ [b1]) acc2 fuel
    else if b1.number < b2.number then
      match getBlockP s b2.header.parentID with
      | none => .error .notFound
      | some p2 => traceAuxP s b1 p2 acc1 (acc2 ++ [b2]) fuel
    else if b1.header.id = b2.header.id then
      .ok (b1, acc1, acc2)
    else
      match getBlockP s b1.header.parentID with
      | none => .error .notFound
      | some p1 =>
        match getBlockP s b2.header.parentID with
        | none => .error .notFound
        | some p2 => traceAuxP s p1 p2 (acc1 ++ [b1]) (acc2 ++ [b2]) fuel

/-- Pure-storage common-ancestor walk at a given fuel. -/
def traceBackP (s : Storage) (b1 b2 : Block) (fuel : Nat) :
    Except ChainErr (Block × List Block × List Block) :=
  traceAuxP s b1 b2 [] [] fuel

/-! ### Ancestry in storage

Specification-side notions used to state properties of the walk and of the
trunk: the ancestor relation, head-first parent paths, the discipline of a
hash-chained history (each block's parent is stored one number below), and
the computable "ancestor at a given number". -/

/-- `Anc s b x`: `x` is `b` or an ancestor of `b`, following parent links
through storage; a hash chain ends at its genesis, so number-0 blocks have
no ancestors but themselves. -/
inductive Anc (s : Storage) : Block → Block → Prop
  | refl (b : Block) : Anc s b b
  | step {b p x : Block} : b.number ≠ 0 → getBlockP s b.header.parentID = some p →
      Anc s p x → Anc s b x

/-- `PathTo s b l m`: `l` is the head-first parent path from `b` down to
`m`, inclusive of `b` and exclusive of `m` (so `l = []` iff `b = m`). -/
inductive PathTo (s : Storage) : Block → List Block → Block → Prop
  | nil (b : Block) : PathTo s b [] b
  | cons {b p m : Block} {l : List Block} : b.number ≠ 0 →
      getBlockP s b.header.parentID = some p → PathTo s p l m → PathTo s b (b :: l) m

/-- `Rooted s b`: the parent chain of `b` descends by exactly one number per
step all the way to a number-0 block, as in a well-formed hash chain. -/
inductive Rooted (s : Storage) : Block → Prop
  | base {b : Block} : b.number = 0 → Rooted s b
  | step {b p : Block} : getBlockP s b.header.parentID = some p →
      p.number + 1 = b.number → Rooted s p → Rooted s b

/-- The ancestor of `b` at number `n`, walking at most `fuel` parent links. -/
def ancAtF (s : Storage) : Nat → Block → Nat → Option Block
  | 0, b, n => if b.number = n then some b else none
  | fuel + 1, b, n =>
    if b.number = n then some b
    else
      match getBlockP s b.header.parentID with
      | none => none
      | some p => ancAtF s fuel p n

/-- The ancestor of `b` at number `n` (`b` itself when `n = b.number`); on a
well-formed chain the walk needs at most `b.number` steps. -/
def ancAt (s : Storage) (b : Block) (n : Nat) : Option Block := ancAtF s b.number b n

/-! Storage well-formedness, list-level (decidable on concrete storages). -/

/-- Stored headers are keyed by their own id. -/
def hidOk (s : Storage) : Prop := ∀ p ∈ s.headers, (p.2).id = p.1

/-- Headers and bodies are written in pairs (persist.SaveBlock), so a key
has a header iff it has a body. -/
def hbOk (s : Storage) : Prop :=
  (∀ p ∈ s.headers, (kfind s.bodies p.1).isSome) ∧
    (∀ p ∈ s.bodies, (kfind s.headers p.1).isSome)

/-- The hash-chain discipline: every stored non-genesis block's parent is
stored, one number below. -/
def stepOk (s : Storage) : Prop :=
  ∀ p ∈ s.headers, blockNumber p.1 ≠ 0 →
    (kfind s.headers (p.2).parentID).isSome ∧
      blockNumber (p.2).parentID + 1 = blockNumber p.1

/-- At most one stored block has number 0. -/
def gen0 (s : Storage) : Prop :=
  ∀ p ∈ s.headers, ∀ q ∈ s.headers, blockNumber p.1 = 0 → blockNumber q.1 = 0 → p.1 = q.1

/-- Well-formed storage: a hash-chained block store with a unique genesis. -/
def SInv (s : Storage) : Prop := hidOk s ∧ hbOk s ∧ stepOk s ∧ gen0 s

instance (s : Storage) : Decidable (hidOk s) := by unfold hidOk; infer_instance
instance (s : Storage) : Decidable (hbOk s) := by unfold hbOk; infer_instance
instance (s : Storage) : Decidable (stepOk s) := by unfold stepOk; infer_instance
instance (s : Storage) : Decidable (gen0 s) := by unfold gen0; infer_instance
instance (s : Storage) : Decidable (SInv s) := by unfold SInv; infer_instance

/-! ### Concrete fixtures

Small concrete chains used to witness the theorems and to exhibit
counterexamples; they follow the spec's scenarios (§8): a genesis, a linear
trunk, a side branch, and a reorg. -/

namespace Fx

/-- Genesis block: number 0, one transaction (id 7). -/
def g : Block := ⟨⟨⟨0, 100⟩, ⟨0, 999⟩⟩, [⟨7⟩]⟩

/-- Trunk block number 1 on top of the genesis, with transaction 11. -/
def b1 : Block := ⟨⟨⟨1, 101⟩, ⟨0, 100⟩⟩, [⟨11⟩]⟩

/-- Trunk block number 2 on top of `b1`, with transactions 21 and 22. -/
def b2 : Block := ⟨⟨⟨2, 102⟩, ⟨1, 101⟩⟩, [⟨21⟩, ⟨22⟩]⟩

/-- Side-branch block number 2 on top of `b1`, sharing transaction 22. -/
def b2s : Block := ⟨⟨⟨2, 202⟩, ⟨1, 101⟩⟩, [⟨22⟩]⟩

/-- Side-branch block number 3 on top of `b2s`. -/
def b3s : Block := ⟨⟨⟨3, 203⟩, ⟨2, 202⟩⟩, [⟨31⟩]⟩

/-- Chain after writing the genesis. -/
def c1 : Chain := (WriteGenesis initChain g true).2

/-- Chain after appending `b1` to the trunk. -/
def c2 : Chain := (AddBlock c1 b1 true true).2

/-- Chain after appending `b2` to the trunk. -/
def c3 : Chain := (AddBlock c2 b2 true true).2

/-- Chain after adding the side-branch leaf `b2s` (best is still `b2`). -/
def c4 : Chain := (AddBlock c3 b2s false true).2

/-- The same storage as `c2` behind fresh (empty) caches, as after a cold
restart. -/
def cCold : Chain := Chain.new c2.store

/-- A block whose number skips a level: number 2 but parented on the
genesis.  `AddBlock` accepts it and tears a hole in the trunk index. -/
def bGap : Block := ⟨⟨⟨2, 555⟩, ⟨0, 100⟩⟩, []⟩

/-- A block that duplicates the genesis transaction 7 at number 1. -/
def bDup : Block := ⟨⟨⟨1, 104⟩, ⟨0, 100⟩⟩, [⟨7⟩]⟩

/-- An empty substitute for `bDup` at number 1, used to reorg `bDup` away. -/
def bRepl : Block := ⟨⟨⟨1, 303⟩, ⟨0, 100⟩⟩, []⟩

/-- Chain holding the duplicated transaction on the trunk. -/
def cDup : Chain := (AddBlock c1 bDup true true).2

/-- Chain after reorging `bDup` away: transaction 7 sits only in the
genesis, yet its location record was erased by the reorg. -/
def cDup2 : Chain := (AddBlock cDup bRepl true true).2

end Fx

/-- Invariant of the provisional diff map built during a reorg: keys are
pairwise distinct and every entry holds the transaction whose id is its
key (AddBlock only ever inserts a transaction under its own id). -/
def diffInv (m : List (Nat × Tx)) : Prop :=
  (m.map Prod.fst).Nodup ∧ ∀ p ∈ m, (p.2).id = p.1

/-- Chain states reachable by successful public writes that respect the
numbering discipline a hash chain is built under: the genesis has number 0
and every added block's number is one above its stored parent's.  The
commit flag stays free, so sequences containing idempotent re-adds whose
batch would have failed are covered as well. -/
inductive Reach : Chain → Prop
  | init : Reach initChain
  | genesis {c c' : Chain} {g : Block} {cok : Bool} : Reach c → g.number = 0 →
      WriteGenesis c g cok = (.ok (), c') → Reach c'
  | add {c c' : Chain} {nb : Block} {flag cok : Bool} {diff : List Tx} : Reach c →
      (∀ p, getBlockP c.store nb.header.parentID = some p → nb.number = p.number + 1) →
      AddBlock c nb flag cok = (.ok diff, c') → Reach c'

/-- Chain states reachable like `Reach`, additionally requiring that every
added block's transactions carry ids that occur in no stored body — the
global uniqueness of transaction ids the location index implicitly relies
on. -/
inductive ReachF : Chain → Prop
  | init : ReachF initChain
  | genesis {c c' : Chain} {g : Block} {cok : Bool} : ReachF c → g.number = 0 →
      WriteGenesis c g cok = (.ok (), c') → ReachF c'
  | add {c c' : Chain} {nb : Block} {flag cok : Bool} {diff : List Tx} : ReachF c →
      (∀ p, getBlockP c.store nb.header.parentID = some p → nb.number = p.number + 1) →
      (∀ t ∈ nb.txs, ∀ q ∈ c.store.bodies, ∀ u ∈ q.2, u.id ≠ t.id) →
      AddBlock c nb flag cok = (.ok diff, c') → ReachF c'

/-- The location index points at trunk blocks and indexes a transaction
carrying the location's key as id. -/
def locFwd (s : Storage) : Prop :=
  ∀ tid loc, kfind s.txLocs tid = some loc →
    kfind s.trunk (blockNumber loc.blockID) = some loc.blockID ∧
    ∃ txs, kfind s.bodies loc.blockID = some txs ∧
      ∃ hlt : loc.index < txs.length, (txs.get ⟨loc.index, hlt⟩).id = tid

/-- Every transaction of a trunk block has a persisted location. -/
def locBwd (s : Storage) : Prop :=
  ∀ n bid, kfind s.trunk n = some bid →
    ∀ txs, kfind s.bodies bid = some txs →
      ∀ t ∈ txs, (kfind s.txLocs t.id).isSome

/-- No transaction id occurs in two distinct stored bodies. -/
def txuOk (s : Storage) : Prop :=
  ∀ p ∈ s.bodies, ∀ q ∈ s.bodies, ∀ u ∈ p.2, ∀ v ∈ q.2, u.id = v.id → p.1 = q.1

/-- The transaction-location invariant of the persisted state. -/
def TInv (s : Storage) : Prop := txuOk s ∧ locFwd s ∧ locBwd s

/-- The trunk-index invariant carried across the reachable states: storage
is well-formed, caches are coherent, and either no genesis has been
written yet (no best pointer, empty storage) or the in-memory best block
is stored, the persisted best id tracks it, and the trunk table is exactly
the ancestor map of the best block. -/
def CInv (c : Chain) : Prop :=
  SInv c.store ∧ cacheCoh c ∧
    ((c.bestBlock = none ∧ c.store = emptyStorage) ∨
      ∃ bb, c.bestBlock = some bb ∧
        c.store.best = some bb.header.id ∧
        getBlockP c.store bb.header.id = some bb ∧
        ∀ n, kfind c.store.trunk n = (ancAt c.store bb n).map (fun x => x.header.id))

theorem kfind_mem {α β : Type} [DecidableEq α] {m : List (α × β)} {a : α} {v : β}
    (h : kfind m a = some v) : (a, v) ∈ m := by
  induction m with
  | nil => simp [kfind] at h
  | cons p rest ih =>
    obtain ⟨k, w⟩ := p
    by_cases hk : k = a
    · subst hk
      simp [kfind] at h
      subst h
      exact List.mem_cons_self _ _
    · simp [kfind, hk] at h
      exact List.mem_cons_of_mem _ (ih h)

theorem kfind_kerase {α β : Type} [DecidableEq α] (m : List (α × β)) (a b : α) :
    kfind (kerase m a) b = if a = b then none else kfind m b := by
  induction m with
  | nil => simp [kerase, kfind]
  | cons p rest ih =>
    obtain ⟨k, w⟩ := p
    by_cases hka : k = a
    · subst hka
      rw [show kerase ((k, w) :: rest) k = kerase rest k by simp [kerase], ih]
      by_cases hkb : k = b
      · simp [hkb]
      · simp [kfind, hkb]
    · rw [show kerase ((k, w) :: rest) a = (k, w) :: kerase rest a by simp [kerase, hka]]
      by_cases hkb : k = b
      · subst hkb
        have hab : ¬ a = k := fun h => hka h.symm
        simp [kfind, hab]
      · simp [kfind, hkb, ih]

theorem kfind_kinsert {α β : Type} [DecidableEq α] (m : List (α × β)) (a b : α) (v : β) :
    kfind (kinsert m a v) b = if a = b then some v else kfind m b := by
  unfold kinsert
  by_cases hab : a = b
  · subst hab; simp [kfind]
  · simp [kfind, hab, kfind_kerase]

theorem kfind_kinsert_self {α β : Type} [DecidableEq α] (m : List (α × β)) (a : α) (v : β) :
    kfind (kinsert m a v) a = some v := by
  simp [kfind_kinsert]

theorem mem_kerase {α β : Type} [DecidableEq α] {m : List (α × β)} {p : α × β} {a : α}
    (h : p ∈ kerase m a) : p ∈ m := by
  induction m with
  | nil => simp [kerase] at h
  | cons q rest ih =>
    obtain ⟨k, w⟩ := q
    by_cases hka : k = a
    · rw [show kerase ((k, w) :: rest) a = kerase rest a by simp [kerase, hka]] at h
      exact List.mem_cons_of_mem _ (ih h)
    · rw [show kerase ((k, w) :: rest) a = (k, w) :: kerase rest a by simp [kerase, hka]] at h
      rcases List.mem_cons.mp h with h | h
      · exact h ▸ List.mem_cons_self _ _
      · exact List.mem_cons_of_mem _ (ih h)

theorem mem_kinsert_elim {α β : Type} [DecidableEq α] {m : List (α × β)} {p : α × β} {a : α}
    {v : β} (h : p ∈ kinsert m a v) : p = (a, v) ∨ p ∈ m := by
  rcases List.mem_cons.mp h with h | h
  · exact Or.inl h
  · exact Or.inr (mem_kerase h)

theorem ReadStep.same {c : Chain} : ReadStep c c :=
  ⟨Eq.refl _, Eq.refl _, Eq.refl _, fun h => h⟩

theorem ReadStep.trans {a b c : Chain} (h1 : ReadStep a b) (h2 : ReadStep b c) :
    ReadStep a c :=
  ⟨h2.store.trans h1.store, h2.best.trans h1.best, h2.rcache.trans h1.rcache,
    fun h => h2.coh (h1.coh h)⟩

theorem getBlockHeader_spec (c : Chain) (bid : Hash) (hcoh : cacheCoh c) :
    (getBlockHeader c bid).1 = o2e (kfind c.store.headers bid) ∧
      ReadStep c (getBlockHeader c bid).2 := by
  unfold getBlockHeader getOrLoad
  rcases hfc : kfind c.cached.header bid with _ | v
  · rcases hfs : kfind c.store.headers bid with _ | h
    · simp [hfc, hfs, o2e]
      exact ⟨Eq.refl _, Eq.refl _, Eq.refl _, fun h => h⟩
    · simp [hfc, hfs, o2e]
      refine ⟨Eq.refl _, Eq.refl _, Eq.refl _, fun hc => ⟨?_, hc.2.1, hc.2.2⟩⟩
      intro p hp
      rcases mem_kinsert_elim hp with h' | h'
      · subst h'; exact hfs
      · exact hc.1 p h'
  · have := hcoh.1 _ (kfind_mem hfc)
    simp [hfc, this, o2e]
    exact ⟨Eq.refl _, Eq.refl _, Eq.refl _, fun h => h⟩

theorem getBlockBody_spec (c : Chain) (bid : Hash) (hcoh : cacheCoh c) :
    (getBlockBody c bid).1 = o2e (kfind c.store.bodies bid) ∧
      ReadStep c (getBlockBody c bid).2 := by
  unfold getBlockBody getOrLoad
  rcases hfc : kfind c.cached.body bid with _ | v
  · rcases hfs : kfind c.store.bodies bid with _ | txs
    · simp [hfc, hfs, o2e]
      exact ⟨Eq.refl _, Eq.refl _, Eq.refl _, fun h => h⟩
    · simp [hfc, hfs, o2e]
      refine ⟨Eq.refl _, Eq.refl _, Eq.refl _, fun hc => ⟨hc.1, ?_, hc.2.2⟩⟩
      intro p hp
      rcases mem_kinsert_elim hp with h' | h'
      · subst h'; exact hfs
      · exact hc.2.1 p h'
  · have := hcoh.2.1 _ (kfind_mem hfc)
    simp [hfc, this, o2e]
    exact ⟨Eq.refl _, Eq.refl _, Eq.refl _, fun h => h⟩

theorem getBlock_spec (c : Chain) (bid : Hash) (hcoh : cacheCoh c) :
    (getBlock c bid).1 = o2e (getBlockP c.store bid) ∧
      ReadStep c (getBlock c bid).2 := by
  unfold getBlock
  obtain ⟨h1, s1⟩ := getBlockHeader_spec c bid hcoh
  rcases hh : getBlockHeader c bid with ⟨rh, ch⟩
  rw [hh] at h1 s1
  simp only at h1 s1
  rcases rh with e | hdr
  · rcases hfs : kfind c.store.headers bid with _ | hv
    · simp [hfs, o2e] at h1
      simp [getBlockP, hfs, o2e, h1]
      exact s1
    · simp [hfs, o2e] at h1
  · rcases hfs : kfind c.store.headers bid with _ | hv
    · simp [hfs, o2e] at h1
    · simp [hfs, o2e] at h1
      subst h1
      obtain ⟨h2, s2⟩ := getBlockBody_spec ch bid (s1.coh hcoh)
      rcases hb : getBlockBody ch bid with ⟨rb, cb⟩
      rw [hb] at h2 s2
      dsimp only
      rw [hb]
      simp only at h2 s2
      rw [s1.store] at h2
      rcases rb with e | txs
      · rcases hbs : kfind c.store.bodies bid with _ | tv
        · simp [hbs, o2e] at h2
          simp [getBlockP, hfs, hbs, o2e, h2]
          exact s1.trans s2
        · simp [hbs, o2e] at h2
      · rcases hbs : kfind c.store.bodies bid with _ | tv
        · simp [hbs, o2e] at h2
        · simp [hbs, o2e] at h2
          subst h2
          simp [getBlockP, hfs, hbs, o2e]
          exact s1.trans s2

theorem getBlockHeader_ok (c : Chain) (bid : Hash)
    (hs : (kfind c.store.headers bid).isSome) :
    ∃ h, (getBlockHeader c bid).1 = .ok h ∧ ReadStep c (getBlockHeader c bid).2 := by
  unfold getBlockHeader getOrLoad
  rcases hfc : kfind c.cached.header bid with _ | v
  · rcases hfs : kfind c.store.headers bid with _ | h
    · rw [hfs] at hs; simp at hs
    · refine ⟨h, by simp [hfc, hfs, o2e], ?_⟩
      simp [hfc, hfs, o2e]
      refine ⟨Eq.refl _, Eq.refl _, Eq.refl _, fun hc => ⟨?_, hc.2.1, hc.2.2⟩⟩
      intro p hp
      rcases mem_kinsert_elim hp with h' | h'
      · subst h'; exact hfs
      · exact hc.1 p h'
  · exact ⟨v, by simp [hfc], by simp [hfc]; exact ReadStep.same⟩

theorem getBlockBody_ok (c : Chain) (bid : Hash)
    (hs : (kfind c.store.bodies bid).isSome) :
    ∃ txs, (getBlockBody c bid).1 = .ok txs ∧ ReadStep c (getBlockBody c bid).2 := by
  unfold getBlockBody getOrLoad
  rcases hfc : kfind c.cached.body bid with _ | v
  · rcases hfs : kfind c.store.bodies bid with _ | txs
    · rw [hfs] at hs; simp at hs
    · refine ⟨txs, by simp [hfc, hfs, o2e], ?_⟩
      simp [hfc, hfs, o2e]
      refine ⟨Eq.refl _, Eq.refl _, Eq.refl _, fun hc => ⟨hc.1, ?_, hc.2.2⟩⟩
      intro p hp
      rcases mem_kinsert_elim hp with h' | h'
      · subst h'; exact hfs
      · exact hc.2.1 p h'
  · exact ⟨v, by simp [hfc], by simp [hfc]; exact ReadStep.same⟩

theorem getBlock_ok (c : Chain) (bid : Hash)
    (hh : (kfind c.store.headers bid).isSome) (hb : (kfind c.store.bodies bid).isSome) :
    ∃ b, (getBlock c bid).1 = .ok b ∧ ReadStep c (getBlock c bid).2 := by
  unfold getBlock
  obtain ⟨h, h1, s1⟩ := getBlockHeader_ok c bid hh
  rcases hhh : getBlockHeader c bid with ⟨rh, ch⟩
  rw [hhh] at h1 s1
  simp only at h1 s1
  subst h1
  rw [s1.store.symm] at hb
  obtain ⟨txs, h2, s2⟩ := getBlockBody_ok ch bid hb
  rcases hbb : getBlockBody ch bid with ⟨rb, cb⟩
  rw [hbb] at h2 s2
  simp only at h2 s2
  subst h2
  dsimp only
  rw [hbb]
  exact ⟨⟨h, txs⟩, rfl, s1.trans s2⟩

theorem getBestBlock_of_some (c : Chain) (bb : Block) (h : c.bestBlock = some bb) :
    getBestBlock c = (.ok bb, c) := by
  simp [getBestBlock, h]

theorem getBlock_cases (c : Chain) (bid : Hash) (hcoh : cacheCoh c) :
    (∃ c', getBlock c bid = (.error .notFound, c') ∧ ReadStep c c' ∧
        getBlockP c.store bid = none) ∨
      (∃ b c', getBlock c bid = (.ok b, c') ∧ ReadStep c c' ∧
        getBlockP c.store bid = some b) := by
  obtain ⟨h1, s1⟩ := getBlock_spec c bid hcoh
  rcases hg : getBlock c bid with ⟨r, c'⟩
  rw [hg] at h1 s1
  simp only at h1 s1
  rcases hp : getBlockP c.store bid with _ | b
  · rw [hp] at h1
    simp [o2e] at h1
    exact Or.inl ⟨c', by rw [h1], s1, rfl⟩
  · rw [hp] at h1
    simp [o2e] at h1
    exact Or.inr ⟨b, c', by rw [h1], s1, rfl⟩

theorem getBody_cases (c : Chain) (bid : Hash) (hcoh : cacheCoh c) :
    (∃ c', getBlockBody c bid = (.error .notFound, c') ∧ ReadStep c c' ∧
        kfind c.store.bodies bid = none) ∨
      (∃ txs c', getBlockBody c bid = (.ok txs, c') ∧ ReadStep c c' ∧
        kfind c.store.bodies bid = some txs) := by
  obtain ⟨h1, s1⟩ := getBlockBody_spec c bid hcoh
  rcases hg : getBlockBody c bid with ⟨r, c'⟩
  rw [hg] at h1 s1
  simp only at h1 s1
  rcases hp : kfind c.store.bodies bid with _ | txs
  · rw [hp] at h1
    simp [o2e] at h1
    exact Or.inl ⟨c', by rw [h1], s1, rfl⟩
  · rw [hp] at h1
    simp [o2e] at h1
    exact Or.inr ⟨txs, c', by rw [h1], s1, rfl⟩

theorem getTransactionIDs_spec (c : Chain) (bid : Hash) (hcoh : cacheCoh c) :
    (getTransactionIDs c bid).1 = o2e ((kfind c.store.bodies bid).map buildTxIdMap) ∧
      ReadStep c (getTransactionIDs c bid).2 := by
  unfold getTransactionIDs
  rcases hfc : kfind c.cached.blockTxIDs bid with _ | ids
  · dsimp only
    rcases getBody_cases c bid hcoh with ⟨c', heq, s1, hp⟩ | ⟨txs, c', heq, s1, hp⟩
    · rw [heq, hp]
      exact ⟨rfl, s1⟩
    · rw [heq, hp]
      dsimp only
      refine ⟨rfl, ?_⟩
      refine ⟨s1.store, s1.best, s1.rcache, fun hc => ?_⟩
      have hc' := s1.coh hc
      refine ⟨hc'.1, hc'.2.1, ?_⟩
      intro p hp'
      rcases mem_kinsert_elim hp' with h' | h'
      · subst h'
        dsimp only
        rw [s1.store, hp]
        rfl
      · exact hc'.2.2 p h'
  · have := hcoh.2.2 _ (kfind_mem hfc)
    rcases hbs : kfind c.store.bodies bid with _ | tv
    · rw [hbs] at this; simp at this
    · rw [hbs] at this
      simp only [Option.map_some] at this
      simp [hfc, hbs, o2e, this]
      exact ReadStep.same

theorem traceAux_spec (fuel : Nat) :
    ∀ (c : Chain) (b1 b2 : Block) (acc1 acc2 : List Block), cacheCoh c →
      (traceAux c b1 b2 acc1 acc2 fuel).1 = traceAuxP c.store b1 b2 acc1 acc2 fuel ∧
        ReadStep c (traceAux c b1 b2 acc1 acc2 fuel).2 := by
  induction fuel with
  | zero =>
    intro c b1 b2 acc1 acc2 _
    exact ⟨rfl, ReadStep.same⟩
  | succ fuel ih =>
    intro c b1 b2 acc1 acc2 hcoh
    unfold traceAux traceAuxP
    by_cases h12 : b1.number > b2.number
    · rw [if_pos h12, if_pos h12]
      rcases getBlock_cases c b1.header.parentID hcoh with
        ⟨c', heq, s1, hp⟩ | ⟨p1, c', heq, s1, hp⟩
      · rw [heq, hp]
        exact ⟨rfl, s1⟩
      · rw [heq, hp]
        obtain ⟨h2, s2⟩ := ih c' p1 b2 (acc1 ++ [b1]) acc2 (s1.coh hcoh)
        rw [s1.store] at h2
        exact ⟨h2, s1.trans s2⟩
    · rw [if_neg h12, if_neg h12]
      by_cases h21 : b1.number < b2.number
      · rw [if_pos h21, if_pos h21]
        rcases getBlock_cases c b2.header.parentID hcoh with
          ⟨c', heq, s1, hp⟩ | ⟨p2, c', heq, s1, hp⟩
        · rw [heq, hp]
          exact ⟨rfl, s1⟩
        · rw [heq, hp]
          obtain ⟨h2, s2⟩ := ih c' b1 p2 acc1 (acc2 ++ [b2]) (s1.coh hcoh)
          rw [s1.store] at h2
          exact ⟨h2, s1.trans s2⟩
      · rw [if_neg h21, if_neg h21]
        by_cases hid : b1.header.id = b2.header.id
        · rw [if_pos hid, if_pos hid]
          exact ⟨rfl, ReadStep.same⟩
        · rw [if_neg hid, if_neg hid]
          rcases getBlock_cases c b1.header.parentID hcoh with
            ⟨c', heq, s1, hp⟩ | ⟨p1, c', heq, s1, hp⟩
          · rw [heq, hp]
            exact ⟨rfl, s1⟩
          · rw [heq, hp]
            dsimp only
            rcases getBlock_cases c' b2.header.parentID (s1.coh hcoh) with
              ⟨c2', heq2, s2, hp2⟩ | ⟨p2, c2', heq2, s2, hp2⟩
            · rw [s1.store] at hp2
              rw [heq2, hp2]
              exact ⟨rfl, s1.trans s2⟩
            · rw [s1.store] at hp2
              rw [heq2, hp2]
              obtain ⟨h3, s3⟩ := ih c2' p1 p2 (acc1 ++ [b1]) (acc2 ++ [b2])
                ((s1.trans s2).coh hcoh)
              rw [(s1.trans s2).store] at h3
              exact ⟨h3, (s1.trans s2).trans s3⟩

theorem traceBack_spec (c : Chain) (b1 b2 : Block) (hcoh : cacheCoh c) :
    (traceBack c b1 b2).1 = traceBackP c.store b1 b2 (traceFuel c b1 b2) ∧
      ReadStep c (traceBack c b1 b2).2 :=
  traceAux_spec (traceFuel c b1 b2) c b1 b2 [] [] hcoh

theorem PathTo.anc {s : Storage} {b m : Block} {l : List Block}
    (h : PathTo s b l m) : Anc s b m := by
  induction h with
  | nil => exact Anc.refl _
  | cons h0 hp _ ih => exact Anc.step h0 hp ih

theorem getBlockP_some {s : Storage} {bid : Hash} {b : Block}
    (h : getBlockP s bid = some b) :
    kfind s.headers bid = some b.header ∧ kfind s.bodies bid = some b.txs := by
  unfold getBlockP at h
  rcases hh : kfind s.headers bid with _ | hdr <;> rw [hh] at h
  · simp at h
  · rcases hb : kfind s.bodies bid with _ | txs <;> rw [hb] at h
    · simp at h
    · simp at h
      subst h
      exact ⟨rfl, rfl⟩

theorem getBlockP_mk {s : Storage} {bid : Hash} {hdr : Header} {txs : List Tx}
    (hh : kfind s.headers bid = some hdr) (hb : kfind s.bodies bid = some txs) :
    getBlockP s bid = some ⟨hdr, txs⟩ := by
  unfold getBlockP
  rw [hh, hb]

/-- A block fetched from storage is stored under its own id (key faithfulness). -/
theorem fetched_selfStored {s : Storage} (hid : hidOk s) {k : Hash} {p : Block}
    (h : getBlockP s k = some p) : getBlockP s p.header.id = some p := by
  obtain ⟨hh, hb⟩ := getBlockP_some h
  have : p.header.id = k := hid _ (kfind_mem hh)
  rw [this]
  exact getBlockP_mk hh hb

/-- A stored block's number is the number in its storage key. -/
theorem stored_number {s : Storage} (hid : hidOk s) {k : Hash} {p : Block}
    (h : getBlockP s k = some p) : p.number = blockNumber k := by
  obtain ⟨hh, _⟩ := getBlockP_some h
  have : p.header.id = k := hid _ (kfind_mem hh)
  show blockNumber p.header.id = blockNumber k
  rw [this]

/-- A stored non-genesis block has a stored parent block one number below. -/
theorem stored_parent {s : Storage} (hinv : SInv s) {k : Hash} {b : Block}
    (h : getBlockP s k = some b) (h0 : b.number ≠ 0) :
    ∃ p, getBlockP s b.header.parentID = some p ∧ p.number + 1 = b.number := by
  obtain ⟨hh, _⟩ := getBlockP_some h
  have hk : b.header.id = k := hinv.1 _ (kfind_mem hh)
  have hkn : blockNumber k ≠ 0 := by
    rw [← hk]; exact h0
  obtain ⟨hps, hpn⟩ := hinv.2.2.1 _ (kfind_mem hh) hkn
  rcases hph : kfind s.headers b.header.parentID with _ | ph
  · rw [hph] at hps; simp at hps
  · have hbs := hinv.2.1.1 _ (kfind_mem hph)
    rcases hpb : kfind s.bodies b.header.parentID with _ | ptxs
    · rw [hpb] at hbs; simp at hbs
    · refine ⟨⟨ph, ptxs⟩, getBlockP_mk hph hpb, ?_⟩
      have hstored : getBlockP s b.header.parentID = some ⟨ph, ptxs⟩ := getBlockP_mk hph hpb
      have hpnum : (⟨ph, ptxs⟩ : Block).number = blockNumber b.header.parentID :=
        stored_number hinv.1 hstored
      rw [hpnum]
      show blockNumber b.header.parentID + 1 = blockNumber b.header.id
      rw [hk]
      exact hpn

/-- Under the discipline, every stored block is rooted. -/
theorem stored_rooted {s : Storage} (hinv : SInv s) :
    ∀ n {k : Hash} {b : Block}, b.number ≤ n → getBlockP s k = some b → Rooted s b := by
  intro n
  induction n with
  | zero =>
    intro k b hle _
    exact Rooted.base (Nat.le_zero.mp hle)
  | succ n ih =>
    intro k b hle h
    by_cases h0 : b.number = 0
    · exact Rooted.base h0
    · obtain ⟨p, hp, hpn⟩ := stored_parent hinv h h0
      have hple : p.number ≤ n := by omega
      exact Rooted.step hp hpn (ih hple hp)

/-- Every stored block is rooted (convenient form). -/
theorem stored_rooted' {s : Storage} (hinv : SInv s) {k : Hash} {b : Block}
    (h : getBlockP s k = some b) : Rooted s b :=
  stored_rooted hinv b.number (Nat.le_refl _) h

theorem ancAtF_self (s : Storage) (b : Block) (fuel : Nat) :
    ancAtF s fuel b b.number = some b := by
  cases fuel <;> simp [ancAtF]

theorem ancAt_self (s : Storage) (b : Block) : ancAt s b b.number = some b :=
  ancAtF_self s b b.number

/-- One parent step of the walk, under the discipline. -/
theorem ancAt_parent {s : Storage} {b p : Block} (hp : getBlockP s b.header.parentID = some p)
    (hpn : p.number + 1 = b.number) {n : Nat} (hn : n ≤ p.number) :
    ancAt s b n = ancAt s p n := by
  unfold ancAt
  rw [← hpn]
  show ancAtF s (p.number + 1) b n = ancAtF s p.number p n
  rw [show ancAtF s (p.number + 1) b n =
      (if b.number = n then some b
       else
         match getBlockP s b.header.parentID with
         | none => none
         | some q => ancAtF s p.number q n) from rfl]
  have hbn : ¬ b.number = n := by omega
  rw [if_neg hbn, hp]

theorem ancAtF_none_gt {s : Storage} :
    ∀ (fuel : Nat) (b : Block), Rooted s b → fuel ≤ b.number →
      ∀ n, b.number < n → ancAtF s fuel b n = none := by
  intro fuel
  induction fuel with
  | zero =>
    intro b _ _ n hlt
    have : ¬ b.number = n := by omega
    simp [ancAtF, this]
  | succ fuel ih =>
    intro b hr hle n hlt
    have h1 : 1 ≤ b.number := by omega
    rcases hr with h0 | @⟨_, p, hp, hpn, hrp⟩
    · omega
    · have hbn : ¬ b.number = n := by omega
      unfold ancAtF
      rw [if_neg hbn, hp]
      exact ih p hrp (by omega) n (by omega)

theorem ancAt_none_gt {s : Storage} {b : Block} (hr : Rooted s b) {n : Nat}
    (hlt : b.number < n) : ancAt s b n = none :=
  ancAtF_none_gt b.number b hr (Nat.le_refl _) n hlt

/-- Soundness of the walk: a hit is a rooted ancestor at exactly the asked
number, stored unless it is the start itself. -/
theorem ancAtF_sound {s : Storage} (hid : hidOk s) :
    ∀ (fuel : Nat) (b : Block), Rooted s b → fuel ≤ b.number →
      ∀ n x, ancAtF s fuel b n = some x →
        x.number = n ∧ Anc s b x ∧ Rooted s x ∧ n ≤ b.number ∧
          (x = b ∨ getBlockP s x.header.id = some x) := by
  intro fuel
  induction fuel with
  | zero =>
    intro b hr _ n x hx
    by_cases hbn : b.number = n
    · simp [ancAtF, hbn] at hx
      subst hx
      exact ⟨hbn, Anc.refl _, hr, hbn ▸ Nat.le_refl _, Or.inl rfl⟩
    · simp [ancAtF, hbn] at hx
  | succ fuel ih =>
    intro b hr hle n x hx
    by_cases hbn : b.number = n
    · simp [ancAtF, hbn] at hx
      subst hx
      exact ⟨hbn, Anc.refl _, hr, hbn ▸ Nat.le_refl _, Or.inl rfl⟩
    · have h1 : 1 ≤ b.number := by omega
      rcases hr with h0 | @⟨_, p, hp, hpn, hrp⟩
      · omega
      · unfold ancAtF at hx
        rw [if_neg hbn, hp] at hx
        obtain ⟨hxn, hanc, hrx, hnle, hst⟩ := ih p hrp (by omega) n x hx
        refine ⟨hxn, Anc.step (by omega) hp hanc, hrx, by omega, ?_⟩
        rcases hst with h | h
        · exact Or.inr (h ▸ fetched_selfStored hid hp)
        · exact Or.inr h

theorem ancAt_sound {s : Storage} (hid : hidOk s) {b : Block} (hr : Rooted s b)
    {n : Nat} {x : Block} (hx : ancAt s b n = some x) :
    x.number = n ∧ Anc s b x ∧ Rooted s x ∧ n ≤ b.number ∧
      (x = b ∨ getBlockP s x.header.id = some x) :=
  ancAtF_sound hid b.number b hr (Nat.le_refl _) n x hx

/-- Completeness of the walk: every number at or below a rooted block is
inhabited by an ancestor. -/
theorem ancAtF_exists {s : Storage} :
    ∀ (fuel : Nat) (b : Block), Rooted s b → ∀ n, n ≤ b.number →
      b.number - n ≤ fuel → ∃ x, ancAtF s fuel b n = some x := by
  intro fuel
  induction fuel with
  | zero =>
    intro b _ n hle hfe
    have hbn : b.number = n := by omega
    exact ⟨b, by simp [ancAtF, hbn]⟩
  | succ fuel ih =>
    intro b hr n hle hfe
    by_cases hbn : b.number = n
    · exact ⟨b, by simp [ancAtF, hbn]⟩
    · have h1 : 1 ≤ b.number := by omega
      rcases hr with h0 | @⟨_, p, hp, hpn, hrp⟩
      · omega
      · obtain ⟨x, hx⟩ := ih p hrp n (by omega) (by omega)
        refine ⟨x, ?_⟩
        unfold ancAtF
        rw [if_neg hbn, hp]
        exact hx

theorem ancAt_exists {s : Storage} {b : Block} (hr : Rooted s b) {n : Nat}
    (hle : n ≤ b.number) : ∃ x, ancAt s b n = some x :=
  ancAtF_exists b.number b hr n hle (by omega)

/-- Ancestors never rise in number. -/
theorem anc_le {s : Storage} {b x : Block} (hanc : Anc s b x) (hr : Rooted s b) :
    x.number ≤ b.number := by
  induction hanc with
  | refl => exact Nat.le_refl _
  | step h0 hp _ ih =>
    rename_i b' p' x'
    rcases hr with hb0 | @⟨_, q, hq, hqn, hrq⟩
    · exact absurd hb0 h0
    · rw [hq] at hp
      injection hp with hp
      subst hp
      have := ih hrq
      omega

/-- An ancestor at the top number is the top block itself. -/
theorem anc_eq_top {s : Storage} {b x : Block} (hanc : Anc s b x) (hr : Rooted s b)
    (hn : x.number = b.number) : x = b := by
  cases hanc with
  | refl => rfl
  | step h0 hp hanc' =>
    rename_i p
    rcases hr with hb0 | @⟨_, q, hq, hqn, hrq⟩
    · exact absurd hb0 h0
    · rw [hq] at hp
      injection hp with hp
      subst hp
      have := anc_le hanc' hrq
      omega

/-- Uniqueness: every ancestor is found by the walk at its own number. -/
theorem anc_ancAt {s : Storage} {b x : Block} (hanc : Anc s b x) (hr : Rooted s b) :
    ancAt s b x.number = some x := by
  induction hanc with
  | refl => exact ancAt_self s _
  | step h0 hp hanc' ih =>
    rename_i b' p' x'
    rcases hr with hb0 | @⟨_, q, hq, hqn, hrq⟩
    · exact absurd hb0 h0
    · rw [hq] at hp
      injection hp with hp
      subst hp
      have hle := anc_le hanc' hrq
      rw [ancAt_parent hq hqn hle]
      exact ih hrq

/-- Inverting `Rooted` at a non-genesis block: its (unique) stored parent
is one number below and rooted. -/
theorem rooted_parent {s : Storage} {b : Block} (hr : Rooted s b) (h0 : b.number ≠ 0)
    {p : Block} (hp : getBlockP s b.header.parentID = some p) :
    p.number + 1 = b.number ∧ Rooted s p := by
  rcases hr with hb0 | @⟨_, q, hq, hqn, hrq⟩
  · exact absurd hb0 h0
  · rw [hq] at hp
    injection hp with hp
    subst hp
    exact ⟨hqn, hrq⟩

/-- The members of a parent path are exactly the ancestors of its head
strictly above its tail. -/
theorem pathTo_char {s : Storage} {b m : Block} {l : List Block}
    (hP : PathTo s b l m) (hr : Rooted s b) :
    ∀ x, x ∈ l ↔ (m.number < x.number ∧ x.number ≤ b.number ∧
      ancAt s b x.number = some x) := by
  induction hP with
  | nil =>
    intro x
    simp only [List.not_mem_nil, false_iff]
    intro hx
    omega
  | @cons b' p' m' l' h0 hp hP' ih =>
    intro x
    obtain ⟨hqn, hrq⟩ := rooted_parent hr h0 hp
    have hml : m'.number ≤ p'.number := anc_le hP'.anc hrq
    constructor
    · intro hx
      rcases List.mem_cons.mp hx with hx | hx
      · subst hx
        exact ⟨by omega, Nat.le_refl _, ancAt_self s _⟩
      · obtain ⟨hm, hle, hat⟩ := (ih hrq x).mp hx
        exact ⟨hm, by omega, by rw [ancAt_parent hp hqn hle]; exact hat⟩
    · rintro ⟨hm, hle, hat⟩
      by_cases htop : x.number = b'.number
      · rw [htop, ancAt_self s _] at hat
        injection hat with hat
        exact hat ▸ List.mem_cons_self _ _
      · have hxp : x.number ≤ p'.number := by omega
        rw [ancAt_parent hp hqn hxp] at hat
        exact List.mem_cons_of_mem _ ((ih hrq x).mpr ⟨hm, hxp, hat⟩)

/-- Below the tail of a parent path, head and tail see the same ancestors. -/
theorem pathTo_agree {s : Storage} {b m : Block} {l : List Block}
    (hP : PathTo s b l m) (hr : Rooted s b) :
    ∀ n, n ≤ m.number → ancAt s b n = ancAt s m n := by
  induction hP with
  | nil => intro n _; rfl
  | @cons b' p' m' l' h0 hp hP' ih =>
    intro n hn
    obtain ⟨hqn, hrq⟩ := rooted_parent hr h0 hp
    have hml : m'.number ≤ p'.number := anc_le hP'.anc hrq
    rw [ancAt_parent hp hqn (by omega)]
    exact ih hrq n hn

/-- Members of a parent path from a stored head are stored. -/
theorem pathTo_stored {s : Storage} (hid : hidOk s) {b m : Block} {l : List Block}
    (hP : PathTo s b l m) (hb : getBlockP s b.header.id = some b) :
    ∀ x ∈ l, getBlockP s x.header.id = some x := by
  induction hP with
  | nil => intro x hx; simp at hx
  | cons h0 hp hP' ih =>
    intro x hx
    rcases List.mem_cons.mp hx with hx | hx
    · exact hx ▸ hb
    · exact ih (fetched_selfStored hid hp) x hx

/-! Transport along storage changes: ancestry only reads headers and
bodies, and adding a block under a fresh id never changes the walks of the
already-rooted blocks, because their parent links resolve inside the old
storage. -/

theorem getBlockP_congr {s s' : Storage} (hH : s'.headers = s.headers)
    (hB : s'.bodies = s.bodies) (k : Hash) : getBlockP s' k = getBlockP s k := by
  unfold getBlockP
  rw [hH, hB]

theorem ancAtF_congr {s s' : Storage} (hH : s'.headers = s.headers)
    (hB : s'.bodies = s.bodies) :
    ∀ (fuel : Nat) (b : Block) (n : Nat), ancAtF s' fuel b n = ancAtF s fuel b n := by
  intro fuel
  induction fuel with
  | zero => intro b n; rfl
  | succ fuel ih =>
    intro b n
    unfold ancAtF
    rw [getBlockP_congr hH hB]
    rcases getBlockP s b.header.parentID with _ | p
    · rfl
    · simp [ih]

theorem ancAt_congr {s s' : Storage} (hH : s'.headers = s.headers)
    (hB : s'.bodies = s.bodies) (b : Block) (n : Nat) : ancAt s' b n = ancAt s b n :=
  ancAtF_congr hH hB b.number b n

theorem rooted_congr {s s' : Storage} (hH : s'.headers = s.headers)
    (hB : s'.bodies = s.bodies) {b : Block} (hr : Rooted s b) : Rooted s' b := by
  induction hr with
  | base h0 => exact Rooted.base h0
  | step hp hpn _ ih =>
    exact Rooted.step (by rw [getBlockP_congr hH hB]; exact hp) hpn ih

/-- Keys resolvable in storage differ from a key absent from it. -/
theorem stored_key_ne {s : Storage} {k f : Hash} (hs : (kfind s.headers k).isSome)
    (hf : kfind s.headers f = none) : k ≠ f := by
  intro h
  rw [h, hf] at hs
  simp at hs

theorem getBlockP_save_self (s : Storage) (nb : Block) :
    getBlockP (saveBlock s nb) nb.header.id = some nb := by
  unfold getBlockP saveBlock
  simp [kfind_kinsert_self]

theorem getBlockP_save_ne (s : Storage) (nb : Block) {k : Hash}
    (hk : k ≠ nb.header.id) : getBlockP (saveBlock s nb) k = getBlockP s k := by
  unfold getBlockP saveBlock
  simp only
  rw [kfind_kinsert, kfind_kinsert, if_neg (fun h => hk h.symm), if_neg (fun h => hk h.symm)]

/-- A parent link that resolves in storage still resolves identically after a
fresh block is saved. -/
theorem getBlockP_save_stored {s : Storage} {nb : Block}
    (hfH : kfind s.headers nb.header.id = none) {k : Hash} {p : Block}
    (hp : getBlockP s k = some p) : getBlockP (saveBlock s nb) k = some p := by
  have hne : k ≠ nb.header.id := stored_key_ne (by rw [(getBlockP_some hp).1]; rfl) hfH
  rw [getBlockP_save_ne s nb hne]
  exact hp

theorem rooted_save {s : Storage} {nb : Block}
    (hfH : kfind s.headers nb.header.id = none) {b : Block} (hr : Rooted s b) :
    Rooted (saveBlock s nb) b := by
  induction hr with
  | base h0 => exact Rooted.base h0
  | step hp hpn _ ih => exact Rooted.step (getBlockP_save_stored hfH hp) hpn ih

theorem ancAtF_save {s : Storage} {nb : Block}
    (hfH : kfind s.headers nb.header.id = none) :
    ∀ (fuel : Nat) (b : Block), Rooted s b → fuel ≤ b.number →
      ∀ n, ancAtF (saveBlock s nb) fuel b n = ancAtF s fuel b n := by
  intro fuel
  induction fuel with
  | zero => intro b _ _ n; rfl
  | succ fuel ih =>
    intro b hr hle n
    unfold ancAtF
    by_cases hbn : b.number = n
    · rw [if_pos hbn, if_pos hbn]
    · rw [if_neg hbn, if_neg hbn]
      rcases hr with h0 | @⟨_, p, hp, hpn, hrp⟩
      · omega
      · rw [hp, getBlockP_save_stored hfH hp]
        exact ih p hrp (by omega) n

theorem ancAt_save {s : Storage} {nb : Block}
    (hfH : kfind s.headers nb.header.id = none) {b : Block} (hr : Rooted s b) (n : Nat) :
    ancAt (saveBlock s nb) b n = ancAt s b n :=
  ancAtF_save hfH b.number b hr (Nat.le_refl _) n

/-- Saving a fresh, correctly numbered block preserves storage
well-formedness. -/
theorem SInv_save {s : Storage} {nb : Block} (hinv : SInv s)
    (hfH : kfind s.headers nb.header.id = none)
    {p : Block} (hp : getBlockP s nb.header.parentID = some p)
    (hpn : p.number + 1 = nb.number) : SInv (saveBlock s nb) := by
  obtain ⟨hid, hhb, hst, hg0⟩ := hinv
  obtain ⟨hph, hpb⟩ := getBlockP_some hp
  refine ⟨?_, ⟨?_, ?_⟩, ?_, ?_⟩
  · intro q hq
    rcases mem_kinsert_elim hq with h | h
    · subst h; rfl
    · exact hid _ h
  · intro q hq
    show (kfind (kinsert s.bodies nb.header.id nb.txs) q.1).isSome
    rw [kfind_kinsert]
    rcases mem_kinsert_elim hq with h | h
    · subst h; simp
    · by_cases hk : nb.header.id = q.1
      · simp [hk]
      · rw [if_neg hk]
        exact hhb.1 _ h
  · intro q hq
    show (kfind (kinsert s.headers nb.header.id nb.header) q.1).isSome
    rw [kfind_kinsert]
    rcases mem_kinsert_elim hq with h | h
    · subst h; simp
    · by_cases hk : nb.header.id = q.1
      · simp [hk]
      · rw [if_neg hk]
        exact hhb.2 _ h
  · intro q hq hq0
    rcases mem_kinsert_elim hq with h | h
    · subst h
      show (kfind (kinsert s.headers nb.header.id nb.header) nb.header.parentID).isSome ∧ _
      have hne : nb.header.parentID ≠ nb.header.id :=
        stored_key_ne (by rw [hph]; rfl) hfH
      rw [kfind_kinsert, if_neg (fun h => hne h.symm)]
      refine ⟨by rw [hph]; rfl, ?_⟩
      have := stored_number hid hp
      show blockNumber nb.header.parentID + 1 = blockNumber nb.header.id
      have h2 : p.number = blockNumber nb.header.parentID := this
      show blockNumber nb.header.parentID + 1 = nb.number
      omega
    · obtain ⟨h1, h2⟩ := hst _ h hq0
      refine ⟨?_, h2⟩
      show (kfind (kinsert s.headers nb.header.id nb.header) (q.2).parentID).isSome
      rw [kfind_kinsert]
      by_cases hk : nb.header.id = (q.2).parentID
      · simp [hk]
      · rw [if_neg hk]
        exact h1
  · intro q hq r hr hq0 hr0
    have hnb0 : blockNumber nb.header.id ≠ 0 := by
      have := stored_number hid hp
      show nb.header.id.num ≠ 0
      have h2 : nb.number = nb.header.id.num := rfl
      omega
    rcases mem_kinsert_elim hq with h | h <;> rcases mem_kinsert_elim hr with h' | h'
    · rw [h, h']
    · exact absurd (by rw [h] at hq0; exact hq0) hnb0
    · exact absurd (by rw [h'] at hr0; exact hr0) hnb0
    · exact hg0 _ h _ h' hq0 hr0

/-! ### Correctness of the common-ancestor walk

Under the hash-chain discipline with a unique genesis, the walk always
returns: it yields a common ancestor that is the deepest block shared by
the two ancestor chains, together with the two head-first parent paths
above it. -/

theorem stored_not_none {s : Storage} {b : Block}
    (h : getBlockP s b.header.id = some b) : kfind s.headers b.header.id ≠ none := by
  rw [(getBlockP_some h).1]
  simp

theorem traceAuxP_main {s : Storage} (hid : hidOk s) (hg : gen0 s) :
    ∀ (fuel : Nat) (b1 b2 : Block) (acc1 acc2 : List Block),
      Rooted s b1 → Rooted s b2 →
      (getBlockP s b1.header.id = some b1 ∨ kfind s.headers b1.header.id = none) →
      (getBlockP s b2.header.id = some b2 ∨ kfind s.headers b2.header.id = none) →
      (getBlockP s b1.header.id = some b1 ∨ getBlockP s b2.header.id = some b2) →
      (kfind s.headers b1.header.id = none → b1.number ≠ 0) →
      (kfind s.headers b2.header.id = none → b2.number ≠ 0) →
      b1.number + b2.number < fuel →
      ∃ anc l1 l2,
        traceAuxP s b1 b2 acc1 acc2 fuel = .ok (anc, acc1 ++ l1, acc2 ++ l2) ∧
          PathTo s b1 l1 anc ∧ PathTo s b2 l2 anc ∧
          getBlockP s anc.header.id = some anc ∧ Rooted s anc ∧
          (∀ x, Anc s b1 x → Anc s b2 x → x.number ≤ anc.number) := by
  intro fuel
  induction fuel with
  | zero =>
    intro b1 b2 _ _ _ _ _ _ _ _ _ hfuel
    omega
  | succ fuel ih =>
    intro b1 b2 acc1 acc2 hr1 hr2 hin1 hin2 htop hf1 hf2 hfuel
    unfold traceAuxP
    by_cases h12 : b1.number > b2.number
    · have h10 : b1.number ≠ 0 := by omega
      rcases hr1 with hb0 | @⟨_, p1, hp1, hpn1, hrp1⟩
      · exact absurd hb0 h10
      · rw [if_pos h12, hp1]
        dsimp only
        have hsp1 : getBlockP s p1.header.id = some p1 := fetched_selfStored hid hp1
        obtain ⟨anc, l1', l2', heq, hP1, hP2, hancs, hancr, hdeep⟩ :=
          ih p1 b2 (acc1 ++ [b1]) acc2 hrp1 hr2 (Or.inl hsp1) hin2 (Or.inl hsp1)
            (fun hn => absurd hn (stored_not_none hsp1)) hf2 (by omega)
        refine ⟨anc, b1 :: l1', l2', ?_, PathTo.cons h10 hp1 hP1, hP2, hancs, hancr, ?_⟩
        · rw [heq]
          simp [List.append_assoc]
        · intro x hx1 hx2
          cases hx1 with
          | refl =>
            have := anc_le hx2 hr2
            omega
          | step h0' hp' hx =>
            rw [hp1] at hp'
            injection hp' with hp'
            subst hp'
            exact hdeep x hx hx2
    · rw [if_neg h12]
      by_cases h21 : b1.number < b2.number
      · have h20 : b2.number ≠ 0 := by omega
        rcases hr2 with hb0 | @⟨_, p2, hp2, hpn2, hrp2⟩
        · exact absurd hb0 h20
        · rw [if_pos h21, hp2]
          dsimp only
          have hsp2 : getBlockP s p2.header.id = some p2 := fetched_selfStored hid hp2
          obtain ⟨anc, l1', l2', heq, hP1, hP2, hancs, hancr, hdeep⟩ :=
            ih b1 p2 acc1 (acc2 ++ [b2]) hr1 hrp2 hin1 (Or.inl hsp2) (Or.inr hsp2)
              hf1 (fun hn => absurd hn (stored_not_none hsp2)) (by omega)
          refine ⟨anc, l1', b2 :: l2', ?_, hP1, PathTo.cons h20 hp2 hP2, hancs, hancr, ?_⟩
          · rw [heq]
            simp [List.append_assoc]
          · intro x hx1 hx2
            cases hx2 with
            | refl =>
              have := anc_le hx1 hr1
              omega
            | step h0' hp' hx =>
              rw [hp2] at hp'
              injection hp' with hp'
              subst hp'
              exact hdeep x hx1 hx
      · rw [if_neg h21]
        have hnum : b1.number = b2.number := by omega
        by_cases hid12 : b1.header.id = b2.header.id
        · rw [if_pos hid12]
          have hb12 : b1 = b2 := by
            rcases htop with hst | hst
            · rcases hin2 with hst2 | hst2
              · rw [hid12] at hst
                rw [hst] at hst2
                injection hst2
              · rw [← hid12] at hst2
                rw [(getBlockP_some hst).1] at hst2
                simp at hst2
            · rcases hin1 with hst1 | hst1
              · rw [← hid12] at hst
                rw [hst] at hst1
                injection hst1 with h
                exact h.symm
              · rw [hid12] at hst1
                rw [(getBlockP_some hst).1] at hst1
                simp at hst1
          have hst1 : getBlockP s b1.header.id = some b1 := by
            rcases htop with hst | hst
            · exact hst
            · rw [hb12]
              exact hst
          refine ⟨b1, [], [], by simp, PathTo.nil _, by rw [← hb12]; exact PathTo.nil _,
            hst1, hr1, ?_⟩
          · intro x hx1 _
            exact anc_le hx1 hr1
        · rw [if_neg hid12]
          have hN : b1.number ≠ 0 := by
            intro hN0
            have hN2 : b2.number = 0 := by omega
            have hs1 : getBlockP s b1.header.id = some b1 := by
              rcases hin1 with h | h
              · exact h
              · exact absurd hN0 (hf1 h)
            have hs2 : getBlockP s b2.header.id = some b2 := by
              rcases hin2 with h | h
              · exact h
              · exact absurd hN2 (hf2 h)
            exact hid12 (hg _ (kfind_mem (getBlockP_some hs1).1)
              _ (kfind_mem (getBlockP_some hs2).1) hN0 hN2)
          rcases hr1 with hb0 | @⟨_, p1, hp1, hpn1, hrp1⟩
          · exact absurd hb0 hN
          · rcases hr2 with hb0 | @⟨_, p2, hp2, hpn2, hrp2⟩
            · omega
            · rw [hp1, hp2]
              dsimp only
              have hsp1 : getBlockP s p1.header.id = some p1 := fetched_selfStored hid hp1
              have hsp2 : getBlockP s p2.header.id = some p2 := fetched_selfStored hid hp2
              obtain ⟨anc, l1', l2', heq, hP1, hP2, hancs, hancr, hdeep⟩ :=
                ih p1 p2 (acc1 ++ [b1]) (acc2 ++ [b2]) hrp1 hrp2 (Or.inl hsp1)
                  (Or.inl hsp2) (Or.inl hsp1)
                  (fun hn => absurd hn (stored_not_none hsp1))
                  (fun hn => absurd hn (stored_not_none hsp2)) (by omega)
              refine ⟨anc, b1 :: l1', b2 :: l2', ?_, PathTo.cons hN hp1 hP1,
                PathTo.cons (by omega) hp2 hP2, hancs, hancr, ?_⟩
              · rw [heq]
                simp [List.append_assoc]
              · intro x hx1 hx2
                cases hx1 with
                | refl =>
                  have hx2top : b1 = b2 := by
                    apply anc_eq_top hx2 (Rooted.step hp2 hpn2 hrp2)
                    omega
                  exact absurd (congrArg (fun bb => bb.header.id) hx2top) hid12
                | step h0' hp' hx =>
                  rw [hp1] at hp'
                  injection hp' with hp'
                  subst hp'
                  cases hx2 with
                  | refl =>
                    have hx1top : b2 = b1 := by
                      apply anc_eq_top (Anc.step hN hp1 hx) (Rooted.step hp1 hpn1 hrp1)
                      omega
                    exact absurd (congrArg (fun bb => bb.header.id) hx1top.symm) hid12
                  | step h0'' hp'' hx' =>
                    rw [hp2] at hp''
                    injection hp'' with hp''
                    subst hp''
                    exact hdeep x hx hx'

/-! ### Frame facts of the read helpers

The read helpers touch nothing but their own cache, regardless of cache
contents. -/

theorem getBlockHeader_frame (c : Chain) (bid : Hash) :
    ((getBlockHeader c bid).2).store = c.store ∧
      ((getBlockHeader c bid).2).bestBlock = c.bestBlock ∧
      ((getBlockHeader c bid).2).cached.receipts = c.cached.receipts := by
  exact ⟨rfl, rfl, rfl⟩

theorem getBlockBody_frame (c : Chain) (bid : Hash) :
    ((getBlockBody c bid).2).store = c.store ∧
      ((getBlockBody c bid).2).bestBlock = c.bestBlock ∧
      ((getBlockBody c bid).2).cached.receipts = c.cached.receipts := by
  exact ⟨rfl, rfl, rfl⟩

theorem getBlock_frame (c : Chain) (bid : Hash) :
    ((getBlock c bid).2).store = c.store ∧
      ((getBlock c bid).2).bestBlock = c.bestBlock ∧
      ((getBlock c bid).2).cached.receipts = c.cached.receipts := by
  unfold getBlock
  rcases hh : getBlockHeader c bid with ⟨rh, ch⟩
  have f1 := getBlockHeader_frame c bid
  rw [hh] at f1
  rcases rh with e | hdr
  · exact f1
  · dsimp only
    rcases hb : getBlockBody ch bid with ⟨rb, cb⟩
    have f2 := getBlockBody_frame ch bid
    rw [hb] at f2
    rcases rb with e | txs
    · exact ⟨f2.1.trans f1.1, f2.2.1.trans f1.2.1, f2.2.2.trans f1.2.2⟩
    · exact ⟨f2.1.trans f1.1, f2.2.1.trans f1.2.1, f2.2.2.trans f1.2.2⟩

theorem getBlockByNumber_frame (c : Chain) (n : Nat) :
    ((getBlockByNumber c n).2).store = c.store ∧
      ((getBlockByNumber c n).2).bestBlock = c.bestBlock ∧
      ((getBlockByNumber c n).2).cached.receipts = c.cached.receipts := by
  unfold getBlockByNumber
  rcases getBlockIDByNumber c n with e | bid
  · exact ⟨rfl, rfl, rfl⟩
  · exact getBlock_frame c bid

theorem getBlockByNumber_spec (c : Chain) (n : Nat) (hcoh : cacheCoh c) :
    (getBlockByNumber c n).1 =
      (match kfind c.store.trunk n with
       | none => .error .notFound
       | some bid => o2e (getBlockP c.store bid)) ∧
      ReadStep c (getBlockByNumber c n).2 := by
  unfold getBlockByNumber getBlockIDByNumber
  rcases kfind c.store.trunk n with _ | bid
  · exact ⟨rfl, ReadStep.same⟩
  · exact getBlock_spec c bid hcoh

/-! ### Claim C8 — idempotent append -/

/-- Claim C8: add_block is idempotent — when the block's id is already
stored, `AddBlock` returns success with an empty diff, writes no batch
(storage is untouched) and leaves the in-memory best block alone, for
either value of the trunk flag and regardless of whether a commit would
have succeeded. -/
theorem addBlock_idempotent (c : Chain) (b : Block) (flag commitOk : Bool)
    (hH : (kfind c.store.headers b.header.id).isSome)
    (hB : (kfind c.store.bodies b.header.id).isSome) :
    (AddBlock c b flag commitOk).1 = .ok [] ∧
      ((AddBlock c b flag commitOk).2).store = c.store ∧
      ((AddBlock c b flag commitOk).2).bestBlock = c.bestBlock := by
  unfold AddBlock
  obtain ⟨blk, h1, s1⟩ := getBlock_ok c b.header.id hH hB
  rcases hg : getBlock c b.header.id with ⟨r, c1⟩
  rw [hg] at h1 s1
  simp only at h1 s1
  subst h1
  exact ⟨rfl, s1.store, s1.best⟩

/-- Witness for C8 at the concrete chain `Fx.c2`, re-adding block `Fx.b1`. -/
theorem addBlock_idempotent_witness :
    (AddBlock Fx.c2 Fx.b1 true true).1 = .ok [] ∧
      ((AddBlock Fx.c2 Fx.b1 true true).2).store = Fx.c2.store ∧
      ((AddBlock Fx.c2 Fx.b1 true true).2).bestBlock = Fx.c2.bestBlock :=
  addBlock_idempotent Fx.c2 Fx.b1 true true (by decide) (by decide)

/-! ### Claim C10 — re-submitting a side-branch leaf never promotes it -/

/-- Claim C10: a block already stored as a side-branch leaf cannot be
promoted by re-submitting it with the trunk flag: `AddBlock` returns an
empty diff and leaves the trunk index, the transaction locations, the best
pointer and all other storage unchanged. -/
theorem addBlock_no_promotion (c : Chain) (b : Block) (commitOk : Bool)
    (hs : getBlockP c.store b.header.id = some b)
    (hnt : ∀ p ∈ c.store.trunk, p.2 ≠ b.header.id) :
    (AddBlock c b true commitOk).1 = .ok [] ∧
      ((AddBlock c b true commitOk).2).store.trunk = c.store.trunk ∧
      ((AddBlock c b true commitOk).2).store.txLocs = c.store.txLocs ∧
      ((AddBlock c b true commitOk).2).store.best = c.store.best ∧
      ((AddBlock c b true commitOk).2).store = c.store ∧
      ((AddBlock c b true commitOk).2).bestBlock = c.bestBlock := by
  obtain ⟨hh, hb⟩ := getBlockP_some hs
  obtain ⟨h1, h2, h3⟩ := addBlock_idempotent c b true commitOk (by rw [hh]; rfl)
    (by rw [hb]; rfl)
  exact ⟨h1, by rw [h2], by rw [h2], by rw [h2], h2, h3⟩

/-- Witness for C10: the stored side-branch leaf `Fx.b2s` of `Fx.c4` (the
trunk holds `b2`, not `b2s`, at number 2). -/
theorem addBlock_no_promotion_witness :
    (AddBlock Fx.c4 Fx.b2s true true).1 = .ok [] ∧
      ((AddBlock Fx.c4 Fx.b2s true true).2).store.trunk = Fx.c4.store.trunk ∧
      ((AddBlock Fx.c4 Fx.b2s true true).2).store.txLocs = Fx.c4.store.txLocs ∧
      ((AddBlock Fx.c4 Fx.b2s true true).2).store.best = Fx.c4.store.best ∧
      ((AddBlock Fx.c4 Fx.b2s true true).2).store = Fx.c4.store ∧
      ((AddBlock Fx.c4 Fx.b2s true true).2).bestBlock = Fx.c4.bestBlock :=
  addBlock_no_promotion Fx.c4 Fx.b2s true (by decide) (by decide)

theorem getBlockHeader_eq (c : Chain) (bid : Hash) :
    (getBlockHeader c bid).1 =
      match kfind c.cached.header bid with
      | some h => .ok h
      | none => o2e (kfind c.store.headers bid) := by
  unfold getBlockHeader getOrLoad
  rcases kfind c.cached.header bid with _ | v
  · rcases o2e (kfind c.store.headers bid) with e | h <;> rfl
  · rfl

theorem getBlockHeader_imp_id (c : Chain) (bid : Hash)
    (hca : ∀ h, kfind c.cached.header bid = some h → h.id = bid)
    (hst : ∀ h, kfind c.store.headers bid = some h → h.id = bid)
    (hsome : (kfind c.store.headers bid).isSome) :
    ∃ h, (getBlockHeader c bid).1 = .ok h ∧ h.id = bid := by
  rw [getBlockHeader_eq]
  rcases hc : kfind c.cached.header bid with _ | v
  · rcases hs : kfind c.store.headers bid with _ | h
    · rw [hs] at hsome; simp at hsome
    · exact ⟨h, by simp [o2e], hst h hs⟩
  · exact ⟨v, rfl, hca v hc⟩

theorem getBlock_ok_id (c : Chain) (bid : Hash)
    (hca : ∀ h, kfind c.cached.header bid = some h → h.id = bid)
    (hst : ∀ h, kfind c.store.headers bid = some h → h.id = bid)
    (hH : (kfind c.store.headers bid).isSome)
    (hB : (kfind c.store.bodies bid).isSome) :
    ∃ b, (getBlock c bid).1 = .ok b ∧ b.header.id = bid := by
  unfold getBlock
  obtain ⟨h, h1, hid⟩ := getBlockHeader_imp_id c bid hca hst hH
  rcases hh : getBlockHeader c bid with ⟨rh, ch⟩
  have hfr := getBlockHeader_frame c bid
  rw [hh] at h1 hfr
  simp only at h1 hfr
  subst h1
  have hB' : (kfind ch.store.bodies bid).isSome := by rw [hfr.1]; exact hB
  obtain ⟨txs, h2, _⟩ := getBlockBody_ok ch bid hB'
  rcases hb : getBlockBody ch bid with ⟨rb, cb⟩
  rw [hb] at h2
  simp only at h2
  subst h2
  dsimp only
  rw [hb]
  exact ⟨⟨h, txs⟩, rfl, hid⟩

theorem getBlock_notFound (c : Chain) (bid : Hash)
    (hca : kfind c.cached.header bid = none)
    (hst : kfind c.store.headers bid = none) :
    (getBlock c bid).1 = .error .notFound := by
  unfold getBlock
  have h1 : (getBlockHeader c bid).1 = .error .notFound := by
    rw [getBlockHeader_eq, hca, hst]
    rfl
  rcases hh : getBlockHeader c bid with ⟨rh, ch⟩
  rw [hh] at h1
  simp only at h1
  subst h1
  rfl

/-! ### Claim C9 — write_genesis against an existing genesis -/

/-- A key store lacking a header (paired with bodies) resolves no block. -/
theorem getBlockP_none_of_hb {s : Storage} (hhb : hbOk s) {k : Hash}
    (h : getBlockP s k = none) :
    kfind s.headers k = none ∧ kfind s.bodies k = none := by
  rcases hh : kfind s.headers k with _ | hdr
  · rcases hb : kfind s.bodies k with _ | txs
    · exact ⟨rfl, rfl⟩
    · have := hhb.2 _ (kfind_mem hb)
      rw [hh] at this
      simp at this
  · rcases hb : kfind s.bodies k with _ | txs
    · have := hhb.1 _ (kfind_mem hh)
      rw [hb] at this
      simp at this
    · rw [getBlockP_mk hh hb] at h
      simp at h

/-- After the genesis write path, a second identical `WriteGenesis`
succeeds: either the written genesis is found at number 0 and matches, or
number 0 is still unresolvable and the write path runs again. -/
theorem writeGenesis_after_write_ok (c1 : Chain) (g : Block)
    (hid : hidOk c1.store) (hhb : hbOk c1.store) (hcoh1 : cacheCoh c1)
    (hnone : kfind c1.store.trunk 0 = none ∨
      ∃ tid, kfind c1.store.trunk 0 = some tid ∧ getBlockP c1.store tid = none) :
    (WriteGenesis { c1 with
        store := saveBestBlockID (saveTrunkBlockID
          (saveTxLocations (saveBlock c1.store g) g.txs g.header.id) g.header.id)
          g.header.id,
        bestBlock := some g } g true).1 = .ok () := by
  set cW : Chain := { c1 with
    store := saveBestBlockID (saveTrunkBlockID
      (saveTxLocations (saveBlock c1.store g) g.txs g.header.id) g.header.id)
      g.header.id,
    bestBlock := some g } with hcW
  have htr : cW.store.trunk = kinsert c1.store.trunk (blockNumber g.header.id) g.header.id :=
    rfl
  have hhd : cW.store.headers = kinsert c1.store.headers g.header.id g.header := rfl
  have hbd : cW.store.bodies = kinsert c1.store.bodies g.header.id g.txs := rfl
  have hcch : cW.cached.header = c1.cached.header := rfl
  have hca : ∀ h, kfind cW.cached.header g.header.id = some h → h.id = g.header.id := by
    intro h hh
    rw [hcch] at hh
    have := hcoh1.1 _ (kfind_mem hh)
    exact hid _ (kfind_mem this)
  have hst : ∀ h, kfind cW.store.headers g.header.id = some h → h.id = g.header.id := by
    intro h hh
    rw [hhd, kfind_kinsert_self] at hh
    injection hh with hh
    rw [← hh]
  have hselfH : (kfind cW.store.headers g.header.id).isSome := by
    rw [hhd, kfind_kinsert_self]; rfl
  have hselfB : (kfind cW.store.bodies g.header.id).isSome := by
    rw [hbd, kfind_kinsert_self]; rfl
  unfold WriteGenesis getBlockByNumber getBlockIDByNumber
  rw [htr, kfind_kinsert]
  by_cases hg0 : blockNumber g.header.id = 0
  · rw [if_pos hg0]
    dsimp only [o2e]
    obtain ⟨b, hok, hbid⟩ := getBlock_ok_id cW g.header.id hca hst hselfH hselfB
    rcases hgb : getBlock cW g.header.id with ⟨r, c2⟩
    rw [hgb] at hok
    simp only at hok
    subst hok
    dsimp only
    rw [if_pos hbid]
  · rw [if_neg hg0]
    rcases hnone with hn | ⟨tid, htid, hnb⟩
    · rw [hn]
      rfl
    · rw [htid]
      dsimp only [o2e]
      obtain ⟨hnH, hnB⟩ := getBlockP_none_of_hb hhb hnb
      by_cases htg : tid = g.header.id
      · subst htg
        obtain ⟨b, hok, hbid⟩ := getBlock_ok_id cW g.header.id hca hst hselfH hselfB
        rcases hgb : getBlock cW g.header.id with ⟨r, c2⟩
        rw [hgb] at hok
        simp only at hok
        subst hok
        dsimp only
        rw [if_pos hbid]
      · have hcaN : kfind cW.cached.header tid = none := by
          rcases hc : kfind cW.cached.header tid with _ | v
          · rfl
          · rw [hcch] at hc
            have := hcoh1.1 _ (kfind_mem hc)
            rw [hnH] at this
            exact absurd this (by simp)
        have hstN : kfind cW.store.headers tid = none := by
          rw [hhd, kfind_kinsert, if_neg (fun h => htg h.symm)]
          exact hnH
        have herr := getBlock_notFound cW tid hcaN hstN
        rcases hgb : getBlock cW tid with ⟨r, c2⟩
        rw [hgb] at herr
        simp only at herr
        subst herr
        dsimp only
        rw [if_neg (by simp [isNotFound])]
        rfl

/-- Claim C9: when a block is already stored at number 0, `WriteGenesis`
succeeds — without mutating storage — exactly when the stored id matches,
and otherwise fails with the genesis-mismatch error, also without mutating
storage; consequently a second `WriteGenesis` with the identical genesis
block succeeds (on a coherent, well-formed chain). -/
theorem writeGenesis_existing_and_idempotent :
    (∀ (c : Chain) (g b0 : Block) (commitOk : Bool),
      (getBlockByNumber c 0).1 = .ok b0 →
        ((b0.header.id = g.header.id →
            (WriteGenesis c g commitOk).1 = .ok () ∧
              ((WriteGenesis c g commitOk).2).store = c.store) ∧
          (b0.header.id ≠ g.header.id →
            (WriteGenesis c g commitOk).1 = .error .genesisMismatch ∧
              ((WriteGenesis c g commitOk).2).store = c.store))) ∧
    (∀ (c : Chain) (g : Block), SInv c.store → cacheCoh c →
      (WriteGenesis c g true).1 = .ok () →
      (WriteGenesis (WriteGenesis c g true).2 g true).1 = .ok ()) := by
  constructor
  · intro c g b0 commitOk h0
    unfold WriteGenesis
    rcases hgn : getBlockByNumber c 0 with ⟨r, c1⟩
    have hfr := getBlockByNumber_frame c 0
    rw [hgn] at h0 hfr
    simp only at h0 hfr
    subst h0
    dsimp only
    constructor
    · intro hyes
      rw [if_pos hyes]
      exact ⟨rfl, hfr.1⟩
    · intro hno
      rw [if_neg hno]
      exact ⟨rfl, hfr.1⟩
  · intro c g hsinv hcoh hw
    obtain ⟨hspec, hrs⟩ := getBlockByNumber_spec c 0 hcoh
    rcases hgn : getBlockByNumber c 0 with ⟨r, c1⟩
    rw [hgn] at hspec hrs
    simp only at hspec hrs
    have hcoh1 : cacheCoh c1 := hrs.coh hcoh
    have hs1 : c1.store = c.store := hrs.store
    have hinner : ¬ (∃ b0, (getBlockByNumber c 0).1 = .ok b0) →
        (WriteGenesis c g true).2 = { c1 with
          store := saveBestBlockID (saveTrunkBlockID
            (saveTxLocations (saveBlock c1.store g) g.txs g.header.id) g.header.id)
            g.header.id,
          bestBlock := some g } := by
      intro hne
      unfold WriteGenesis
      rw [hgn]
      rcases r with e | b0
      · have he : e = ChainErr.notFound := by
          rcases ht : kfind c.store.trunk 0 with _ | tid
          all_goals rw [ht] at hspec
          all_goals dsimp only at hspec
          · injection hspec with h
          · rcases hbp : getBlockP c.store tid with _ | b0
            all_goals rw [hbp] at hspec
            all_goals simp only [o2e] at hspec
            · injection hspec with h
            · exact absurd hspec (by simp)
        subst he
        dsimp only
        rw [if_neg (by simp [isNotFound]), if_pos rfl]
      · exact absurd ⟨b0, by rw [hgn]⟩ hne
    have hid1 : hidOk c1.store := by rw [hs1]; exact hsinv.1
    have hhb1 : hbOk c1.store := by rw [hs1]; exact hsinv.2.1
    rcases ht0 : kfind c.store.trunk 0 with _ | tid
    · -- no trunk entry at 0: the first call wrote the genesis
      rw [ht0] at hspec
      dsimp only at hspec
      subst hspec
      rw [hinner (by rintro ⟨b0, hb0⟩; rw [hgn] at hb0; simp at hb0)]
      exact writeGenesis_after_write_ok c1 g hid1 hhb1 hcoh1
        (Or.inl (by rw [hs1]; exact ht0))
    · rw [ht0] at hspec
      dsimp only at hspec
      rcases hbp : getBlockP c.store tid with _ | b0
      · -- trunk entry dangles: the first call wrote the genesis
        rw [hbp] at hspec
        simp only [o2e] at hspec
        subst hspec
        rw [hinner (by rintro ⟨b0, hb0⟩; rw [hgn] at hb0; simp at hb0)]
        exact writeGenesis_after_write_ok c1 g hid1 hhb1 hcoh1
          (Or.inr ⟨tid, by rw [hs1]; exact ht0, by rw [hs1]; exact hbp⟩)
      · -- a genuine block at number 0: the first call only compared
        rw [hbp] at hspec
        simp only [o2e] at hspec
        subst hspec
        unfold WriteGenesis at hw ⊢
        rw [hgn] at hw ⊢
        dsimp only at hw ⊢
        by_cases hid : b0.header.id = g.header.id
        · rw [if_pos hid] at hw ⊢
          obtain ⟨hspec2, hrs2⟩ := getBlockByNumber_spec c1 0 hcoh1
          rcases hgn2 : getBlockByNumber c1 0 with ⟨r2, c2⟩
          rw [hgn2] at hspec2
          simp only at hspec2
          rw [hs1, ht0] at hspec2
          dsimp only at hspec2
          rw [hbp] at hspec2
          simp only [o2e] at hspec2
          subst hspec2
          dsimp only
          rw [if_pos hid]
        · rw [if_neg hid] at hw
          exact absurd hw (by simp)

/-- Witness for C9: re-running `WriteGenesis` with the stored genesis on
the concrete chain `Fx.c1`, and writing the same genesis twice from an
empty chain. -/
theorem writeGenesis_existing_witness :
    ((WriteGenesis Fx.c1 Fx.g true).1 = .ok () ∧
      ((WriteGenesis Fx.c1 Fx.g true).2).store = Fx.c1.store) ∧
    (WriteGenesis (WriteGenesis initChain Fx.g true).2 Fx.g true).1 = .ok () := by
  constructor
  · exact (writeGenesis_existing_and_idempotent.1 Fx.c1 Fx.g
      ⟨Fx.g.header, Fx.g.txs⟩ true (by decide)).1 (by decide)
  · exact writeGenesis_existing_and_idempotent.2 initChain Fx.g (by decide) (by decide)
      (by decide)

/-! ### Claim C6 — failing batch commit -/

theorem getBestBlock_props (c : Chain) (hcoh : cacheCoh c) :
    ((getBestBlock c).2).store = c.store ∧
      cacheCoh (getBestBlock c).2 ∧
      ((getBestBlock c).2).cached.receipts = c.cached.receipts ∧
      (((getBestBlock c).2).bestBlock = c.bestBlock ∨ c.bestBlock = none) := by
  unfold getBestBlock
  rcases hbb : c.bestBlock with _ | b
  · dsimp only
    rcases hsb : c.store.best with _ | bid
    · exact ⟨rfl, hcoh, rfl, Or.inr rfl⟩
    · dsimp only
      rcases getBlock_cases c bid hcoh with ⟨c', heq, s1, _⟩ | ⟨b', c', heq, s1, _⟩
      · rw [heq]
        exact ⟨s1.store, s1.coh hcoh, s1.rcache, Or.inr rfl⟩
      · rw [heq]
        refine ⟨s1.store, ?_, s1.rcache, Or.inr rfl⟩
        exact s1.coh hcoh
  · exact ⟨rfl, hcoh, rfl, Or.inl (by dsimp only; exact hbb)⟩

/-- Counterexample to claim C6 as stated: with a failing batch commit the
error is surfaced and storage is untouched, but the caches are NOT left
exactly as before the call — the parent lookup performed before the commit
populated the header cache through the load-through cache. -/
theorem addBlock_commitFail_cex :
    (AddBlock Fx.cCold Fx.b2 false false).1 = .error .storeFailed ∧
      ((AddBlock Fx.cCold Fx.b2 false false).2).store = Fx.cCold.store ∧
      ((AddBlock Fx.cCold Fx.b2 false false).2).cached.header ≠ Fx.cCold.cached.header := by
  refine ⟨by decide, by decide, by decide⟩

/-- Claim C6, amended: every failing `AddBlock` run (commit reports a
store error) leaves storage untouched, keeps the receipts cache and cache
subordination intact, and never surfaces a stale best pointer (the
in-memory best block only changes by materialising the stored best when it
was unset); an error is surfaced whenever the block was not already
stored.  The claim's "caches left exactly as before" does not hold: the
read-through lookups may populate the caches with values loaded from
storage, as the counterexample shows. -/
theorem addBlock_commitFail_amended (c : Chain) (nb : Block) (flag : Bool)
    (hcoh : cacheCoh c) :
    ((AddBlock c nb flag false).2).store = c.store ∧
      cacheCoh (AddBlock c nb flag false).2 ∧
      ((AddBlock c nb flag false).2).cached.receipts = c.cached.receipts ∧
      (((AddBlock c nb flag false).2).bestBlock = c.bestBlock ∨ c.bestBlock = none) ∧
      (kfind c.store.headers nb.header.id = none →
        ∃ e, (AddBlock c nb flag false).1 = .error e) := by
  unfold AddBlock
  rcases getBlock_cases c nb.header.id hcoh with
    ⟨c', heq, s1, hp⟩ | ⟨b', c', heq, s1, hp⟩
  case inr =>
    rw [heq]
    refine ⟨s1.store, s1.coh hcoh, s1.rcache, Or.inl s1.best, ?_⟩
    intro hn
    obtain ⟨hh, _⟩ := getBlockP_some hp
    rw [hn] at hh
    exact absurd hh (by simp)
  case inl =>
    rw [heq]
    dsimp only
    rw [if_neg (by simp [isNotFound])]
    rcases getBlock_cases c' nb.header.parentID (s1.coh hcoh) with
      ⟨c'', heq2, s2, hp2⟩ | ⟨p, c'', heq2, s2, hp2⟩
    case inl =>
      rw [heq2]
      dsimp only
      rw [if_pos (by simp [isNotFound])]
      exact ⟨(s1.trans s2).store, (s1.trans s2).coh hcoh, (s1.trans s2).rcache,
        Or.inl (s1.trans s2).best, fun _ => ⟨.parentMissing, rfl⟩⟩
    case inr =>
      rw [heq2]
      dsimp only
      rcases flag with _ | _
      case false =>
        rw [if_neg (by simp)]
        exact ⟨(s1.trans s2).store, (s1.trans s2).coh hcoh, (s1.trans s2).rcache,
          Or.inl (s1.trans s2).best, fun _ => ⟨.storeFailed, rfl⟩⟩
      case true =>
        rw [if_pos rfl]
        have hcoh'' : cacheCoh c'' := (s1.trans s2).coh hcoh
        obtain ⟨hgst, hgcoh, hgrc, hgbb⟩ := getBestBlock_props c'' hcoh''
        rcases hgb : getBestBlock c'' with ⟨rb, c3⟩
        rw [hgb] at hgst hgcoh hgrc hgbb
        simp only at hgst hgcoh hgrc hgbb
        have hbb3 : c3.bestBlock = c.bestBlock ∨ c.bestBlock = none := by
          rcases hgbb with h | h
          · rw [h, (s1.trans s2).best]
            exact Or.inl rfl
          · rw [(s1.trans s2).best] at h
            exact Or.inr h
        rcases rb with e | best
        · exact ⟨hgst.trans (s1.trans s2).store, hgcoh,
            hgrc.trans (s1.trans s2).rcache, hbb3, fun _ => ⟨e, rfl⟩⟩
        · dsimp only
          obtain ⟨htq, hts⟩ := traceBack_spec c3 best nb hgcoh
          rcases htb : traceBack c3 best nb with ⟨rt, c4⟩
          rw [htb] at htq hts
          simp only at htq hts
          have hst4 : c4.store = c.store :=
            hts.store.trans (hgst.trans (s1.trans s2).store)
          have hrc4 : c4.cached.receipts = c.cached.receipts :=
            hts.rcache.trans (hgrc.trans (s1.trans s2).rcache)
          have hbb4 : c4.bestBlock = c.bestBlock ∨ c.bestBlock = none := by
            rcases hbb3 with h | h
            · rw [hts.best, h]
              exact Or.inl rfl
            · exact Or.inr h
          rcases rt with e | trip
          · dsimp only
            exact ⟨hst4, hts.coh hgcoh, hrc4, hbb4, fun _ => ⟨e, rfl⟩⟩
          · obtain ⟨anc, oldB, newB⟩ := trip
            dsimp only
            rw [if_neg (by simp)]
            exact ⟨hst4, hts.coh hgcoh, hrc4, hbb4, fun _ => ⟨.storeFailed, rfl⟩⟩

/-- Witness for the amended C6 at the concrete cold-cache chain. -/
theorem addBlock_commitFail_amended_witness :
    ((AddBlock Fx.cCold Fx.b2 false false).2).store = Fx.cCold.store ∧
      cacheCoh (AddBlock Fx.cCold Fx.b2 false false).2 ∧
      ((AddBlock Fx.cCold Fx.b2 false false).2).cached.receipts =
        Fx.cCold.cached.receipts ∧
      (((AddBlock Fx.cCold Fx.b2 false false).2).bestBlock = Fx.cCold.bestBlock ∨
        Fx.cCold.bestBlock = none) ∧
      (kfind Fx.cCold.store.headers Fx.b2.header.id = none →
        ∃ e, (AddBlock Fx.cCold Fx.b2 false false).1 = .error e) :=
  addBlock_commitFail_amended Fx.cCold Fx.b2 false (by decide)

/-! ### Counterexamples from unvalidated block numbers and duplicated
transactions -/

/-- Counterexample to claim C2 as stated: `AddBlock` never validates that a
block's number is its parent's plus one, so a successful sequence of
operations can leave the trunk index non-contiguous — number 2 maps to the
new best block while number 1 maps to nothing. -/
theorem trunk_gap_cex :
    (WriteGenesis initChain Fx.g true).1 = .ok () ∧
      (AddBlock Fx.c1 Fx.bGap true true).1 = .ok [] ∧
      ((AddBlock Fx.c1 Fx.bGap true true).2).bestBlock = some Fx.bGap ∧
      kfind ((AddBlock Fx.c1 Fx.bGap true true).2).store.trunk 2 =
        some Fx.bGap.header.id ∧
      kfind ((AddBlock Fx.c1 Fx.bGap true true).2).store.trunk 1 = none := by
  refine ⟨by decide, by decide, by decide, by decide, by decide⟩

/-- Counterexample to claim C4 as stated: when the same transaction id is
included in two blocks of one chain, reorging away the upper block erases
the location record even though the transaction still sits on the trunk
(in the genesis), so `getTransaction` answers NotFound for an on-trunk
transaction. -/
theorem getTransaction_lost_cex :
    (AddBlock Fx.c1 Fx.bDup true true).1 = .ok [] ∧
      (AddBlock Fx.cDup Fx.bRepl true true).1 = .ok [⟨7⟩] ∧
      Fx.cDup2.bestBlock = some Fx.bRepl ∧
      ancAt Fx.cDup2.store Fx.bRepl 0 = some Fx.g ∧
      (⟨7⟩ : Tx) ∈ Fx.g.txs ∧
      (getTransaction Fx.cDup2 7).1 = .error .notFound := by
  refine ⟨by decide, by decide, by decide, by decide, by decide, by decide⟩

/-- Counterexample to claim C3 as stated: in the same duplicated-
transaction scenario, `LookupTransaction` from the stored head `bRepl`
answers NotFound although transaction 7 appears in the head's ancestor
chain (in the genesis). -/
theorem lookupTransaction_lost_cex :
    getBlockP Fx.cDup2.store Fx.bRepl.header.id = some Fx.bRepl ∧
      ancAt Fx.cDup2.store Fx.bRepl 0 = some Fx.g ∧
      (⟨7⟩ : Tx) ∈ Fx.g.txs ∧
      (LookupTransaction Fx.cDup2 Fx.bRepl.header.id 7).1 = .error .notFound := by
  refine ⟨by decide, by decide, by decide, by decide⟩

/-! ### Claim C7 — cache subordination and set_block_receipts -/

/-- Counterexample to claim C7 as stated: `setBlockReceipts` inserts into
the receipts cache before the store write, so when the write fails the
cache holds a receipts value that is absent from storage. -/
theorem setBlockReceipts_cache_ahead_cex :
    (setBlockReceipts initChain ⟨1, 1⟩ [5] false).1 = .error .storeFailed ∧
      kfind ((setBlockReceipts initChain ⟨1, 1⟩ [5] false).2).cached.receipts ⟨1, 1⟩ =
        some [5] ∧
      kfind ((setBlockReceipts initChain ⟨1, 1⟩ [5] false).2).store.receipts ⟨1, 1⟩ =
        none := by
  refine ⟨rfl, ?_, rfl⟩
  exact kfind_kinsert_self _ _ _

/-- Claim C7, amended: `set_block_receipts` inserts into the cache first
and then persists; on a successful put cache and storage agree, while on a
failing put the error is surfaced, storage is unchanged, and the receipts
cache is left holding the unpersisted value (ahead of storage). -/
theorem setBlockReceipts_amended (c : Chain) (bid : Hash) (rs : List Receipt) :
    ((setBlockReceipts c bid rs true).1 = .ok () ∧
      kfind ((setBlockReceipts c bid rs true).2).cached.receipts bid = some rs ∧
      kfind ((setBlockReceipts c bid rs true).2).store.receipts bid = some rs) ∧
    ((setBlockReceipts c bid rs false).1 = .error .storeFailed ∧
      kfind ((setBlockReceipts c bid rs false).2).cached.receipts bid = some rs ∧
      ((setBlockReceipts c bid rs false).2).store = c.store) := by
  refine ⟨⟨rfl, ?_, ?_⟩, ⟨rfl, ?_, rfl⟩⟩
  · exact kfind_kinsert_self _ _ _
  · exact kfind_kinsert_self _ _ _
  · exact kfind_kinsert_self _ _ _

/-! ### The reorg diff map

AddBlock builds the returned transaction diff by folding the old-trunk
blocks (inserting each transaction under its id) and then the new-trunk
blocks (erasing each transaction's id) over an initially empty map.  The
lemmas below characterise the final map's lookups and contents. -/

theorem tx_eq_of_id {u t : Tx} (h : u.id = t.id) : u = t := by
  cases u; cases t; simpa using h

theorem kerase_sublist {α β : Type} [DecidableEq α] (m : List (α × β)) (a : α) :
    (kerase m a).Sublist m := by
  induction m with
  | nil => simp [kerase]
  | cons p rest ih =>
    obtain ⟨k, w⟩ := p
    by_cases hka : k = a
    · rw [show kerase ((k, w) :: rest) a = kerase rest a by simp [kerase, hka]]
      exact ih.trans (List.sublist_cons_self _ _)
    · rw [show kerase ((k, w) :: rest) a = (k, w) :: kerase rest a by simp [kerase, hka]]
      exact ih.cons₂ _

theorem kfind_isSome_of_key {α β : Type} [DecidableEq α] {m : List (α × β)} {a : α}
    (h : a ∈ m.map Prod.fst) : (kfind m a).isSome := by
  induction m with
  | nil => simp at h
  | cons p rest ih =>
    obtain ⟨k, w⟩ := p
    by_cases hk : k = a
    · simp [kfind, hk]
    · rw [List.map_cons] at h
      rcases List.mem_cons.mp h with h | h
      · exact absurd h.symm hk
      · simp only [kfind, if_neg hk]
        exact ih h

theorem kfind_of_mem_nodup {α β : Type} [DecidableEq α] {m : List (α × β)}
    (hnd : (m.map Prod.fst).Nodup) {p : α × β} (hp : p ∈ m) : kfind m p.1 = some p.2 := by
  induction m with
  | nil => simp at hp
  | cons q rest ih =>
    obtain ⟨k, w⟩ := q
    rw [List.map_cons] at hnd
    have hnd' := List.nodup_cons.mp hnd
    rcases List.mem_cons.mp hp with h | h
    · subst h
      simp [kfind]
    · have hk : ¬ k = p.1 := by
        intro he
        apply hnd'.1
        rw [he]
        exact List.mem_map.mpr ⟨p, h, rfl⟩
      simp only [kfind, if_neg hk]
      exact ih hnd'.2 h

theorem diffInv_kinsert {m : List (Nat × Tx)} (h : diffInv m) (t : Tx) :
    diffInv (kinsert m t.id t) := by
  refine ⟨?_, ?_⟩
  · simp only [kinsert, List.map_cons]
    refine List.nodup_cons.mpr ⟨?_, ((kerase_sublist m t.id).map Prod.fst).nodup h.1⟩
    intro hmem
    have hsome := kfind_isSome_of_key hmem
    rw [kfind_kerase] at hsome
    simp at hsome
  · intro p hp
    rcases mem_kinsert_elim hp with h' | h'
    · subst h'; rfl
    · exact h.2 p h'

theorem diffInv_kerase {m : List (Nat × Tx)} (h : diffInv m) (k : Nat) :
    diffInv (kerase m k) :=
  ⟨((kerase_sublist m k).map Prod.fst).nodup h.1, fun p hp => h.2 p (mem_kerase hp)⟩

theorem insFold_diffInv (txs : List Tx) :
    ∀ m, diffInv m → diffInv (txs.foldl (fun m t => kinsert m t.id t) m) := by
  induction txs with
  | nil => intro m h; exact h
  | cons t rest ih =>
    intro m h
    rw [List.foldl_cons]
    exact ih _ (diffInv_kinsert h t)

theorem ersFold_diffInv (txs : List Tx) :
    ∀ m, diffInv m → diffInv (txs.foldl (fun m t => kerase m t.id) m) := by
  induction txs with
  | nil => intro m h; exact h
  | cons t rest ih =>
    intro m h
    rw [List.foldl_cons]
    exact ih _ (diffInv_kerase h t.id)

theorem oldFold_diffInv (obs : List Block) :
    ∀ m, diffInv m →
      diffInv (obs.foldl (fun m ob => ob.txs.foldl (fun m t => kinsert m t.id t) m) m) := by
  induction obs with
  | nil => intro m h; exact h
  | cons ob rest ih =>
    intro m h
    rw [List.foldl_cons]
    exact ih _ (insFold_diffInv ob.txs m h)

theorem newFold_diffInv (nbs : List Block) :
    ∀ m, diffInv m →
      diffInv (nbs.foldl (fun m nb => nb.txs.foldl (fun m t => kerase m t.id) m) m) := by
  induction nbs with
  | nil => intro m h; exact h
  | cons nb rest ih =>
    intro m h
    rw [List.foldl_cons]
    exact ih _ (ersFold_diffInv nb.txs m h)

theorem insFold_kfind_ne (txs : List Tx) :
    ∀ (m : List (Nat × Tx)) (k : Nat), (∀ t ∈ txs, t.id ≠ k) →
      kfind (txs.foldl (fun m t => kinsert m t.id t) m) k = kfind m k := by
  induction txs with
  | nil => intro m k _; rfl
  | cons t rest ih =>
    intro m k hne
    rw [List.foldl_cons, ih _ k (fun u hu => hne u (List.mem_cons_of_mem _ hu)),
      kfind_kinsert, if_neg (hne t (List.mem_cons_self _ _))]

theorem insFold_kfind_mem (txs : List Tx) :
    ∀ (m : List (Nat × Tx)) (k : Nat), (∃ t ∈ txs, t.id = k) →
      kfind (txs.foldl (fun m t => kinsert m t.id t) m) k = some ⟨k⟩ := by
  induction txs with
  | nil => intro m k h; simp at h
  | cons t rest ih =>
    intro m k h
    rw [List.foldl_cons]
    by_cases hr : ∃ u ∈ rest, u.id = k
    · exact ih _ k hr
    · have hne : ∀ u ∈ rest, u.id ≠ k := fun u hu hk => hr ⟨u, hu, hk⟩
      have htk : t.id = k := by
        rcases h with ⟨u, hu, hk⟩
        rcases List.mem_cons.mp hu with h' | h'
        · subst h'; exact hk
        · exact absurd hk (hne u h')
      rw [insFold_kfind_ne rest _ k hne, ← htk, kfind_kinsert_self]

theorem ersFold_kfind_ne (txs : List Tx) :
    ∀ (m : List (Nat × Tx)) (k : Nat), (∀ t ∈ txs, t.id ≠ k) →
      kfind (txs.foldl (fun m t => kerase m t.id) m) k = kfind m k := by
  induction txs with
  | nil => intro m k _; rfl
  | cons t rest ih =>
    intro m k hne
    rw [List.foldl_cons, ih _ k (fun u hu => hne u (List.mem_cons_of_mem _ hu)),
      kfind_kerase, if_neg (hne t (List.mem_cons_self _ _))]

theorem ersFold_kfind_mem (txs : List Tx) :
    ∀ (m : List (Nat × Tx)) (k : Nat), (∃ t ∈ txs, t.id = k) →
      kfind (txs.foldl (fun m t => kerase m t.id) m) k = none := by
  induction txs with
  | nil => intro m k h; simp at h
  | cons t rest ih =>
    intro m k h
    rw [List.foldl_cons]
    by_cases hr : ∃ u ∈ rest, u.id = k
    · exact ih _ k hr
    · have hne : ∀ u ∈ rest, u.id ≠ k := fun u hu hk => hr ⟨u, hu, hk⟩
      have htk : t.id = k := by
        rcases h with ⟨u, hu, hk⟩
        rcases List.mem_cons.mp hu with h' | h'
        · subst h'; exact hk
        · exact absurd hk (hne u h')
      rw [ersFold_kfind_ne rest _ k hne, kfind_kerase, if_pos htk]

theorem oldFold_kfind_ne (obs : List Block) :
    ∀ (m : List (Nat × Tx)) (k : Nat), (∀ b ∈ obs, ∀ t ∈ b.txs, t.id ≠ k) →
      kfind (obs.foldl (fun m ob => ob.txs.foldl (fun m t => kinsert m t.id t) m) m) k =
        kfind m k := by
  induction obs with
  | nil => intro m k _; rfl
  | cons ob rest ih =>
    intro m k hne
    rw [List.foldl_cons, ih _ k (fun b hb => hne b (List.mem_cons_of_mem _ hb)),
      insFold_kfind_ne ob.txs m k (hne ob (List.mem_cons_self _ _))]

theorem oldFold_kfind_mem (obs : List Block) :
    ∀ (m : List (Nat × Tx)) (k : Nat), (∃ b ∈ obs, ∃ t ∈ b.txs, t.id = k) →
      kfind (obs.foldl (fun m ob => ob.txs.foldl (fun m t => kinsert m t.id t) m) m) k =
        some ⟨k⟩ := by
  induction obs with
  | nil => intro m k h; simp at h
  | cons ob rest ih =>
    intro m k h
    rw [List.foldl_cons]
    by_cases hr : ∃ b ∈ rest, ∃ t ∈ b.txs, t.id = k
    · exact ih _ k hr
    · have hne : ∀ b ∈ rest, ∀ t ∈ b.txs, t.id ≠ k :=
        fun b hb t ht hk => hr ⟨b, hb, t, ht, hk⟩
      have hob : ∃ t ∈ ob.txs, t.id = k := by
        rcases h with ⟨b, hb, t, ht, hk⟩
        rcases List.mem_cons.mp hb with h' | h'
        · subst h'; exact ⟨t, ht, hk⟩
        · exact absurd hk (hne b h' t ht)
      rw [oldFold_kfind_ne rest _ k hne]
      exact insFold_kfind_mem ob.txs m k hob

theorem newFold_kfind_ne (nbs : List Block) :
    ∀ (m : List (Nat × Tx)) (k : Nat), (∀ b ∈ nbs, ∀ t ∈ b.txs, t.id ≠ k) →
      kfind (nbs.foldl (fun m nb => nb.txs.foldl (fun m t => kerase m t.id) m) m) k =
        kfind m k := by
  induction nbs with
  | nil => intro m k _; rfl
  | cons nb rest ih =>
    intro m k hne
    rw [List.foldl_cons, ih _ k (fun b hb => hne b (List.mem_cons_of_mem _ hb)),
      ersFold_kfind_ne nb.txs m k (hne nb (List.mem_cons_self _ _))]

theorem newFold_kfind_mem (nbs : List Block) :
    ∀ (m : List (Nat × Tx)) (k : Nat), (∃ b ∈ nbs, ∃ t ∈ b.txs, t.id = k) →
      kfind (nbs.foldl (fun m nb => nb.txs.foldl (fun m t => kerase m t.id) m) m) k =
        none := by
  induction nbs with
  | nil => intro m k h; simp at h
  | cons nb rest ih =>
    intro m k h
    rw [List.foldl_cons]
    by_cases hr : ∃ b ∈ rest, ∃ t ∈ b.txs, t.id = k
    · exact ih _ k hr
    · have hne : ∀ b ∈ rest, ∀ t ∈ b.txs, t.id ≠ k :=
        fun b hb t ht hk => hr ⟨b, hb, t, ht, hk⟩
      have hnb : ∃ t ∈ nb.txs, t.id = k := by
        rcases h with ⟨b, hb, t, ht, hk⟩
        rcases List.mem_cons.mp hb with h' | h'
        · subst h'; exact ⟨t, ht, hk⟩
        · exact absurd hk (hne b h' t ht)
      rw [newFold_kfind_ne rest _ k hne]
      exact ersFold_kfind_mem nb.txs m k hnb

theorem diffMap_char (oldB newB : List Block) (t : Tx) :
    t ∈ (newB.foldl (fun m nb => nb.txs.foldl (fun m t => kerase m t.id) m)
          (oldB.foldl (fun m ob => ob.txs.foldl (fun m t => kinsert m t.id t) m)
            [])).map Prod.snd ↔
      ((∃ b ∈ oldB, t ∈ b.txs) ∧ ∀ b ∈ newB, t ∉ b.txs) := by
  have hinv : diffInv (newB.foldl (fun m nb => nb.txs.foldl (fun m t => kerase m t.id) m)
      (oldB.foldl (fun m ob => ob.txs.foldl (fun m t => kinsert m t.id t) m) [])) :=
    newFold_diffInv newB _ (oldFold_diffInv oldB [] ⟨List.nodup_nil, by simp⟩)
  constructor
  · intro hmem
    rcases List.mem_map.mp hmem with ⟨p, hp, hpt⟩
    have hid : p.1 = t.id := by rw [← hpt]; exact (hinv.2 p hp).symm
    have hfind : kfind (newB.foldl (fun m nb => nb.txs.foldl (fun m t => kerase m t.id) m)
        (oldB.foldl (fun m ob => ob.txs.foldl (fun m t => kinsert m t.id t) m) []))
        t.id = some t := by
      have h0 := kfind_of_mem_nodup hinv.1 hp
      rw [hid, hpt] at h0
      exact h0
    by_cases hnew : ∃ b ∈ newB, ∃ u ∈ b.txs, u.id = t.id
    · rw [newFold_kfind_mem newB _ t.id hnew] at hfind
      exact absurd hfind (by simp)
    · have hne : ∀ b ∈ newB, ∀ u ∈ b.txs, u.id ≠ t.id :=
        fun b hb u hu hk => hnew ⟨b, hb, u, hu, hk⟩
      rw [newFold_kfind_ne newB _ t.id hne] at hfind
      by_cases hold : ∃ b ∈ oldB, ∃ u ∈ b.txs, u.id = t.id
      · refine ⟨?_, ?_⟩
        · rcases hold with ⟨b, hb, u, hu, hk⟩
          exact ⟨b, hb, tx_eq_of_id hk ▸ hu⟩
        · intro b hb ht
          exact hne b hb t ht rfl
      · rw [oldFold_kfind_ne oldB [] t.id
          (fun b hb u hu hk => hold ⟨b, hb, u, hu, hk⟩)] at hfind
        exact absurd hfind (by simp [kfind])
  · rintro ⟨⟨b, hb, ht⟩, hnone⟩
    have hne : ∀ b' ∈ newB, ∀ u ∈ b'.txs, u.id ≠ t.id := by
      intro b' hb' u hu hk
      exact hnone b' hb' (tx_eq_of_id hk ▸ hu)
    have hfind : kfind (newB.foldl (fun m nb => nb.txs.foldl (fun m t => kerase m t.id) m)
        (oldB.foldl (fun m ob => ob.txs.foldl (fun m t => kinsert m t.id t) m) []))
        t.id = some ⟨t.id⟩ := by
      rw [newFold_kfind_ne newB _ t.id hne]
      exact oldFold_kfind_mem oldB [] t.id ⟨b, hb, t, ht, rfl⟩
    have hmem := kfind_mem hfind
    refine List.mem_map.mpr ⟨(t.id, ⟨t.id⟩), hmem, ?_⟩
    cases t; rfl

theorem oldFold_snd (obs : List Block) :
    ∀ acc : Storage × List (Nat × Tx),
      (obs.foldl applyOldBlock acc).2 =
        obs.foldl (fun m ob => ob.txs.foldl (fun m t => kinsert m t.id t) m) acc.2 := by
  induction obs with
  | nil => intro acc; rfl
  | cons ob rest ih =>
    intro acc
    rw [List.foldl_cons, List.foldl_cons, ih]
    rfl

theorem newFold_snd (nbs : List Block) :
    ∀ acc : Storage × List (Nat × Tx),
      (nbs.foldl applyNewBlock acc).2 =
        nbs.foldl (fun m nb => nb.txs.foldl (fun m t => kerase m t.id) m) acc.2 := by
  induction nbs with
  | nil => intro acc; rfl
  | cons nb rest ih =>
    intro acc
    rw [List.foldl_cons, List.foldl_cons, ih]
    rfl

/-- Claim C5: for every pair of stored blocks, the common-ancestor
algorithm succeeds and returns the deepest block shared by both ancestor
chains, together with the two head-first parent paths (deepest element
last) exclusive of the common ancestor; under the storage discipline the
chains always meet, at the unique genesis if nowhere earlier. -/
theorem traceBack_common_ancestor (c : Chain) (a b : Block)
    (hcoh : cacheCoh c) (hinv : SInv c.store)
    (ha : getBlockP c.store a.header.id = some a)
    (hb : getBlockP c.store b.header.id = some b) :
    ∃ anc l1 l2,
      (traceBack c a b).1 = .ok (anc, l1, l2) ∧
        PathTo c.store a l1 anc ∧ PathTo c.store b l2 anc ∧
        Anc c.store a anc ∧ Anc c.store b anc ∧
        getBlockP c.store anc.header.id = some anc ∧
        (∀ x, Anc c.store a x → Anc c.store b x → x.number ≤ anc.number) := by
  obtain ⟨htq, hts⟩ := traceBack_spec c a b hcoh
  obtain ⟨anc, l1, l2, heq, hP1, hP2, hancs, hancr, hdeep⟩ :=
    traceAuxP_main hinv.1 hinv.2.2.2 (traceFuel c a b) a b [] []
      (stored_rooted' hinv ha) (stored_rooted' hinv hb)
      (Or.inl ha) (Or.inl hb) (Or.inl ha)
      (fun hn => absurd hn (stored_not_none ha))
      (fun hn => absurd hn (stored_not_none hb))
      (by unfold traceFuel; omega)
  refine ⟨anc, l1, l2, ?_, hP1, hP2, hP1.anc, hP2.anc, hancs, hdeep⟩
  rw [htq]
  unfold traceBackP
  rw [heq]
  simp

/-- Witness for C5: the stored trunk tip `b2` and side-branch tip `b2s`
of the fixture chain meet at `b1`. -/
theorem traceBack_common_ancestor_witness :
    ∃ anc l1 l2,
      (traceBack Fx.c4 Fx.b2 Fx.b2s).1 = .ok (anc, l1, l2) ∧
        PathTo Fx.c4.store Fx.b2 l1 anc ∧ PathTo Fx.c4.store Fx.b2s l2 anc ∧
        Anc Fx.c4.store Fx.b2 anc ∧ Anc Fx.c4.store Fx.b2s anc ∧
        getBlockP Fx.c4.store anc.header.id = some anc ∧
        (∀ x, Anc Fx.c4.store Fx.b2 x → Anc Fx.c4.store Fx.b2s x →
          x.number ≤ anc.number) :=
  traceBack_common_ancestor Fx.c4 Fx.b2 Fx.b2s
    (by decide) (by decide) (by decide) (by decide)

/-- Claim C1: a successful `add_block(nb, true)` that reorganises the trunk
away from the current best block returns exactly the set difference between
the transactions of the abandoned trunk segment and those of the adopted
segment, as computed by the common-ancestor walk. -/
theorem addBlock_reorg_diff (c : Chain) (nb best anc : Block)
    (oldB newB : List Block) (hcoh : cacheCoh c)
    (hfresh : getBlockP c.store nb.header.id = none)
    (hpar : (getBlockP c.store nb.header.parentID).isSome)
    (hbest : c.bestBlock = some best)
    (htr : traceBackP c.store best nb (traceFuel c best nb) = .ok (anc, oldB, newB)) :
    ∃ diff c', AddBlock c nb true true = (.ok diff, c') ∧
      ∀ t, t ∈ diff ↔ ((∃ b ∈ oldB, t ∈ b.txs) ∧ ∀ b ∈ newB, t ∉ b.txs) := by
  unfold AddBlock
  rcases getBlock_cases c nb.header.id hcoh with
    ⟨c', heq, s1, hp⟩ | ⟨b', c', heq, s1, hp⟩
  case inr =>
    rw [hfresh] at hp
    exact absurd hp (by simp)
  case inl =>
    rw [heq]
    dsimp only
    rw [if_neg (by simp [isNotFound])]
    rcases getBlock_cases c' nb.header.parentID (s1.coh hcoh) with
      ⟨c'', heq2, s2, hp2⟩ | ⟨p, c'', heq2, s2, hp2⟩
    case inl =>
      rw [s1.store] at hp2
      rw [hp2] at hpar
      simp at hpar
    case inr =>
      rw [heq2]
      dsimp only
      rw [if_pos rfl]
      have hb'' : c''.bestBlock = some best := by rw [(s1.trans s2).best, hbest]
      rw [getBestBlock_of_some c'' best hb'']
      dsimp only
      obtain ⟨htq, hts⟩ := traceBack_spec c'' best nb ((s1.trans s2).coh hcoh)
      rcases htb : traceBack c'' best nb with ⟨rt, c4⟩
      rw [htb] at htq hts
      simp only at htq hts
      have hfu : traceFuel c'' best nb = traceFuel c best nb := by
        unfold traceFuel
        rw [(s1.trans s2).store]
      rw [hfu, (s1.trans s2).store, htr] at htq
      subst htq
      dsimp only
      rw [if_pos rfl]
      refine ⟨_, _, rfl, ?_⟩
      intro t
      rw [newFold_snd, oldFold_snd]
      exact diffMap_char oldB newB t

/-- Witness for C1 at the concrete reorg fixture: adding `b3s` on top of
the side branch reorganises away `b2`; the diff is characterised against
the old segment `[b2]` and the new segment `[b3s, b2s]`. -/
theorem addBlock_reorg_diff_witness :
    ∃ diff c', AddBlock Fx.c4 Fx.b3s true true = (.ok diff, c') ∧
      ∀ t, t ∈ diff ↔
        ((∃ b ∈ [Fx.b2], t ∈ b.txs) ∧ ∀ b ∈ [Fx.b3s, Fx.b2s], t ∉ b.txs) :=
  addBlock_reorg_diff Fx.c4 Fx.b3s Fx.b2 Fx.b1 [Fx.b2] [Fx.b3s, Fx.b2s]
    (by decide) (by decide) (by decide) (by decide) (by decide)

/-! ### The trunk index across reachable states

Invariant preservation for `Reach`: storage well-formedness, cache
coherence and the characterisation of the trunk table as the ancestor map
of the best block. -/

theorem anc_trans {s : Storage} {b x y : Block} (h1 : Anc s b x) :
    Anc s x y → Anc s b y := by
  induction h1 with
  | refl => exact fun h2 => h2
  | step h0 hp _ ih => exact fun h2 => Anc.step h0 hp (ih h2)

theorem anc_stored {s : Storage} (hid : hidOk s) {b x : Block} (h : Anc s b x) :
    getBlockP s b.header.id = some b → getBlockP s x.header.id = some x := by
  induction h with
  | refl => exact fun hb => hb
  | step h0 hp _ ih => exact fun _ => ih (fetched_selfStored hid hp)

theorem SInv_congr {s s' : Storage} (hH : s'.headers = s.headers)
    (hB : s'.bodies = s.bodies) (h : SInv s) : SInv s' := by
  obtain ⟨h1, h2, h3, h4⟩ := h
  refine ⟨?_, ⟨?_, ?_⟩, ?_, ?_⟩
  · intro p hp
    rw [hH] at hp
    exact h1 p hp
  · intro p hp
    rw [hH] at hp
    rw [hB]
    exact h2.1 p hp
  · intro p hp
    rw [hB] at hp
    rw [hH]
    exact h2.2 p hp
  · intro p hp h0
    rw [hH] at hp
    rw [hH]
    exact h3 p hp h0
  · intro p hp q hq h0 h0'
    rw [hH] at hp hq
    exact h4 p hp q hq h0 h0'

theorem SInv_genesis (g : Block) (h0 : g.number = 0) (s : Storage)
    (hH : s.headers = [(g.header.id, g.header)])
    (hB : s.bodies = [(g.header.id, g.txs)]) : SInv s := by
  refine ⟨?_, ⟨?_, ?_⟩, ?_, ?_⟩
  · intro p hp
    rw [hH] at hp
    have := List.mem_singleton.mp hp
    subst this
    rfl
  · intro p hp
    rw [hH] at hp
    have := List.mem_singleton.mp hp
    subst this
    rw [hB]
    simp [kfind]
  · intro p hp
    rw [hB] at hp
    have := List.mem_singleton.mp hp
    subst this
    rw [hH]
    simp [kfind]
  · intro p hp hn
    rw [hH] at hp
    have := List.mem_singleton.mp hp
    subst this
    exact absurd h0 hn
  · intro p hp q hq _ _
    rw [hH] at hp hq
    have h1 := List.mem_singleton.mp hp
    have h2 := List.mem_singleton.mp hq
    rw [h1, h2]

theorem cacheCoh_saveBlock {c : Chain} (hcoh : cacheCoh c) {nb : Block}
    (hfH : kfind c.store.headers nb.header.id = none)
    (hfB : kfind c.store.bodies nb.header.id = none)
    {c' : Chain}
    (hH : c'.store.headers = kinsert c.store.headers nb.header.id nb.header)
    (hB : c'.store.bodies = kinsert c.store.bodies nb.header.id nb.txs)
    (hch : c'.cached.header = kinsert c.cached.header nb.header.id nb.header)
    (hcb : c'.cached.body = kinsert c.cached.body nb.header.id nb.txs)
    (hct : c'.cached.blockTxIDs = c.cached.blockTxIDs) :
    cacheCoh c' := by
  refine ⟨?_, ?_, ?_⟩
  · intro p hp
    rw [hch] at hp
    rw [hH]
    rcases mem_kinsert_elim hp with h | h
    · subst h
      exact kfind_kinsert_self _ _ _
    · have hold := hcoh.1 p h
      rw [kfind_kinsert, if_neg (fun he => stored_key_ne (by rw [hold]; rfl) hfH he.symm)]
      exact hold
  · intro p hp
    rw [hcb] at hp
    rw [hB]
    rcases mem_kinsert_elim hp with h | h
    · subst h
      exact kfind_kinsert_self _ _ _
    · have hold := hcoh.2.1 p h
      have hne : ¬ nb.header.id = p.1 := by
        intro he
        rw [← he, hfB] at hold
        exact absurd hold (by simp)
      rw [kfind_kinsert, if_neg hne]
      exact hold
  · intro p hp
    rw [hct] at hp
    have hold := hcoh.2.2 p hp
    have hne : ¬ nb.header.id = p.1 := by
      intro he
      rw [← he, hfB] at hold
      exact absurd hold (by simp)
    rw [hB, kfind_kinsert, if_neg hne]
    exact hold

theorem oldFold_store (obs : List Block) :
    ∀ acc : Storage × List (Nat × Tx),
      (obs.foldl applyOldBlock acc).1.headers = acc.1.headers ∧
        (obs.foldl applyOldBlock acc).1.bodies = acc.1.bodies ∧
        (obs.foldl applyOldBlock acc).1.best = acc.1.best ∧
        (obs.foldl applyOldBlock acc).1.trunk =
          obs.foldl (fun tr ob => kerase tr (blockNumber ob.header.id)) acc.1.trunk ∧
        (obs.foldl applyOldBlock acc).1.txLocs =
          obs.foldl (fun m ob => eraseTxLocsList m ob.txs) acc.1.txLocs := by
  induction obs with
  | nil => intro acc; exact ⟨rfl, rfl, rfl, rfl, rfl⟩
  | cons ob rest ih =>
    intro acc
    simp only [List.foldl_cons]
    obtain ⟨i1, i2, i3, i4, i5⟩ := ih (applyOldBlock acc ob)
    exact ⟨i1, i2, i3, i4, i5⟩

theorem newFold_store (nbs : List Block) :
    ∀ acc : Storage × List (Nat × Tx),
      (nbs.foldl applyNewBlock acc).1.headers = acc.1.headers ∧
        (nbs.foldl applyNewBlock acc).1.bodies = acc.1.bodies ∧
        (nbs.foldl applyNewBlock acc).1.best = acc.1.best ∧
        (nbs.foldl applyNewBlock acc).1.trunk =
          nbs.foldl (fun tr b => kinsert tr (blockNumber b.header.id) b.header.id)
            acc.1.trunk ∧
        (nbs.foldl applyNewBlock acc).1.txLocs =
          nbs.foldl (fun m b => saveTxLocsList m b.txs b.header.id) acc.1.txLocs := by
  induction nbs with
  | nil => intro acc; exact ⟨rfl, rfl, rfl, rfl, rfl⟩
  | cons nb rest ih =>
    intro acc
    simp only [List.foldl_cons]
    obtain ⟨i1, i2, i3, i4, i5⟩ := ih (applyNewBlock acc nb)
    exact ⟨i1, i2, i3, i4, i5⟩

theorem trunkErsFold_ne (obs : List Block) :
    ∀ (tr : List (Nat × Hash)) (n : Nat), (∀ b ∈ obs, blockNumber b.header.id ≠ n) →
      kfind (obs.foldl (fun tr ob => kerase tr (blockNumber ob.header.id)) tr) n =
        kfind tr n := by
  induction obs with
  | nil => intro tr n _; rfl
  | cons ob rest ih =>
    intro tr n hne
    rw [List.foldl_cons, ih _ n (fun b hb => hne b (List.mem_cons_of_mem _ hb)),
      kfind_kerase, if_neg (hne ob (List.mem_cons_self _ _))]

theorem trunkErsFold_mem (obs : List Block) :
    ∀ (tr : List (Nat × Hash)) (n : Nat), (∃ b ∈ obs, blockNumber b.header.id = n) →
      kfind (obs.foldl (fun tr ob => kerase tr (blockNumber ob.header.id)) tr) n =
        none := by
  induction obs with
  | nil => intro tr n h; simp at h
  | cons ob rest ih =>
    intro tr n h
    rw [List.foldl_cons]
    by_cases hr : ∃ b ∈ rest, blockNumber b.header.id = n
    · exact ih _ n hr
    · have hne : ∀ b ∈ rest, blockNumber b.header.id ≠ n := fun b hb hk => hr ⟨b, hb, hk⟩
      have hon : blockNumber ob.header.id = n := by
        rcases h with ⟨b, hb, hk⟩
        rcases List.mem_cons.mp hb with h' | h'
        · subst h'; exact hk
        · exact absurd hk (hne b h')
      rw [trunkErsFold_ne rest _ n hne, kfind_kerase, if_pos hon]

theorem trunkInsFold_ne (nbs : List Block) :
    ∀ (tr : List (Nat × Hash)) (n : Nat), (∀ b ∈ nbs, blockNumber b.header.id ≠ n) →
      kfind (nbs.foldl (fun tr b => kinsert tr (blockNumber b.header.id) b.header.id) tr)
          n =
        kfind tr n := by
  induction nbs with
  | nil => intro tr n _; rfl
  | cons nb rest ih =>
    intro tr n hne
    rw [List.foldl_cons, ih _ n (fun b hb => hne b (List.mem_cons_of_mem _ hb)),
      kfind_kinsert, if_neg (hne nb (List.mem_cons_self _ _))]

theorem trunkInsFold_mem (nbs : List Block) :
    ∀ (tr : List (Nat × Hash)) (n : Nat) (x : Block), x ∈ nbs →
      blockNumber x.header.id = n →
      (∀ b ∈ nbs, blockNumber b.header.id = n → b = x) →
      kfind (nbs.foldl (fun tr b => kinsert tr (blockNumber b.header.id) b.header.id) tr)
          n =
        some x.header.id := by
  induction nbs with
  | nil => intro tr n x hx; simp at hx
  | cons nb rest ih =>
    intro tr n x hx hxn huniq
    rw [List.foldl_cons]
    by_cases hr : ∃ b ∈ rest, blockNumber b.header.id = n
    · obtain ⟨b', hb', hb'n⟩ := hr
      have hb'x : b' = x := huniq b' (List.mem_cons_of_mem _ hb') hb'n
      exact ih _ n x (hb'x ▸ hb') hxn
        (fun q hq hqn => huniq q (List.mem_cons_of_mem _ hq) hqn)
    · have hne : ∀ b ∈ rest, blockNumber b.header.id ≠ n := fun b hb hk => hr ⟨b, hb, hk⟩
      have hbx : nb = x := by
        rcases List.mem_cons.mp hx with h | h
        · exact h.symm
        · exact absurd hxn (hne x h)
      subst hbx
      rw [trunkInsFold_ne rest _ n hne, ← hxn, kfind_kinsert_self]

theorem CInv_readStep {c c' : Chain} (h : ReadStep c c') (hC : CInv c) : CInv c' := by
  obtain ⟨hS, hcoh, hrest⟩ := hC
  refine ⟨by rw [h.store]; exact hS, h.coh hcoh, ?_⟩
  rcases hrest with ⟨hb, hst⟩ | ⟨bb, h1, h2, h3, h4⟩
  · exact Or.inl ⟨h.best.trans hb, h.store.trans hst⟩
  · exact Or.inr ⟨bb, h.best.trans h1, by rw [h.store]; exact h2,
      by rw [h.store]; exact h3, by rw [h.store]; exact h4⟩

theorem CInv_init : CInv initChain :=
  ⟨by decide, by decide, Or.inl ⟨rfl, rfl⟩⟩

theorem genesis_trunk_char (g : Block) (h0 : g.number = 0) (s : Storage)
    (hT : s.trunk = [(blockNumber g.header.id, g.header.id)]) (n : Nat) :
    kfind s.trunk n = (ancAt s g n).map (fun x => x.header.id) := by
  rw [hT]
  by_cases hn : n = 0
  · subst hn
    have hra : ancAt s g 0 = some g := by rw [← h0]; exact ancAt_self _ _
    rw [hra]
    have hbn : blockNumber g.header.id = 0 := h0
    simp [kfind, hbn]
  · have hra : ancAt s g n = none := ancAt_none_gt (Rooted.base h0) (by omega)
    rw [hra]
    have hbn : blockNumber g.header.id = 0 := h0
    have hn0 : ¬ ((0 : Nat) = n) := fun h => hn h.symm
    simp [kfind, hbn, hn0]

theorem CInv_writeGenesis {c c' : Chain} {g : Block} {cok : Bool} (hC : CInv c)
    (h0 : g.number = 0) (hw : WriteGenesis c g cok = (.ok (), c')) : CInv c' := by
  obtain ⟨hS, hcoh, hrest⟩ := hC
  unfold WriteGenesis at hw
  obtain ⟨hq, hs⟩ := getBlockByNumber_spec c 0 hcoh
  rcases hgn : getBlockByNumber c 0 with ⟨r0, c1⟩
  rw [hgn] at hq hs hw
  simp only at hq hs
  rcases r0 with e | b0
  · dsimp only at hw
    rcases hrest with ⟨hbn, hse⟩ | ⟨bb, h1, h2, h3, h4⟩
    · have he : e = ChainErr.notFound := by
        rw [hse] at hq
        simp [emptyStorage, kfind] at hq
        exact hq
      rw [he] at hw
      rw [if_neg (by simp [isNotFound])] at hw
      rcases cok with _ | _
      case false =>
        rw [if_neg (by simp)] at hw
        simp at hw
      case true =>
        rw [if_pos rfl] at hw
        simp only [Prod.mk.injEq] at hw
        obtain ⟨-, hw⟩ := hw
        subst hw
        have hc1s : c1.store = emptyStorage := hs.store.trans hse
        have hcoh1 := hs.coh hcoh
        rw [hc1s]
        refine ⟨?_, ?_, Or.inr ⟨g, rfl, rfl, ?_, ?_⟩⟩
        · exact SInv_genesis g h0 _ rfl rfl
        · refine ⟨?_, ?_, ?_⟩ <;> intro p hp
          · have hc := hcoh1.1 p hp
            rw [hc1s] at hc
            exact absurd hc (by simp [emptyStorage, kfind])
          · have hc := hcoh1.2.1 p hp
            rw [hc1s] at hc
            exact absurd hc (by simp [emptyStorage, kfind])
          · have hc := hcoh1.2.2 p hp
            rw [hc1s] at hc
            exact absurd hc (by simp [emptyStorage, kfind])
        · exact getBlockP_mk
            (by show kfind [(g.header.id, g.header)] g.header.id = some g.header
                simp [kfind])
            (by show kfind [(g.header.id, g.txs)] g.header.id = some g.txs
                simp [kfind])
        · exact fun n => genesis_trunk_char g h0 _ rfl n
    · have hrbb : Rooted c.store bb := stored_rooted' hS h3
      obtain ⟨a0, ha0⟩ := ancAt_exists hrbb (Nat.zero_le _)
      have ha0s : getBlockP c.store a0.header.id = some a0 := by
        rcases (ancAt_sound hS.1 hrbb ha0).2.2.2.2 with h | h
        · exact h ▸ h3
        · exact h
      rw [h4 0, ha0] at hq
      simp [ha0s, o2e] at hq
  · dsimp only at hw
    rcases hrest with ⟨hbn, hse⟩ | ⟨bb, h1, h2, h3, h4⟩
    · rw [hse] at hq
      simp [emptyStorage, kfind] at hq
    · by_cases hid0 : b0.header.id = g.header.id
      · rw [if_pos hid0] at hw
        simp only [Prod.mk.injEq] at hw
        obtain ⟨-, hw⟩ := hw
        subst hw
        exact CInv_readStep hs ⟨hS, hcoh, Or.inr ⟨bb, h1, h2, h3, h4⟩⟩
      · rw [if_neg hid0] at hw
        simp at hw

/-- The storage written by a successful trunk switch satisfies the
storage invariant and the trunk-table characterisation for the new best
block: erasing the abandoned segment's numbers and inserting the adopted
segment's entries turns the ancestor map of the old best block into the
ancestor map of the new one. -/
theorem CInv_reorg {s : Storage} (hS : SInv s) {nb p bb anc : Block}
    {l1 l2 : List Block}
    (hfH : kfind s.headers nb.header.id = none)
    (hfB : kfind s.bodies nb.header.id = none)
    (hp2 : getBlockP s nb.header.parentID = some p)
    (hnum' : nb.number = p.number + 1)
    (h3 : getBlockP s bb.header.id = some bb)
    (h4 : ∀ n, kfind s.trunk n = (ancAt s bb n).map (fun x => x.header.id))
    (hP1 : PathTo s bb l1 anc) (hP2 : PathTo s nb l2 anc)
    (st : Storage)
    (hH : st.headers = kinsert s.headers nb.header.id nb.header)
    (hB : st.bodies = kinsert s.bodies nb.header.id nb.txs)
    (hT : st.trunk =
      l2.foldl (fun tr b => kinsert tr (blockNumber b.header.id) b.header.id)
        (l1.foldl (fun tr ob => kerase tr (blockNumber ob.header.id)) s.trunk)) :
    SInv st ∧ getBlockP st nb.header.id = some nb ∧
      ∀ n, kfind st.trunk n = (ancAt st nb n).map (fun x => x.header.id) := by
  have hrp : Rooted s p := stored_rooted' hS hp2
  have hrnb : Rooted s nb := Rooted.step hp2 hnum'.symm hrp
  have hrbb : Rooted s bb := stored_rooted' hS h3
  have hcharsO := pathTo_char hP1 hrbb
  have hcharsN := pathTo_char hP2 hrnb
  have hagreeO := pathTo_agree hP1 hrbb
  have hagreeN := pathTo_agree hP2 hrnb
  have hanc1 : anc.number ≤ nb.number := anc_le hP2.anc hrnb
  have hanc2 : anc.number ≤ bb.number := anc_le hP1.anc hrbb
  have hSst : SInv st :=
    SInv_congr (by rw [hH]; rfl) (by rw [hB]; rfl) (SInv_save hS hfH hp2 hnum'.symm)
  refine ⟨hSst, ?_, ?_⟩
  · exact (getBlockP_congr (by rw [hH]; rfl) (by rw [hB]; rfl) nb.header.id).trans
      (getBlockP_save_self s nb)
  · have hancF : ∀ n, ancAt st nb n = ancAt s nb n := fun n =>
      (ancAt_congr (by rw [hH]; rfl) (by rw [hB]; rfl) nb n).trans (ancAt_save hfH hrnb n)
    intro n
    rw [hT, hancF n]
    by_cases hn1 : n ≤ anc.number
    · have hne2 : ∀ b ∈ l2, blockNumber b.header.id ≠ n := by
        intro b hb hbn
        obtain ⟨hlt, _, _⟩ := (hcharsN b).mp hb
        have hbn' : b.number = n := hbn
        omega
      have hne1 : ∀ b ∈ l1, blockNumber b.header.id ≠ n := by
        intro b hb hbn
        obtain ⟨hlt, _, _⟩ := (hcharsO b).mp hb
        have hbn' : b.number = n := hbn
        omega
      rw [trunkInsFold_ne l2 _ n hne2, trunkErsFold_ne l1 _ n hne1, h4 n,
        hagreeO n hn1, ← hagreeN n hn1]
    · by_cases hn2 : n ≤ nb.number
      · obtain ⟨x, hx⟩ := ancAt_exists hrnb hn2
        have hxn : x.number = n := (ancAt_sound hS.1 hrnb hx).1
        have hxl2 : x ∈ l2 :=
          (hcharsN x).mpr ⟨by omega, by omega, by rw [hxn]; exact hx⟩
        have huniq : ∀ b ∈ l2, blockNumber b.header.id = n → b = x := by
          intro b hb hbn
          obtain ⟨_, _, hbx⟩ := (hcharsN b).mp hb
          have hbn' : b.number = n := hbn
          rw [hbn', hx] at hbx
          injection hbx with h
          exact h.symm
        rw [trunkInsFold_mem l2 _ n x hxl2 hxn huniq, hx]
        rfl
      · have hne2 : ∀ b ∈ l2, blockNumber b.header.id ≠ n := by
          intro b hb hbn
          obtain ⟨_, hble, _⟩ := (hcharsN b).mp hb
          have hbn' : b.number = n := hbn
          omega
        rw [trunkInsFold_ne l2 _ n hne2, ancAt_none_gt hrnb (by omega)]
        by_cases hn3 : n ≤ bb.number
        · obtain ⟨y, hy⟩ := ancAt_exists hrbb hn3
          have hyn : y.number = n := (ancAt_sound hS.1 hrbb hy).1
          have hyl1 : y ∈ l1 :=
            (hcharsO y).mpr ⟨by omega, by omega, by rw [hyn]; exact hy⟩
          rw [trunkErsFold_mem l1 _ n ⟨y, hyl1, hyn⟩]
          rfl
        · have hne1 : ∀ b ∈ l1, blockNumber b.header.id ≠ n := by
            intro b hb hbn
            obtain ⟨_, hble, _⟩ := (hcharsO b).mp hb
            have hbn' : b.number = n := hbn
            omega
          rw [trunkErsFold_ne l1 _ n hne1, h4 n, ancAt_none_gt hrbb (by omega)]

theorem CInv_addBlock {c c' : Chain} {nb : Block} {flag cok : Bool} {diff : List Tx}
    (hC : CInv c)
    (hnum : ∀ p, getBlockP c.store nb.header.parentID = some p →
      nb.number = p.number + 1)
    (hw : AddBlock c nb flag cok = (.ok diff, c')) : CInv c' := by
  have hS := hC.1
  have hcoh := hC.2.1
  have hrest := hC.2.2
  unfold AddBlock at hw
  rcases getBlock_cases c nb.header.id hcoh with
    ⟨c1, heq, s1, hp⟩ | ⟨b', c1, heq, s1, hp⟩
  · rw [heq] at hw
    dsimp only at hw
    rw [if_neg (by simp [isNotFound])] at hw
    rcases getBlock_cases c1 nb.header.parentID (s1.coh hcoh) with
      ⟨c2, heq2, s2, hp2⟩ | ⟨p, c2, heq2, s2, hp2⟩
    · rw [heq2] at hw
      dsimp only at hw
      rw [if_pos (by simp [isNotFound])] at hw
      simp at hw
    · rw [heq2] at hw
      dsimp only at hw
      rw [s1.store] at hp2
      have hnum' : nb.number = p.number + 1 := hnum p hp2
      have hfHB := getBlockP_none_of_hb hS.2.1 hp
      have hfH : kfind c.store.headers nb.header.id = none := hfHB.1
      have hfB : kfind c.store.bodies nb.header.id = none := hfHB.2
      have hrp : Rooted c.store p := stored_rooted' hS hp2
      have hrnb : Rooted c.store nb := Rooted.step hp2 hnum'.symm hrp
      have hstc2 : c2.store = c.store := (s1.trans s2).store
      have hproper : ∃ bb, c.bestBlock = some bb ∧
          c.store.best = some bb.header.id ∧
          getBlockP c.store bb.header.id = some bb ∧
          ∀ n, kfind c.store.trunk n =
            (ancAt c.store bb n).map (fun x => x.header.id) := by
        rcases hrest with ⟨hbn, hse⟩ | h
        · rw [hse] at hp2
          exact absurd hp2 (by simp [getBlockP, emptyStorage, kfind])
        · exact h
      obtain ⟨bb, h1, h2, h3, h4⟩ := hproper
      rcases flag with _ | _
      · rw [if_neg (by simp)] at hw
        rcases cok with _ | _
        · rw [if_neg (by simp)] at hw
          simp at hw
        · rw [if_pos rfl] at hw
          simp only [Prod.mk.injEq] at hw
          obtain ⟨-, hw⟩ := hw
          subst hw
          refine ⟨?_, ?_, Or.inr ⟨bb, ?_, ?_, ?_, ?_⟩⟩
          · have hSst : SInv (saveBlock c.store nb) :=
              SInv_save hS hfH hp2 hnum'.symm
            exact SInv_congr (by rw [hstc2]) (by rw [hstc2]) hSst
          · exact cacheCoh_saveBlock ((s1.trans s2).coh hcoh)
              (by rw [hstc2]; exact hfH) (by rw [hstc2]; exact hfB)
              rfl rfl rfl rfl rfl
          · show c2.bestBlock = some bb
            rw [(s1.trans s2).best]
            exact h1
          · show c2.store.best = some bb.header.id
            rw [hstc2]
            exact h2
          · show getBlockP (saveBlock c2.store nb) bb.header.id = some bb
            rw [hstc2]
            exact getBlockP_save_stored hfH h3
          · intro n
            show kfind c2.store.trunk n =
              (ancAt (saveBlock c2.store nb) bb n).map (fun x => x.header.id)
            rw [hstc2, ancAt_save hfH (stored_rooted' hS h3) n, h4 n]
      · rw [if_pos rfl] at hw
        have hb2 : c2.bestBlock = some bb := by
          rw [(s1.trans s2).best]
          exact h1
        rw [getBestBlock_of_some c2 bb hb2] at hw
        dsimp only at hw
        have hcoh2 : cacheCoh c2 := (s1.trans s2).coh hcoh
        obtain ⟨htq, hts⟩ := traceBack_spec c2 bb nb hcoh2
        rcases htb : traceBack c2 bb nb with ⟨rt, c4⟩
        rw [htb] at htq hts hw
        simp only at htq hts
        rw [hstc2] at htq
        obtain ⟨anc, l1, l2, heqT, hP1, hP2, hancs, hancr, hdeep⟩ :=
          traceAuxP_main hS.1 hS.2.2.2 (traceFuel c2 bb nb) bb nb [] []
            (stored_rooted' hS h3) hrnb (Or.inl h3) (Or.inr hfH) (Or.inl h3)
            (fun hn => absurd hn (stored_not_none h3))
            (fun _ => by omega)
            (by unfold traceFuel; omega)
        have htP : traceBackP c.store bb nb (traceFuel c2 bb nb) =
            .ok (anc, l1, l2) := by
          unfold traceBackP
          rw [heqT]
          simp
        rw [htP] at htq
        subst htq
        dsimp only at hw
        rcases cok with _ | _
        · rw [if_neg (by simp)] at hw
          simp at hw
        · rw [if_pos rfl] at hw
          simp only [Prod.mk.injEq] at hw
          obtain ⟨-, hw⟩ := hw
          subst hw
          have hstc4 : c4.store = c.store := hts.store.trans hstc2
          have hcoh4 : cacheCoh c4 := hts.coh hcoh2
          obtain ⟨nhH, nhB, nhBe, nhT, nhL⟩ :=
            newFold_store l2
              (List.foldl applyOldBlock (saveBlock c2.store nb, []) l1)
          obtain ⟨ohH, ohB, ohBe, ohT, ohL⟩ :=
            oldFold_store l1 (saveBlock c2.store nb, [])
          have hHF : (List.foldl applyNewBlock
              (List.foldl applyOldBlock (saveBlock c2.store nb, []) l1)
              l2).1.headers =
              kinsert c.store.headers nb.header.id nb.header := by
            rw [nhH, ohH, hstc2]
            rfl
          have hBF : (List.foldl applyNewBlock
              (List.foldl applyOldBlock (saveBlock c2.store nb, []) l1)
              l2).1.bodies =
              kinsert c.store.bodies nb.header.id nb.txs := by
            rw [nhB, ohB, hstc2]
            rfl
          have hTF : (List.foldl applyNewBlock
              (List.foldl applyOldBlock (saveBlock c2.store nb, []) l1)
              l2).1.trunk =
              l2.foldl
                (fun tr b => kinsert tr (blockNumber b.header.id) b.header.id)
                (l1.foldl (fun tr ob => kerase tr (blockNumber ob.header.id))
                  c.store.trunk) := by
            rw [nhT, ohT, hstc2]
            rfl
          have hre := CInv_reorg hS hfH hfB hp2 hnum' h3 h4 hP1 hP2
            (saveBestBlockID
              (List.foldl applyNewBlock
                (List.foldl applyOldBlock (saveBlock c2.store nb, []) l1)
                l2).1
              nb.header.id)
            hHF hBF hTF
          refine ⟨hre.1, ?_, Or.inr ⟨nb, rfl, rfl, hre.2.1, hre.2.2⟩⟩
          exact cacheCoh_saveBlock hcoh4
            (by rw [hstc4]; exact hfH) (by rw [hstc4]; exact hfB)
            (by rw [hstc4]; exact hHF) (by rw [hstc4]; exact hBF)
            rfl rfl rfl
  · rw [heq] at hw
    simp only [Prod.mk.injEq] at hw
    obtain ⟨-, hw⟩ := hw
    subst hw
    exact CInv_readStep s1 ⟨hS, hcoh, hrest⟩

theorem CInv_of_reach {c : Chain} (h : Reach c) : CInv c := by
  induction h with
  | init => exact CInv_init
  | genesis _ h0 hw ih => exact CInv_writeGenesis ih h0 hw
  | add _ hnum hw ih => exact CInv_addBlock ih hnum hw

/-- Claim C2, amended: the code never validates block numbers, so the
contiguity of the trunk index holds only for sequences whose blocks carry
the numbers a hash chain implies — genesis number 0, each added block one
above its stored parent (`Reach`).  For those, after any successful
sequence of writes the trunk index is inhabited exactly at 0..best.number,
maps the best number to the best id, and each entry's block has the next
lower entry as its parent. -/
theorem trunk_contiguous_linked {c : Chain} (hR : Reach c) {bb : Block}
    (hbb : c.bestBlock = some bb) :
    (∀ n, (kfind c.store.trunk n).isSome ↔ n ≤ bb.number) ∧
      kfind c.store.trunk bb.number = some bb.header.id ∧
      (∀ n x, kfind c.store.trunk (n + 1) = some x →
        ∃ hdr, kfind c.store.headers x = some hdr ∧
          kfind c.store.trunk n = some hdr.parentID) := by
  obtain ⟨hS, hcoh, hrest⟩ := CInv_of_reach hR
  rcases hrest with ⟨hbn, _⟩ | ⟨bb', h1, h2, h3, h4⟩
  · rw [hbb] at hbn
    exact absurd hbn (by simp)
  · rw [hbb] at h1
    injection h1 with h1
    subst h1
    have hrbb : Rooted c.store bb := stored_rooted' hS h3
    refine ⟨?_, ?_, ?_⟩
    · intro n
      rw [h4 n]
      constructor
      · intro hsome
        by_contra hgt
        rw [ancAt_none_gt hrbb (by omega)] at hsome
        exact absurd hsome (by simp)
      · intro hle
        obtain ⟨x, hx⟩ := ancAt_exists hrbb hle
        rw [hx]
        simp
    · rw [h4 bb.number, ancAt_self]
      rfl
    · intro n x hfx
      rw [h4 (n + 1)] at hfx
      rcases ha : ancAt c.store bb (n + 1) with _ | a
      · rw [ha] at hfx
        simp at hfx
      · rw [ha] at hfx
        simp only [Option.map_some'] at hfx
        injection hfx with hfx
        obtain ⟨han, hanc, hra, _, hst⟩ := ancAt_sound hS.1 hrbb ha
        have has : getBlockP c.store a.header.id = some a := by
          rcases hst with h | h
          · exact h ▸ h3
          · exact h
        have ha0 : a.number ≠ 0 := by omega
        obtain ⟨q, hq, hqn⟩ := stored_parent hS has ha0
        have hancq : Anc c.store bb q :=
          anc_trans hanc (Anc.step ha0 hq (Anc.refl _))
        have hq' : ancAt c.store bb q.number = some q := anc_ancAt hancq hrbb
        have hqn' : q.number = n := by omega
        obtain ⟨hha, -⟩ := getBlockP_some has
        have hqid : q.header.id = a.header.parentID :=
          hS.1 _ (kfind_mem (getBlockP_some hq).1)
        refine ⟨a.header, ?_, ?_⟩
        · rw [← hfx]
          exact hha
        · rw [h4 n, ← hqn', hq']
          simp [hqid]

/-- Witness for the amended C2 at the concrete three-block trunk: the
fixture chain is reachable under the numbering discipline, and its trunk
table is contiguous and parent-linked up to the best number 2. -/
theorem trunk_contiguous_linked_witness :
    (∀ n, (kfind Fx.c3.store.trunk n).isSome ↔ n ≤ Fx.b2.number) ∧
      kfind Fx.c3.store.trunk Fx.b2.number = some Fx.b2.header.id ∧
      (∀ n x, kfind Fx.c3.store.trunk (n + 1) = some x →
        ∃ hdr, kfind Fx.c3.store.headers x = some hdr ∧
          kfind Fx.c3.store.trunk n = some hdr.parentID) := by
  have h1 : ∀ p, getBlockP Fx.c1.store Fx.b1.header.parentID = some p →
      Fx.b1.number = p.number + 1 := by
    intro p hp
    rw [show getBlockP Fx.c1.store Fx.b1.header.parentID = some Fx.g from by decide]
      at hp
    injection hp with hp
    subst hp
    decide
  have h2 : ∀ p, getBlockP Fx.c2.store Fx.b2.header.parentID = some p →
      Fx.b2.number = p.number + 1 := by
    intro p hp
    rw [show getBlockP Fx.c2.store Fx.b2.header.parentID = some Fx.b1 from by decide]
      at hp
    injection hp with hp
    subst hp
    decide
  have hR : Reach Fx.c3 :=
    Reach.add
      (Reach.add
        (Reach.genesis Reach.init (show Fx.g.number = 0 by decide)
          (show WriteGenesis initChain Fx.g true = (.ok (), Fx.c1) by decide))
        h1 (show AddBlock Fx.c1 Fx.b1 true true = (.ok [], Fx.c2) by decide))
      h2 (show AddBlock Fx.c2 Fx.b2 true true = (.ok [], Fx.c3) by decide)
  exact trunk_contiguous_linked hR (by decide)

/-! ### The transaction-location index across reachable states -/

theorem reach_of_reachF {c : Chain} (h : ReachF c) : Reach c := by
  induction h with
  | init => exact Reach.init
  | genesis _ h0 hw ih => exact Reach.genesis ih h0 hw
  | add _ hnum _ hw ih => exact Reach.add ih hnum hw

theorem enumFold_kfind_ne {β : Type} (f : Nat → β) (txs : List Tx) :
    ∀ (k : Nat) (m : List (Nat × β)) (tid : Nat), (∀ t ∈ txs, t.id ≠ tid) →
      kfind (List.foldl (fun acc p => kinsert acc (p.2).id (f p.1)) m
        (txs.enumFrom k)) tid = kfind m tid := by
  induction txs with
  | nil => intro k m tid _; rfl
  | cons t rest ih =>
    intro k m tid hne
    simp only [List.enumFrom, List.foldl_cons]
    rw [ih (k + 1) _ tid (fun u hu => hne u (List.mem_cons_of_mem _ hu)),
      kfind_kinsert, if_neg (hne t (List.mem_cons_self _ _))]

theorem enumFold_kfind_mem {β : Type} (f : Nat → β) (txs : List Tx) :
    ∀ (k : Nat) (m : List (Nat × β)) (tid : Nat), (∃ t ∈ txs, t.id = tid) →
      ∃ i, ∃ hlt : i < txs.length, (txs.get ⟨i, hlt⟩).id = tid ∧
        kfind (List.foldl (fun acc p => kinsert acc (p.2).id (f p.1)) m
          (txs.enumFrom k)) tid = some (f (k + i)) := by
  induction txs with
  | nil => intro k m tid h; simp at h
  | cons t rest ih =>
    intro k m tid h
    simp only [List.enumFrom, List.foldl_cons]
    by_cases hr : ∃ u ∈ rest, u.id = tid
    · obtain ⟨i, hlt, hg, hk⟩ := ih (k + 1) (kinsert m t.id (f k)) tid hr
      refine ⟨i + 1, by simp; omega, hg, ?_⟩
      have hadd : k + (i + 1) = k + 1 + i := by omega
      rw [hadd]
      exact hk
    · have hne : ∀ u ∈ rest, u.id ≠ tid := fun u hu hk => hr ⟨u, hu, hk⟩
      have htk : t.id = tid := by
        rcases h with ⟨u, hu, hk⟩
        rcases List.mem_cons.mp hu with h' | h'
        · subst h'; exact hk
        · exact absurd hk (hne u h')
      refine ⟨0, by simp, htk, ?_⟩
      rw [enumFold_kfind_ne f rest (k + 1) _ tid hne, ← htk, kfind_kinsert_self]
      rfl

theorem saveTxLocs_kfind_ne (txs : List Tx) (bid : Hash)
    (m : List (Nat × TxLocation)) (tid : Nat) (h : ∀ t ∈ txs, t.id ≠ tid) :
    kfind (saveTxLocsList m txs bid) tid = kfind m tid :=
  enumFold_kfind_ne (fun j => (⟨bid, j⟩ : TxLocation)) txs 0 m tid h

theorem saveTxLocs_kfind_mem (txs : List Tx) (bid : Hash)
    (m : List (Nat × TxLocation)) (tid : Nat) (h : ∃ t ∈ txs, t.id = tid) :
    ∃ i, ∃ hlt : i < txs.length, (txs.get ⟨i, hlt⟩).id = tid ∧
      kfind (saveTxLocsList m txs bid) tid = some ⟨bid, i⟩ := by
  obtain ⟨i, hlt, hg, hk⟩ :=
    enumFold_kfind_mem (fun j => (⟨bid, j⟩ : TxLocation)) txs 0 m tid h
  refine ⟨i, hlt, hg, ?_⟩
  have hzi : 0 + i = i := Nat.zero_add i
  rw [← hzi]
  exact hk

theorem eraseTxLocs_ne (txs : List Tx) :
    ∀ (m : List (Nat × TxLocation)) (tid : Nat), (∀ t ∈ txs, t.id ≠ tid) →
      kfind (eraseTxLocsList m txs) tid = kfind m tid := by
  induction txs with
  | nil => intro m tid _; rfl
  | cons t rest ih =>
    intro m tid hne
    exact (ih (kerase m t.id) tid (fun u hu => hne u (List.mem_cons_of_mem _ hu))).trans
      (by rw [kfind_kerase, if_neg (hne t (List.mem_cons_self _ _))])

theorem eraseTxLocs_mem (txs : List Tx) :
    ∀ (m : List (Nat × TxLocation)) (tid : Nat), (∃ t ∈ txs, t.id = tid) →
      kfind (eraseTxLocsList m txs) tid = none := by
  induction txs with
  | nil => intro m tid h; simp at h
  | cons t rest ih =>
    intro m tid h
    by_cases hr : ∃ u ∈ rest, u.id = tid
    · exact ih (kerase m t.id) tid hr
    · have hne : ∀ u ∈ rest, u.id ≠ tid := fun u hu hk => hr ⟨u, hu, hk⟩
      have htk : t.id = tid := by
        rcases h with ⟨u, hu, hk⟩
        rcases List.mem_cons.mp hu with h' | h'
        · subst h'; exact hk
        · exact absurd hk (hne u h')
      exact (eraseTxLocs_ne rest (kerase m t.id) tid hne).trans
        (by rw [kfind_kerase, if_pos htk])

theorem buildTxIdMap_none (txs : List Tx) (tid : Nat)
    (h : ∀ t ∈ txs, t.id ≠ tid) : kfind (buildTxIdMap txs) tid = none :=
  enumFold_kfind_ne (fun j => j) txs 0 [] tid h

theorem buildTxIdMap_mem (txs : List Tx) (tid : Nat) (h : ∃ t ∈ txs, t.id = tid) :
    ∃ i, ∃ hlt : i < txs.length, (txs.get ⟨i, hlt⟩).id = tid ∧
      kfind (buildTxIdMap txs) tid = some i := by
  obtain ⟨i, hlt, hg, hk⟩ := enumFold_kfind_mem (fun j => j) txs 0 [] tid h
  refine ⟨i, hlt, hg, ?_⟩
  have hzi : 0 + i = i := Nat.zero_add i
  rw [← hzi]
  exact hk

theorem oldLocFold_ne (obs : List Block) :
    ∀ (m : List (Nat × TxLocation)) (tid : Nat),
      (∀ b ∈ obs, ∀ t ∈ b.txs, t.id ≠ tid) →
      kfind (obs.foldl (fun m ob => eraseTxLocsList m ob.txs) m) tid = kfind m tid := by
  induction obs with
  | nil => intro m tid _; rfl
  | cons ob rest ih =>
    intro m tid hne
    exact (ih (eraseTxLocsList m ob.txs) tid
        (fun b hb => hne b (List.mem_cons_of_mem _ hb))).trans
      (eraseTxLocs_ne ob.txs m tid (hne ob (List.mem_cons_self _ _)))

theorem oldLocFold_mem (obs : List Block) :
    ∀ (m : List (Nat × TxLocation)) (tid : Nat),
      (∃ b ∈ obs, ∃ t ∈ b.txs, t.id = tid) →
      kfind (obs.foldl (fun m ob => eraseTxLocsList m ob.txs) m) tid = none := by
  induction obs with
  | nil => intro m tid h; simp at h
  | cons ob rest ih =>
    intro m tid h
    by_cases hr : ∃ b ∈ rest, ∃ t ∈ b.txs, t.id = tid
    · exact ih (eraseTxLocsList m ob.txs) tid hr
    · have hne : ∀ b ∈ rest, ∀ t ∈ b.txs, t.id ≠ tid :=
        fun b hb t ht hk => hr ⟨b, hb, t, ht, hk⟩
      have hob : ∃ t ∈ ob.txs, t.id = tid := by
        rcases h with ⟨b, hb, t, ht, hk⟩
        rcases List.mem_cons.mp hb with h' | h'
        · subst h'; exact ⟨t, ht, hk⟩
        · exact absurd hk (hne b h' t ht)
      exact (oldLocFold_ne rest (eraseTxLocsList m ob.txs) tid hne).trans
        (eraseTxLocs_mem ob.txs m tid hob)

theorem newLocFold_ne (nbs : List Block) :
    ∀ (m : List (Nat × TxLocation)) (tid : Nat),
      (∀ b ∈ nbs, ∀ t ∈ b.txs, t.id ≠ tid) →
      kfind (nbs.foldl (fun m b => saveTxLocsList m b.txs b.header.id) m) tid =
        kfind m tid := by
  induction nbs with
  | nil => intro m tid _; rfl
  | cons nb rest ih =>
    intro m tid hne
    exact (ih (saveTxLocsList m nb.txs nb.header.id) tid
        (fun b hb => hne b (List.mem_cons_of_mem _ hb))).trans
      (saveTxLocs_kfind_ne nb.txs nb.header.id m tid (hne nb (List.mem_cons_self _ _)))

theorem newLocFold_mem (nbs : List Block) :
    ∀ (m : List (Nat × TxLocation)) (tid : Nat) (x : Block), x ∈ nbs →
      (∃ t ∈ x.txs, t.id = tid) →
      (∀ b ∈ nbs, (∃ t ∈ b.txs, t.id = tid) → b = x) →
      ∃ i, ∃ hlt : i < x.txs.length, (x.txs.get ⟨i, hlt⟩).id = tid ∧
        kfind (nbs.foldl (fun m b => saveTxLocsList m b.txs b.header.id) m) tid =
          some ⟨x.header.id, i⟩ := by
  induction nbs with
  | nil => intro m tid x hx; simp at hx
  | cons nb rest ih =>
    intro m tid x hx hhit huniq
    by_cases hr : ∃ b ∈ rest, ∃ t ∈ b.txs, t.id = tid
    · obtain ⟨b', hb', hb'hit⟩ := hr
      have hb'x : b' = x := huniq b' (List.mem_cons_of_mem _ hb') hb'hit
      exact ih (saveTxLocsList m nb.txs nb.header.id) tid x (hb'x ▸ hb') hhit
        (fun q hq hqhit => huniq q (List.mem_cons_of_mem _ hq) hqhit)
    · have hne : ∀ b ∈ rest, ∀ t ∈ b.txs, t.id ≠ tid :=
        fun b hb t ht hk => hr ⟨b, hb, t, ht, hk⟩
      have hbx : nb = x := by
        rcases List.mem_cons.mp hx with h' | h'
        · exact h'.symm
        · rcases hhit with ⟨t, ht, hk⟩
          exact absurd hk (hne x h' t ht)
      subst hbx
      obtain ⟨i, hlt, hg, hk⟩ := saveTxLocs_kfind_mem nb.txs nb.header.id m tid hhit
      refine ⟨i, hlt, hg, ?_⟩
      exact (newLocFold_ne rest (saveTxLocsList m nb.txs nb.header.id) tid
        (fun b hb t ht hk' => hne b hb t ht hk')).trans hk

theorem TInv_empty : TInv emptyStorage := by
  refine ⟨?_, ?_, ?_⟩
  · intro p hp
    simp [emptyStorage] at hp
  · intro tid loc hk
    exact absurd hk (by simp [emptyStorage, kfind])
  · intro n bid hk
    exact absurd hk (by simp [emptyStorage, kfind])

theorem TInv_save {s : Storage} (hS : SInv s) (hT : TInv s) {nb : Block}
    (hfH : kfind s.headers nb.header.id = none)
    (hfB : kfind s.bodies nb.header.id = none)
    (hfreshT : ∀ t ∈ nb.txs, ∀ q ∈ s.bodies, ∀ u ∈ q.2, u.id ≠ t.id)
    {bb : Block} (h3 : getBlockP s bb.header.id = some bb)
    (h4 : ∀ n, kfind s.trunk n = (ancAt s bb n).map (fun x => x.header.id)) :
    TInv (saveBlock s nb) := by
  obtain ⟨hu, hf, hb⟩ := hT
  have hrbb : Rooted s bb := stored_rooted' hS h3
  have htrunkStored : ∀ n bid, kfind s.trunk n = some bid →
      ∃ y : Block, getBlockP s bid = some y ∧ kfind s.bodies bid = some y.txs := by
    intro n bid hk
    rw [h4 n] at hk
    rcases ha : ancAt s bb n with _ | y
    · rw [ha] at hk
      exact absurd hk (by simp)
    · rw [ha] at hk
      simp only [Option.map_some'] at hk
      injection hk with hk
      have hys : getBlockP s y.header.id = some y := by
        rcases (ancAt_sound hS.1 hrbb ha).2.2.2.2 with h | h
        · exact h ▸ h3
        · exact h
      subst hk
      exact ⟨y, hys, (getBlockP_some hys).2⟩
  refine ⟨?_, ?_, ?_⟩
  · intro q1 hq1 q2 hq2 u hu' v hv he
    rcases mem_kinsert_elim hq1 with h1 | h1 <;> rcases mem_kinsert_elim hq2 with h2 | h2
    · rw [h1, h2]
    · subst h1
      exact absurd he.symm (hfreshT u hu' q2 h2 v hv)
    · subst h2
      exact absurd he (hfreshT v hv q1 h1 u hu')
    · exact hu q1 h1 q2 h2 u hu' v hv he
  · intro tid loc hk
    have hk' : kfind s.txLocs tid = some loc := hk
    obtain ⟨htr, txs0, hbod, hlt, hg⟩ := hf tid loc hk'
    refine ⟨htr, txs0, ?_, hlt, hg⟩
    have hne : ¬ nb.header.id = loc.blockID := by
      intro heq
      rw [← heq, hfB] at hbod
      exact absurd hbod (by simp)
    show kfind (kinsert s.bodies nb.header.id nb.txs) loc.blockID = some txs0
    rw [kfind_kinsert, if_neg hne]
    exact hbod
  · intro n bid hk txs htxs t ht
    obtain ⟨y, hys, hyb⟩ := htrunkStored n bid hk
    have hne : ¬ nb.header.id = bid := by
      intro heq
      have hh := (getBlockP_some hys).1
      rw [← heq, hfH] at hh
      exact absurd hh (by simp)
    have htxs' : kfind s.bodies bid = some txs := by
      have hx : kfind (kinsert s.bodies nb.header.id nb.txs) bid = some txs := htxs
      rw [kfind_kinsert, if_neg hne] at hx
      exact hx
    exact hb n bid hk txs htxs' t ht

theorem TInv_genesis (g : Block) (st : Storage)
    (hB : st.bodies = [(g.header.id, g.txs)])
    (hTr : st.trunk = [(blockNumber g.header.id, g.header.id)])
    (hL : st.txLocs = saveTxLocsList [] g.txs g.header.id) :
    TInv st := by
  refine ⟨?_, ?_, ?_⟩
  · intro q1 hq1 q2 hq2 u hu v hv he
    rw [hB] at hq1 hq2
    have h1 := List.mem_singleton.mp hq1
    have h2 := List.mem_singleton.mp hq2
    rw [h1, h2]
  · intro tid loc hk
    rw [hL] at hk
    by_cases hhit : ∃ t ∈ g.txs, t.id = tid
    · obtain ⟨i, hlt, hg2, hkv⟩ := saveTxLocs_kfind_mem g.txs g.header.id [] tid hhit
      rw [hkv] at hk
      injection hk with hk
      subst hk
      refine ⟨?_, g.txs, ?_, hlt, hg2⟩
      · rw [hTr]
        simp [kfind]
      · rw [hB]
        simp [kfind]
    · have hne : ∀ t ∈ g.txs, t.id ≠ tid := fun t ht hk' => hhit ⟨t, ht, hk'⟩
      rw [saveTxLocs_kfind_ne g.txs g.header.id [] tid hne] at hk
      exact absurd hk (by simp [kfind])
  · intro n bid hk txs htxs t ht
    rw [hTr] at hk
    have hbid : bid = g.header.id := by
      by_cases hn : blockNumber g.header.id = n
      · rw [show kfind [(blockNumber g.header.id, g.header.id)] n = some g.header.id
            from by simp [kfind, hn]] at hk
        injection hk with hk
        exact hk.symm
      · rw [show kfind [(blockNumber g.header.id, g.header.id)] n = none
            from by simp [kfind, hn]] at hk
        exact absurd hk (by simp)
    subst hbid
    rw [hB] at htxs
    have htxs' : txs = g.txs := by
      rw [show kfind [(g.header.id, g.txs)] g.header.id = some g.txs
          from by simp [kfind]] at htxs
      injection htxs with h
      exact h.symm
    subst htxs'
    rw [hL]
    obtain ⟨i, hlt, hg2, hkv⟩ :=
      saveTxLocs_kfind_mem g.txs g.header.id [] t.id ⟨t, ht, rfl⟩
    rw [hkv]
    rfl

theorem TInv_reorg {s : Storage} (hS : SInv s) (hT : TInv s) {nb p bb anc : Block}
    {l1 l2 : List Block}
    (hfH : kfind s.headers nb.header.id = none)
    (hfB : kfind s.bodies nb.header.id = none)
    (hfreshT : ∀ t ∈ nb.txs, ∀ q ∈ s.bodies, ∀ u ∈ q.2, u.id ≠ t.id)
    (hp2 : getBlockP s nb.header.parentID = some p)
    (hnum' : nb.number = p.number + 1)
    (h3 : getBlockP s bb.header.id = some bb)
    (h4 : ∀ n, kfind s.trunk n = (ancAt s bb n).map (fun x => x.header.id))
    (hancs : getBlockP s anc.header.id = some anc)
    (hP1 : PathTo s bb l1 anc) (hP2 : PathTo s nb l2 anc)
    (st : Storage)
    (hH : st.headers = kinsert s.headers nb.header.id nb.header)
    (hB : st.bodies = kinsert s.bodies nb.header.id nb.txs)
    (hL : st.txLocs =
      l2.foldl (fun m b => saveTxLocsList m b.txs b.header.id)
        (l1.foldl (fun m ob => eraseTxLocsList m ob.txs) s.txLocs))
    (hTrunkChar : ∀ n, kfind st.trunk n =
      (ancAt st nb n).map (fun x => x.header.id)) :
    TInv st := by
  obtain ⟨hu, hf, hb⟩ := hT
  have hrp : Rooted s p := stored_rooted' hS hp2
  have hrnb : Rooted s nb := Rooted.step hp2 hnum'.symm hrp
  have hrbb : Rooted s bb := stored_rooted' hS h3
  have hcharsO := pathTo_char hP1 hrbb
  have hcharsN := pathTo_char hP2 hrnb
  have hagreeO := pathTo_agree hP1 hrbb
  have hagreeN := pathTo_agree hP2 hrnb
  have hanc1 : anc.number ≤ nb.number := anc_le hP2.anc hrnb
  have hH2 : st.headers = (saveBlock s nb).headers := hH
  have hB2 : st.bodies = (saveBlock s nb).bodies := hB
  have hancF : ∀ n, ancAt st nb n = ancAt s nb n := fun n =>
    (ancAt_congr hH2 hB2 nb n).trans (ancAt_save hfH hrnb n)
  have hstl1 : ∀ x ∈ l1, getBlockP s x.header.id = some x :=
    pathTo_stored hS.1 hP1 h3
  have hstl2 : ∀ x ∈ l2, x = nb ∨ getBlockP s x.header.id = some x := by
    cases hP2 with
    | nil => intro x hx; simp at hx
    | cons h0 hp' hP' =>
      intro x hx
      rcases List.mem_cons.mp hx with hx | hx
      · exact Or.inl hx
      · exact Or.inr (pathTo_stored hS.1 hP' (fetched_selfStored hS.1 hp') x hx)
  have huniq2 : ∀ (tid : Nat) (x : Block), x ∈ l2 → (∃ t ∈ x.txs, t.id = tid) →
      ∀ b ∈ l2, (∃ t ∈ b.txs, t.id = tid) → b = x := by
    intro tid x hx hhx b hb hhb
    obtain ⟨u, hu', hu'id⟩ := hhx
    obtain ⟨v, hv', hv'id⟩ := hhb
    have hkey : b.header.id = x.header.id → b = x := by
      intro hid
      have hbn : b.number = x.number := by
        show blockNumber b.header.id = blockNumber x.header.id
        rw [hid]
      have hax := ((hcharsN x).mp hx).2.2
      have hab := ((hcharsN b).mp hb).2.2
      rw [hbn, hax] at hab
      injection hab with h
      exact h.symm
    rcases hstl2 x hx with hxnb | hxs
    · rcases hstl2 b hb with hbnb | hbs
      · rw [hxnb, hbnb]
      · subst hxnb
        exact absurd (hv'id.trans hu'id.symm)
          (hfreshT u hu' (b.header.id, b.txs) (kfind_mem (getBlockP_some hbs).2) v hv')
    · rcases hstl2 b hb with hbnb | hbs
      · subst hbnb
        exact absurd (hu'id.trans hv'id.symm)
          (hfreshT v hv' (x.header.id, x.txs) (kfind_mem (getBlockP_some hxs).2) u hu')
      · exact hkey (hu (b.header.id, b.txs) (kfind_mem (getBlockP_some hbs).2)
          (x.header.id, x.txs) (kfind_mem (getBlockP_some hxs).2)
          v hv' u hu' (hv'id.trans hu'id.symm))
  have hbodySt : ∀ (x : Block), (x = nb ∨ getBlockP s x.header.id = some x) →
      kfind st.bodies x.header.id = some x.txs := by
    intro x hx
    rcases hx with hx | hx
    · subst hx
      rw [hB]
      exact kfind_kinsert_self _ _ _
    · have hne : ¬ nb.header.id = x.header.id := by
        intro heq
        have hh := (getBlockP_some hx).1
        rw [← heq, hfH] at hh
        exact absurd hh (by simp)
      rw [hB, kfind_kinsert, if_neg hne]
      exact (getBlockP_some hx).2
  refine ⟨?_, ?_, ?_⟩
  · intro q1 hq1 q2 hq2 u' hu'' v hv he
    rw [hB] at hq1 hq2
    rcases mem_kinsert_elim hq1 with h1 | h1 <;> rcases mem_kinsert_elim hq2 with h2 | h2
    · rw [h1, h2]
    · subst h1
      exact absurd he.symm (hfreshT u' hu'' q2 h2 v hv)
    · subst h2
      exact absurd he (hfreshT v hv q1 h1 u' hu'')
    · exact hu q1 h1 q2 h2 u' hu'' v hv he
  · intro tid loc hk
    rw [hL] at hk
    by_cases hin2 : ∃ x ∈ l2, ∃ t ∈ x.txs, t.id = tid
    · obtain ⟨x, hx, hhit⟩ := hin2
      obtain ⟨i, hlt, hg2, hkv⟩ := newLocFold_mem l2 _ tid x hx hhit
        (fun b hb hbh => huniq2 tid x hx hhit b hb hbh)
      rw [hkv] at hk
      injection hk with hk
      subst hk
      refine ⟨?_, x.txs, hbodySt x (hstl2 x hx), hlt, hg2⟩
      have hxa : ancAt s nb (blockNumber x.header.id) = some x :=
        ((hcharsN x).mp hx).2.2
      rw [hTrunkChar (blockNumber x.header.id), hancF (blockNumber x.header.id), hxa]
      rfl
    · have hne2 : ∀ b ∈ l2, ∀ t ∈ b.txs, t.id ≠ tid :=
        fun b hb t ht he => hin2 ⟨b, hb, t, ht, he⟩
      rw [newLocFold_ne l2 _ tid hne2] at hk
      by_cases hin1 : ∃ b ∈ l1, ∃ t ∈ b.txs, t.id = tid
      · rw [oldLocFold_mem l1 _ tid hin1] at hk
        exact absurd hk (by simp)
      · have hne1 : ∀ b ∈ l1, ∀ t ∈ b.txs, t.id ≠ tid :=
          fun b hb t ht he => hin1 ⟨b, hb, t, ht, he⟩
        rw [oldLocFold_ne l1 _ tid hne1] at hk
        obtain ⟨htr, txs0, hbod, hlt0, hg0⟩ := hf tid loc hk
        rw [h4 (blockNumber loc.blockID)] at htr
        rcases ha : ancAt s bb (blockNumber loc.blockID) with _ | y
        · rw [ha] at htr
          exact absurd htr (by simp)
        · rw [ha] at htr
          simp only [Option.map_some'] at htr
          injection htr with htr
          obtain ⟨hyn, hyanc, hyr, hyle, hyst⟩ := ancAt_sound hS.1 hrbb ha
          have hys : getBlockP s y.header.id = some y := by
            rcases hyst with h | h
            · exact h ▸ h3
            · exact h
          have hybod : kfind s.bodies y.header.id = some y.txs := (getBlockP_some hys).2
          have htxs0 : txs0 = y.txs := by
            rw [← htr, hybod] at hbod
            injection hbod with h
            exact h.symm
          have hnle : blockNumber loc.blockID ≤ anc.number := by
            by_contra hgt
            have hyl1 : y ∈ l1 := (hcharsO y).mpr
              ⟨by omega, by omega, by rw [hyn]; exact ha⟩
            have hmem : txs0.get ⟨loc.index, hlt0⟩ ∈ y.txs := by
              rw [← htxs0]
              exact List.get_mem txs0 loc.index hlt0
            exact hne1 y hyl1 _ hmem hg0
          refine ⟨?_, txs0, ?_, hlt0, hg0⟩
          · rw [hTrunkChar (blockNumber loc.blockID), hancF (blockNumber loc.blockID),
              hagreeN (blockNumber loc.blockID) hnle,
              ← hagreeO (blockNumber loc.blockID) hnle, ha]
            simp only [Option.map_some']
            rw [htr]
          · rw [htxs0, ← htr]
            exact hbodySt y (Or.inr hys)
  · intro n bid hk txs htxs t ht
    rw [hTrunkChar n, hancF n] at hk
    rcases ha : ancAt s nb n with _ | y
    · rw [ha] at hk
      exact absurd hk (by simp)
    · rw [ha] at hk
      simp only [Option.map_some'] at hk
      injection hk with hk
      obtain ⟨hyn, hyanc, hyr, hyle, hyst⟩ := ancAt_sound hS.1 hrnb ha
      have hybodSt : kfind st.bodies y.header.id = some y.txs := hbodySt y hyst
      have htxs' : txs = y.txs := by
        rw [← hk, hybodSt] at htxs
        injection htxs with h
        exact h.symm
      subst htxs'
      rw [hL]
      by_cases hgt : anc.number < n
      · have hyl2 : y ∈ l2 := (hcharsN y).mpr ⟨by omega, by omega, by rw [hyn]; exact ha⟩
        obtain ⟨i, hlt, hg2, hkv⟩ := newLocFold_mem l2 _ t.id y hyl2 ⟨t, ht, rfl⟩
          (fun b hb' hbh => huniq2 t.id y hyl2 ⟨t, ht, rfl⟩ b hb' hbh)
        rw [hkv]
        rfl
      · have hnle : n ≤ anc.number := by omega
        have hysP : getBlockP s y.header.id = some y := by
          rcases hyst with h | h
          · exfalso
            rw [h] at hyn
            have hancnb : anc.number = nb.number := by omega
            have hanb : anc = nb := anc_eq_top hP2.anc hrnb hancnb
            rw [hanb] at hancs
            have hh := (getBlockP_some hancs).1
            rw [hfH] at hh
            exact absurd hh (by simp)
          · exact h
        have hybod : kfind s.bodies y.header.id = some y.txs := (getBlockP_some hysP).2
        have holdtr : kfind s.trunk n = some y.header.id := by
          rw [h4 n, hagreeO n hnle, ← hagreeN n hnle, ha]
          rfl
        have hsome := hb n y.header.id holdtr y.txs hybod t ht
        by_cases hin2 : ∃ x ∈ l2, ∃ u ∈ x.txs, u.id = t.id
        · obtain ⟨x, hx, hhit⟩ := hin2
          obtain ⟨i, hlt, hg2, hkv⟩ := newLocFold_mem l2 _ t.id x hx hhit
            (fun b hb' hbh => huniq2 t.id x hx hhit b hb' hbh)
          rw [hkv]
          rfl
        · have hne2 : ∀ b ∈ l2, ∀ u ∈ b.txs, u.id ≠ t.id :=
            fun b hb' u hu' he => hin2 ⟨b, hb', u, hu', he⟩
          rw [newLocFold_ne l2 _ t.id hne2]
          have hne1 : ∀ b ∈ l1, ∀ u ∈ b.txs, u.id ≠ t.id := by
            intro b hb' u hu' he
            have hbs := hstl1 b hb'
            have hkid := hu (b.header.id, b.txs) (kfind_mem (getBlockP_some hbs).2)
              (y.header.id, y.txs) (kfind_mem hybod) u hu' t ht he
            have hkid2 : b.header.id = y.header.id := hkid
            have hbn : b.number = y.number := by
              show blockNumber b.header.id = blockNumber y.header.id
              rw [hkid2]
            have hblt := ((hcharsO b).mp hb').1
            omega
          rw [oldLocFold_ne l1 _ t.id hne1]
          exact hsome

theorem TInv_writeGenesis {c c' : Chain} {g : Block} {cok : Bool} (hC : CInv c)
    (hT : TInv c.store) (hw : WriteGenesis c g cok = (.ok (), c')) :
    TInv c'.store := by
  obtain ⟨hS, hcoh, hrest⟩ := hC
  unfold WriteGenesis at hw
  obtain ⟨hq, hs⟩ := getBlockByNumber_spec c 0 hcoh
  rcases hgn : getBlockByNumber c 0 with ⟨r0, c1⟩
  rw [hgn] at hq hs hw
  simp only at hq hs
  rcases r0 with e | b0
  · dsimp only at hw
    rcases hrest with ⟨hbn, hse⟩ | ⟨bb, h1, h2, h3, h4⟩
    · have he : e = ChainErr.notFound := by
        rw [hse] at hq
        simp [emptyStorage, kfind] at hq
        exact hq
      rw [he] at hw
      rw [if_neg (by simp [isNotFound])] at hw
      rcases cok with _ | _
      · rw [if_neg (by simp)] at hw
        simp at hw
      · rw [if_pos rfl] at hw
        simp only [Prod.mk.injEq] at hw
        obtain ⟨-, hw⟩ := hw
        subst hw
        have hc1s : c1.store = emptyStorage := hs.store.trans hse
        exact TInv_genesis g _ (by rw [hc1s]; rfl) (by rw [hc1s]; rfl)
          (by rw [hc1s]; rfl)
    · have hrbb : Rooted c.store bb := stored_rooted' hS h3
      obtain ⟨a0, ha0⟩ := ancAt_exists hrbb (Nat.zero_le _)
      have ha0s : getBlockP c.store a0.header.id = some a0 := by
        rcases (ancAt_sound hS.1 hrbb ha0).2.2.2.2 with h | h
        · exact h ▸ h3
        · exact h
      rw [h4 0, ha0] at hq
      simp [ha0s, o2e] at hq
  · dsimp only at hw
    rcases hrest with ⟨hbn, hse⟩ | ⟨bb, h1, h2, h3, h4⟩
    · rw [hse] at hq
      simp [emptyStorage, kfind] at hq
    · by_cases hid0 : b0.header.id = g.header.id
      · rw [if_pos hid0] at hw
        simp only [Prod.mk.injEq] at hw
        obtain ⟨-, hw⟩ := hw
        subst hw
        rw [hs.store]
        exact hT
      · rw [if_neg hid0] at hw
        simp at hw

theorem TInv_addBlock {c c' : Chain} {nb : Block} {flag cok : Bool} {diff : List Tx}
    (hC : CInv c) (hT : TInv c.store)
    (hnum : ∀ p, getBlockP c.store nb.header.parentID = some p →
      nb.number = p.number + 1)
    (hfreshT : ∀ t ∈ nb.txs, ∀ q ∈ c.store.bodies, ∀ u ∈ q.2, u.id ≠ t.id)
    (hw : AddBlock c nb flag cok = (.ok diff, c')) : TInv c'.store := by
  have hS := hC.1
  have hcoh := hC.2.1
  have hrest := hC.2.2
  unfold AddBlock at hw
  rcases getBlock_cases c nb.header.id hcoh with
    ⟨c1, heq, s1, hp⟩ | ⟨b', c1, heq, s1, hp⟩
  · rw [heq] at hw
    dsimp only at hw
    rw [if_neg (by simp [isNotFound])] at hw
    rcases getBlock_cases c1 nb.header.parentID (s1.coh hcoh) with
      ⟨c2, heq2, s2, hp2⟩ | ⟨p, c2, heq2, s2, hp2⟩
    · rw [heq2] at hw
      dsimp only at hw
      rw [if_pos (by simp [isNotFound])] at hw
      simp at hw
    · rw [heq2] at hw
      dsimp only at hw
      rw [s1.store] at hp2
      have hnum' : nb.number = p.number + 1 := hnum p hp2
      have hfHB := getBlockP_none_of_hb hS.2.1 hp
      have hfH : kfind c.store.headers nb.header.id = none := hfHB.1
      have hfB : kfind c.store.bodies nb.header.id = none := hfHB.2
      have hrp : Rooted c.store p := stored_rooted' hS hp2
      have hrnb : Rooted c.store nb := Rooted.step hp2 hnum'.symm hrp
      have hstc2 : c2.store = c.store := (s1.trans s2).store
      have hproper : ∃ bb, c.bestBlock = some bb ∧
          c.store.best = some bb.header.id ∧
          getBlockP c.store bb.header.id = some bb ∧
          ∀ n, kfind c.store.trunk n =
            (ancAt c.store bb n).map (fun x => x.header.id) := by
        rcases hrest with ⟨hbn, hse⟩ | h
        · rw [hse] at hp2
          exact absurd hp2 (by simp [getBlockP, emptyStorage, kfind])
        · exact h
      obtain ⟨bb, h1, h2, h3, h4⟩ := hproper
      rcases flag with _ | _
      · rw [if_neg (by simp)] at hw
        rcases cok with _ | _
        · rw [if_neg (by simp)] at hw
          simp at hw
        · rw [if_pos rfl] at hw
          simp only [Prod.mk.injEq] at hw
          obtain ⟨-, hw⟩ := hw
          subst hw
          show TInv (saveBlock c2.store nb)
          rw [hstc2]
          exact TInv_save hS hT hfH hfB hfreshT h3 h4
      · rw [if_pos rfl] at hw
        have hb2 : c2.bestBlock = some bb := by
          rw [(s1.trans s2).best]
          exact h1
        rw [getBestBlock_of_some c2 bb hb2] at hw
        dsimp only at hw
        have hcoh2 : cacheCoh c2 := (s1.trans s2).coh hcoh
        obtain ⟨htq, hts⟩ := traceBack_spec c2 bb nb hcoh2
        rcases htb : traceBack c2 bb nb with ⟨rt, c4⟩
        rw [htb] at htq hts hw
        simp only at htq hts
        rw [hstc2] at htq
        obtain ⟨anc, l1, l2, heqT, hP1, hP2, hancs, hancr, hdeep⟩ :=
          traceAuxP_main hS.1 hS.2.2.2 (traceFuel c2 bb nb) bb nb [] []
            (stored_rooted' hS h3) hrnb (Or.inl h3) (Or.inr hfH) (Or.inl h3)
            (fun hn => absurd hn (stored_not_none h3))
            (fun _ => by omega)
            (by unfold traceFuel; omega)
        have htP : traceBackP c.store bb nb (traceFuel c2 bb nb) =
            .ok (anc, l1, l2) := by
          unfold traceBackP
          rw [heqT]
          simp
        rw [htP] at htq
        subst htq
        dsimp only at hw
        rcases cok with _ | _
        · rw [if_neg (by simp)] at hw
          simp at hw
        · rw [if_pos rfl] at hw
          simp only [Prod.mk.injEq] at hw
          obtain ⟨-, hw⟩ := hw
          subst hw
          obtain ⟨nhH, nhB, nhBe, nhT, nhL⟩ :=
            newFold_store l2
              (List.foldl applyOldBlock (saveBlock c2.store nb, []) l1)
          obtain ⟨ohH, ohB, ohBe, ohT, ohL⟩ :=
            oldFold_store l1 (saveBlock c2.store nb, [])
          have hHF : (List.foldl applyNewBlock
              (List.foldl applyOldBlock (saveBlock c2.store nb, []) l1)
              l2).1.headers =
              kinsert c.store.headers nb.header.id nb.header := by
            rw [nhH, ohH, hstc2]
            rfl
          have hBF : (List.foldl applyNewBlock
              (List.foldl applyOldBlock (saveBlock c2.store nb, []) l1)
              l2).1.bodies =
              kinsert c.store.bodies nb.header.id nb.txs := by
            rw [nhB, ohB, hstc2]
            rfl
          have hTF : (List.foldl applyNewBlock
              (List.foldl applyOldBlock (saveBlock c2.store nb, []) l1)
              l2).1.trunk =
              l2.foldl
                (fun tr b => kinsert tr (blockNumber b.header.id) b.header.id)
                (l1.foldl (fun tr ob => kerase tr (blockNumber ob.header.id))
                  c.store.trunk) := by
            rw [nhT, ohT, hstc2]
            rfl
          have hLF : (List.foldl applyNewBlock
              (List.foldl applyOldBlock (saveBlock c2.store nb, []) l1)
              l2).1.txLocs =
              l2.foldl (fun m b => saveTxLocsList m b.txs b.header.id)
                (l1.foldl (fun m ob => eraseTxLocsList m ob.txs)
                  c.store.txLocs) := by
            rw [nhL, ohL, hstc2]
            rfl
          have hre := CInv_reorg hS hfH hfB hp2 hnum' h3 h4 hP1 hP2
            (saveBestBlockID
              (List.foldl applyNewBlock
                (List.foldl applyOldBlock (saveBlock c2.store nb, []) l1)
                l2).1
              nb.header.id)
            hHF hBF hTF
          exact TInv_reorg hS hT hfH hfB hfreshT hp2 hnum' h3 h4 hancs hP1 hP2
            (saveBestBlockID
              (List.foldl applyNewBlock
                (List.foldl applyOldBlock (saveBlock c2.store nb, []) l1)
                l2).1
              nb.header.id)
            hHF hBF hLF hre.2.2
  · rw [heq] at hw
    simp only [Prod.mk.injEq] at hw
    obtain ⟨-, hw⟩ := hw
    subst hw
    rw [s1.store]
    exact hT

theorem TInv_of_reachF {c : Chain} (h : ReachF c) : TInv c.store := by
  induction h with
  | init => exact TInv_empty
  | genesis hR h0 hw ih =>
    exact TInv_writeGenesis (CInv_of_reach (reach_of_reachF hR)) ih hw
  | add hR hnum hfr hw ih =>
    exact TInv_addBlock (CInv_of_reach (reach_of_reachF hR)) ih hnum hfr hw

/-- Claim C4, amended: duplicated transaction ids break the location
index (counterexample: a reorg erases the location of a transaction still
on the trunk).  Under the numbering discipline and global uniqueness of
transaction ids (`ReachF`), `getTransaction` answers correctly: a
transaction contained in a trunk block is found, with a location whose
block is on the trunk and whose index points at a transaction with the
looked-up id; a transaction id contained in no trunk block answers
NotFound. -/
theorem getTransaction_correct {c : Chain} (hR : ReachF c) (tid : Nat) :
    ((∃ n bid txs, kfind c.store.trunk n = some bid ∧
        kfind c.store.bodies bid = some txs ∧ ∃ t ∈ txs, t.id = tid) →
      ∃ t loc c₂, getTransaction c tid = (.ok (t, loc), c₂) ∧ t.id = tid ∧
        kfind c.store.trunk (blockNumber loc.blockID) = some loc.blockID ∧
        ∃ txs, kfind c.store.bodies loc.blockID = some txs ∧
          ∃ hlt : loc.index < txs.length, (txs.get ⟨loc.index, hlt⟩).id = tid) ∧
    ((∀ n bid txs, kfind c.store.trunk n = some bid →
        kfind c.store.bodies bid = some txs → ∀ t ∈ txs, t.id ≠ tid) →
      (getTransaction c tid).1 = .error .notFound) := by
  obtain ⟨hu, hf, hb⟩ := TInv_of_reachF hR
  obtain ⟨hS, hcoh, -⟩ := CInv_of_reach (reach_of_reachF hR)
  constructor
  · rintro ⟨n, bid, txs, hk, htxs, t0, ht0, ht0id⟩
    have hsome := hb n bid hk txs htxs t0 ht0
    rw [ht0id] at hsome
    rcases hloc : kfind c.store.txLocs tid with _ | loc
    · rw [hloc] at hsome
      simp at hsome
    · obtain ⟨htr, txs1, hbod, hlt, hg⟩ := hf tid loc hloc
      unfold getTransaction
      rw [show loadTxLocation c.store tid = some loc from hloc]
      dsimp only
      obtain ⟨hq, hs⟩ := getBlockBody_spec c loc.blockID hcoh
      rcases hgb : getBlockBody c loc.blockID with ⟨rb, c2⟩
      rw [hgb] at hq hs
      simp only at hq hs
      rw [hbod] at hq
      simp [o2e] at hq
      subst hq
      dsimp only
      rw [List.get?_eq_get hlt]
      exact ⟨txs1.get ⟨loc.index, hlt⟩, loc, c2, rfl, hg, htr, txs1, hbod, hlt, hg⟩
  · intro hnone
    rcases hloc : kfind c.store.txLocs tid with _ | loc
    · unfold getTransaction
      rw [show loadTxLocation c.store tid = none from hloc]
    · obtain ⟨htr, txs1, hbod, hlt, hg⟩ := hf tid loc hloc
      exact absurd hg (hnone (blockNumber loc.blockID) loc.blockID txs1 htr hbod
        (txs1.get ⟨loc.index, hlt⟩) (List.get_mem txs1 loc.index hlt))

/-- Witness for the amended C4: in the fixture chain the genesis
transaction 7 sits on the trunk and `getTransaction` finds it with a valid
trunk location. -/
theorem getTransaction_correct_witness :
    (∃ n bid txs, kfind Fx.c3.store.trunk n = some bid ∧
        kfind Fx.c3.store.bodies bid = some txs ∧ ∃ t ∈ txs, t.id = 7) ∧
    (∃ t loc c₂, getTransaction Fx.c3 7 = (.ok (t, loc), c₂) ∧ t.id = 7 ∧
      kfind Fx.c3.store.trunk (blockNumber loc.blockID) = some loc.blockID ∧
      ∃ txs, kfind Fx.c3.store.bodies loc.blockID = some txs ∧
        ∃ hlt : loc.index < txs.length, (txs.get ⟨loc.index, hlt⟩).id = 7) := by
  have h1 : ∀ p, getBlockP Fx.c1.store Fx.b1.header.parentID = some p →
      Fx.b1.number = p.number + 1 := by
    intro p hp
    rw [show getBlockP Fx.c1.store Fx.b1.header.parentID = some Fx.g from by decide]
      at hp
    injection hp with hp
    subst hp
    decide
  have h2 : ∀ p, getBlockP Fx.c2.store Fx.b2.header.parentID = some p →
      Fx.b2.number = p.number + 1 := by
    intro p hp
    rw [show getBlockP Fx.c2.store Fx.b2.header.parentID = some Fx.b1 from by decide]
      at hp
    injection hp with hp
    subst hp
    decide
  have hRF : ReachF Fx.c3 :=
    ReachF.add
      (ReachF.add
        (ReachF.genesis ReachF.init (show Fx.g.number = 0 by decide)
          (show WriteGenesis initChain Fx.g true = (.ok (), Fx.c1) by decide))
        h1 (by decide)
        (show AddBlock Fx.c1 Fx.b1 true true = (.ok [], Fx.c2) by decide))
      h2 (by decide)
      (show AddBlock Fx.c2 Fx.b2 true true = (.ok [], Fx.c3) by decide)
  have hhit : ∃ n bid txs, kfind Fx.c3.store.trunk n = some bid ∧
      kfind Fx.c3.store.bodies bid = some txs ∧ ∃ t ∈ txs, t.id = 7 :=
    ⟨0, Fx.g.header.id, Fx.g.txs, by decide, by decide, ⟨7⟩, by decide, rfl⟩
  exact ⟨hhit, (getTransaction_correct hRF 7).1 hhit⟩

/-! ### Correctness of LookupTransaction on the head-side branch -/

theorem lookupInBranch_miss (tid : Nat) :
    ∀ (branch : List Block) (c : Chain), cacheCoh c →
      (∀ b ∈ branch, kfind c.store.bodies b.header.id = some b.txs) →
      (∀ b ∈ branch, ∀ t ∈ b.txs, t.id ≠ tid) →
      ∃ c', lookupInBranch c tid branch = (.ok none, c') ∧ ReadStep c c' := by
  intro branch
  induction branch with
  | nil => intro c _ _ _; exact ⟨c, rfl, ReadStep.same⟩
  | cons b rest ih =>
    intro c hcoh hbody hne
    unfold lookupInBranch
    obtain ⟨hq, hs⟩ := getTransactionIDs_spec c b.header.id hcoh
    rcases hgt : getTransactionIDs c b.header.id with ⟨ri, c1⟩
    rw [hgt] at hq hs
    simp only at hq hs
    rw [hbody b (List.mem_cons_self _ _)] at hq
    simp [o2e] at hq
    subst hq
    dsimp only
    rw [buildTxIdMap_none b.txs tid (hne b (List.mem_cons_self _ _))]
    obtain ⟨c', heq, hs'⟩ := ih c1 (hs.coh hcoh)
      (fun q hq' => by rw [hs.store]; exact hbody q (List.mem_cons_of_mem _ hq'))
      (fun q hq' => hne q (List.mem_cons_of_mem _ hq'))
    exact ⟨c', heq, hs.trans hs'⟩

theorem lookupInBranch_hit (tid : Nat) :
    ∀ (branch : List Block) (c : Chain), cacheCoh c →
      (∀ b ∈ branch, kfind c.store.bodies b.header.id = some b.txs) →
      (∃ x ∈ branch, ∃ t ∈ x.txs, t.id = tid) →
      ∃ x, x ∈ branch ∧ ∃ i, ∃ hlt : i < x.txs.length,
        (x.txs.get ⟨i, hlt⟩).id = tid ∧
        ∃ c', lookupInBranch c tid branch = (.ok (some ⟨x.header.id, i⟩), c') ∧
          ReadStep c c' := by
  intro branch
  induction branch with
  | nil => intro c _ _ h; simp at h
  | cons b rest ih =>
    intro c hcoh hbody hhit
    unfold lookupInBranch
    obtain ⟨hq, hs⟩ := getTransactionIDs_spec c b.header.id hcoh
    rcases hgt : getTransactionIDs c b.header.id with ⟨ri, c1⟩
    rw [hgt] at hq hs
    simp only at hq hs
    rw [hbody b (List.mem_cons_self _ _)] at hq
    simp [o2e] at hq
    subst hq
    dsimp only
    by_cases hbh : ∃ t ∈ b.txs, t.id = tid
    · obtain ⟨i, hlt, hg, hkv⟩ := buildTxIdMap_mem b.txs tid hbh
      rw [hkv]
      exact ⟨b, List.mem_cons_self _ _, i, hlt, hg, c1, rfl, hs⟩
    · have hne : ∀ t ∈ b.txs, t.id ≠ tid := fun t ht he => hbh ⟨t, ht, he⟩
      rw [buildTxIdMap_none b.txs tid hne]
      have hhit' : ∃ x ∈ rest, ∃ t ∈ x.txs, t.id = tid := by
        rcases hhit with ⟨x, hx, hx2⟩
        rcases List.mem_cons.mp hx with h' | h'
        · subst h'
          exact absurd hx2 hbh
        · exact ⟨x, h', hx2⟩
      obtain ⟨x, hx, i, hlt, hg, c', heq, hs'⟩ := ih c1 (hs.coh hcoh)
        (fun q hq' => by rw [hs.store]; exact hbody q (List.mem_cons_of_mem _ hq'))
        hhit'
      exact ⟨x, List.mem_cons_of_mem _ hx, i, hlt, hg, c', heq, hs.trans hs'⟩

/-- Claim C3, amended: duplicated transaction ids break the fallback
through the location index (counterexample: after a reorg a transaction in
the head's ancestor chain answers NotFound).  Under the numbering
discipline and global uniqueness of transaction ids (`ReachF`),
`LookupTransaction` from a stored head block answers correctly: a
transaction contained in a block of the head's ancestor chain (side-branch
blocks included) is found with a location naming such a block and a valid
index, and a transaction contained in no ancestor block answers
NotFound. -/
theorem lookupTransaction_correct {c : Chain} (hR : ReachF c) {hid : Hash}
    {hd : Block} (hhd : getBlockP c.store hid = some hd) (tid : Nat) :
    ((∃ x, Anc c.store hd x ∧ ∃ t ∈ x.txs, t.id = tid) →
      ∃ loc c₂, LookupTransaction c hid tid = (.ok loc, c₂) ∧
        ∃ x, Anc c.store hd x ∧ x.header.id = loc.blockID ∧
          ∃ hlt : loc.index < x.txs.length, (x.txs.get ⟨loc.index, hlt⟩).id = tid) ∧
    ((∀ x, Anc c.store hd x → ∀ t ∈ x.txs, t.id ≠ tid) →
      (LookupTransaction c hid tid).1 = .error .notFound) := by
  obtain ⟨hu, hf, hb⟩ := TInv_of_reachF hR
  obtain ⟨hS, hcoh, hrest⟩ := CInv_of_reach (reach_of_reachF hR)
  have hproper : ∃ bb, c.bestBlock = some bb ∧ c.store.best = some bb.header.id ∧
      getBlockP c.store bb.header.id = some bb ∧
      ∀ n, kfind c.store.trunk n = (ancAt c.store bb n).map (fun x => x.header.id) := by
    rcases hrest with ⟨hbn, hse⟩ | h
    · rw [hse] at hhd
      exact absurd hhd (by simp [getBlockP, emptyStorage, kfind])
    · exact h
  obtain ⟨bb, h1, h2, h3, h4⟩ := hproper
  have hhd' : getBlockP c.store hd.header.id = some hd := fetched_selfStored hS.1 hhd
  have hrd : Rooted c.store hd := stored_rooted' hS hhd
  have hrbb : Rooted c.store bb := stored_rooted' hS h3
  have hbest : getBestBlock c = (.ok bb, c) := getBestBlock_of_some c bb h1
  rcases getBlock_cases c hid hcoh with ⟨c1, heq, s1, hp⟩ | ⟨b0, c1, heq, s1, hp⟩
  · rw [hhd] at hp
    exact absurd hp (by simp)
  · have hb0 : hd = b0 := by
      rw [hhd] at hp
      injection hp with h
    subst hb0
    obtain ⟨htq, hts⟩ := traceBack_spec c1 hd bb (s1.coh hcoh)
    rcases htb : traceBack c1 hd bb with ⟨rt, c2⟩
    rw [htb] at htq hts
    simp only at htq hts
    rw [s1.store] at htq
    obtain ⟨anc, branch, l2, heqT, hP1, hP2, hancs, hancr, hdeep⟩ :=
      traceAuxP_main hS.1 hS.2.2.2 (traceFuel c1 hd bb) hd bb [] []
        hrd hrbb (Or.inl hhd') (Or.inl h3) (Or.inl hhd')
        (fun hn => absurd hn (stored_not_none hhd'))
        (fun hn => absurd hn (stored_not_none h3))
        (by unfold traceFuel; omega)
    have htP : traceBackP c.store hd bb (traceFuel c1 hd bb) =
        .ok (anc, branch, l2) := by
      unfold traceBackP
      rw [heqT]
      simp
    rw [htP] at htq
    subst htq
    have hbrStored : ∀ b ∈ branch, getBlockP c.store b.header.id = some b :=
      pathTo_stored hS.1 hP1 hhd'
    have hbrBody : ∀ b ∈ branch, kfind c.store.bodies b.header.id = some b.txs :=
      fun b hb => (getBlockP_some (hbrStored b hb)).2
    have hcharsO := pathTo_char hP1 hrd
    have hbrAnc : ∀ b ∈ branch, Anc c.store hd b := fun b hb =>
      (ancAt_sound hS.1 hrd ((hcharsO b).mp hb).2.2).2.1
    have hagree1 := pathTo_agree hP1 hrd
    have hagree2 := pathTo_agree hP2 hrbb
    have hcoh2 : cacheCoh c2 := hts.coh (s1.coh hcoh)
    have hst2 : c2.store = c.store := hts.store.trans s1.store
    have htrInv : ∀ n bid, kfind c.store.trunk n = some bid →
        ∃ y : Block, ancAt c.store bb n = some y ∧ y.header.id = bid ∧
          getBlockP c.store y.header.id = some y ∧ y.number = n := by
      intro n bid hk
      rw [h4 n] at hk
      rcases ha : ancAt c.store bb n with _ | y
      · rw [ha] at hk
        exact absurd hk (by simp)
      · rw [ha] at hk
        simp only [Option.map_some'] at hk
        injection hk with hk
        obtain ⟨hyn, hyanc, hyr, hyle, hyst⟩ := ancAt_sound hS.1 hrbb ha
        have hys : getBlockP c.store y.header.id = some y := by
          rcases hyst with h | h
          · exact h ▸ h3
          · exact h
        exact ⟨y, rfl, hk, hys, hyn⟩
    constructor
    · rintro ⟨x, hxanc, t, ht, htid⟩
      unfold LookupTransaction
      rw [hbest]
      dsimp only
      rw [heq]
      dsimp only
      rw [htb]
      dsimp only
      by_cases hbr : ∃ y ∈ branch, ∃ u ∈ y.txs, u.id = tid
      · obtain ⟨y, hy, i, hlt, hg, c', hloop, hs'⟩ :=
          lookupInBranch_hit tid branch c2 hcoh2
            (fun b hb => by rw [hst2]; exact hbrBody b hb) hbr
        rw [hloop]
        dsimp only
        exact ⟨⟨y.header.id, i⟩, c', rfl, y, hbrAnc y hy, rfl, hlt, hg⟩
      · have hne : ∀ b ∈ branch, ∀ u ∈ b.txs, u.id ≠ tid :=
          fun b hb u hu' he => hbr ⟨b, hb, u, hu', he⟩
        obtain ⟨c', hloop, hs'⟩ := lookupInBranch_miss tid branch c2 hcoh2
          (fun b hb => by rw [hst2]; exact hbrBody b hb) hne
        rw [hloop]
        dsimp only
        have hst' : c'.store = c.store := hs'.store.trans hst2
        have hxs : getBlockP c.store x.header.id = some x := anc_stored hS.1 hxanc hhd'
        have hxle : x.number ≤ anc.number := by
          by_contra hgt
          have hxat : ancAt c.store hd x.number = some x := anc_ancAt hxanc hrd
          have hxbr : x ∈ branch := (hcharsO x).mpr
            ⟨by omega, anc_le hxanc hrd, hxat⟩
          exact hne x hxbr t ht htid
        have hxbb : ancAt c.store bb x.number = some x := by
          rw [hagree2 x.number hxle, ← hagree1 x.number hxle]
          exact anc_ancAt hxanc hrd
        have hxtr : kfind c.store.trunk x.number = some x.header.id := by
          rw [h4 x.number, hxbb]
          rfl
        have hsome := hb x.number x.header.id hxtr x.txs (getBlockP_some hxs).2 t ht
        rw [htid] at hsome
        rcases hloc : kfind c.store.txLocs tid with _ | loc
        · rw [hloc] at hsome
          simp at hsome
        · obtain ⟨htr2, txs1, hbod1, hlt1, hg1⟩ := hf tid loc hloc
          obtain ⟨y, hybb, hyid, hys, hyn⟩ :=
            htrInv (blockNumber loc.blockID) loc.blockID htr2
          have htxs1 : txs1 = y.txs := by
            rw [← hyid, (getBlockP_some hys).2] at hbod1
            injection hbod1 with h
            exact h.symm
          have hyx : y.header.id = x.header.id := by
            apply hu (y.header.id, y.txs) (kfind_mem (getBlockP_some hys).2)
              (x.header.id, x.txs) (kfind_mem (getBlockP_some hxs).2)
              (txs1.get ⟨loc.index, hlt1⟩) ?_ t ht ?_
            · rw [← htxs1]
              exact List.get_mem txs1 loc.index hlt1
            · rw [hg1, htid]
          have hnle2 : blockNumber loc.blockID ≤ anc.number := by
            have hyxn : y.number = x.number := by
              show blockNumber y.header.id = blockNumber x.header.id
              rw [hyx]
            omega
          have hxy : x.txs = y.txs := by
            have e1 := (getBlockP_some hys).2
            rw [hyx, (getBlockP_some hxs).2] at e1
            injection e1 with e1
          have hxy2 : txs1 = x.txs := htxs1.trans hxy.symm
          subst hxy2
          rw [show loadTxLocation c'.store tid = some loc from
            by rw [hst']; exact hloc]
          dsimp only
          rw [if_pos hnle2]
          refine ⟨loc, c', rfl, x, hxanc, ?_, hlt1, hg1⟩
          rw [← hyx]
          exact hyid
    · intro hnall
      have hne : ∀ b ∈ branch, ∀ u ∈ b.txs, u.id ≠ tid :=
        fun b hb => hnall b (hbrAnc b hb)
      unfold LookupTransaction
      rw [hbest]
      dsimp only
      rw [heq]
      dsimp only
      rw [htb]
      dsimp only
      obtain ⟨c', hloop, hs'⟩ := lookupInBranch_miss tid branch c2 hcoh2
        (fun b hb => by rw [hst2]; exact hbrBody b hb) hne
      rw [hloop]
      dsimp only
      have hst' : c'.store = c.store := hs'.store.trans hst2
      rcases hloc : kfind c.store.txLocs tid with _ | loc
      · rw [show loadTxLocation c'.store tid = none from by rw [hst']; exact hloc]
      · obtain ⟨htr2, txs1, hbod1, hlt1, hg1⟩ := hf tid loc hloc
        rw [show loadTxLocation c'.store tid = some loc from
          by rw [hst']; exact hloc]
        dsimp only
        have hgt : ¬ blockNumber loc.blockID ≤ anc.number := by
          intro hle
          obtain ⟨y, hybb, hyid, hys, hyn⟩ :=
            htrInv (blockNumber loc.blockID) loc.blockID htr2
          have htxs1 : txs1 = y.txs := by
            rw [← hyid, (getBlockP_some hys).2] at hbod1
            injection hbod1 with h
            exact h.symm
          have hyhd : ancAt c.store hd (blockNumber loc.blockID) = some y := by
            rw [hagree1 _ hle, ← hagree2 _ hle]
            exact hybb
          have hanc2 : Anc c.store hd y := (ancAt_sound hS.1 hrd hyhd).2.1
          have hmem : txs1.get ⟨loc.index, hlt1⟩ ∈ y.txs := by
            rw [← htxs1]
            exact List.get_mem txs1 loc.index hlt1
          exact hnall y hanc2 _ hmem hg1
        rw [if_neg hgt]

/-- Witness for the amended C3: looking up the genesis transaction 7 from
the trunk tip of the fixture chain finds it in the genesis, an ancestor of
the tip. -/
theorem lookupTransaction_correct_witness :
    ∃ loc c₂, LookupTransaction Fx.c3 Fx.b2.header.id 7 = (.ok loc, c₂) ∧
      ∃ x, Anc Fx.c3.store Fx.b2 x ∧ x.header.id = loc.blockID ∧
        ∃ hlt : loc.index < x.txs.length, (x.txs.get ⟨loc.index, hlt⟩).id = 7 := by
  have h1 : ∀ p, getBlockP Fx.c1.store Fx.b1.header.parentID = some p →
      Fx.b1.number = p.number + 1 := by
    intro p hp
    rw [show getBlockP Fx.c1.store Fx.b1.header.parentID = some Fx.g from by decide]
      at hp
    injection hp with hp
    subst hp
    decide
  have h2 : ∀ p, getBlockP Fx.c2.store Fx.b2.header.parentID = some p →
      Fx.b2.number = p.number + 1 := by
    intro p hp
    rw [show getBlockP Fx.c2.store Fx.b2.header.parentID = some Fx.b1 from by decide]
      at hp
    injection hp with hp
    subst hp
    decide
  have hRF : ReachF Fx.c3 :=
    ReachF.add
      (ReachF.add
        (ReachF.genesis ReachF.init (show Fx.g.number = 0 by decide)
          (show WriteGenesis initChain Fx.g true = (.ok (), Fx.c1) by decide))
        h1 (by decide)
        (show AddBlock Fx.c1 Fx.b1 true true = (.ok [], Fx.c2) by decide))
      h2 (by decide)
      (show AddBlock Fx.c2 Fx.b2 true true = (.ok [], Fx.c3) by decide)
  have hanc : Anc Fx.c3.store Fx.b2 Fx.g :=
    Anc.step (by decide)
      (show getBlockP Fx.c3.store Fx.b2.header.parentID = some Fx.b1 by decide)
      (Anc.step (by decide)
        (show getBlockP Fx.c3.store Fx.b1.header.parentID = some Fx.g by decide)
        (Anc.refl Fx.g))
  exact (lookupTransaction_correct hRF
      (show getBlockP Fx.c3.store Fx.b2.header.id = some Fx.b2 by decide) 7).1
    ⟨Fx.g, hanc, ⟨7⟩, by decide, rfl⟩

end Thor
